import Mathlib

/-!
# Erasure of computationally irrelevant terms (`old_erase_irrelevant.cpp`)

A shallow embedding of the pass `old_erase_irrelevant` of
`src/library/compiler/old_erase_irrelevant.cpp`.  Every method of the class
`old_erase_irrelevant_fn` is a definition of the same name.  The recursive
entry point `visit` of the visitor is passed to the methods as an argument,
and tied into a knot by a fuel-indexed definition at the end.
-/

namespace OldEraseIrrelevant

/-! ## Data model -/

/-- Hierarchical names (`name` of the runtime): a list of string components
    hanging off the anonymous name. -/
inductive Name where
  | anonymous : Name
  | str (pre : Name) (s : String) : Name
  deriving DecidableEq, Repr

/-- The method `name::get_prefix`: the name without its last component. -/
def Name.prefixOf : Name → Name
  | .anonymous => .anonymous
  | .str p _ => p

/-- Universe levels carry no information the pass looks at. -/
abbrev Level := Nat

/-- Expressions.  The variants are those of the expression type the pass works
    on: bound variables, locals, sorts, constants, applications, the three
    binders, literals, metadata wrappers, and the two markers of the erased
    normal form.  A metadata node keeps the one flag the pass reads (marked as
    computationally irrelevant).  Binder annotations (implicit, instance) are
    left out: no method of the pass reads them. -/
inductive Expr where
  | bvar (idx : Nat) : Expr
  | loc (id : Nat) : Expr
  | sort (l : Level) : Expr
  | const (n : Name) (ls : List Level) : Expr
  | app (f a : Expr) : Expr
  | lam (n : Name) (d b : Expr) : Expr
  | pi (n : Name) (d b : Expr) : Expr
  | elet (n : Name) (t v b : Expr) : Expr
  | lit (n : Nat) : Expr
  | mdata (irrel : Bool) (e : Expr) : Expr
  | neutral : Expr
  | unreachable : Expr
  deriving DecidableEq, Repr

/-- Modelled from the spec: `mk_enf_neutral` of `library/compiler/util.h`, the
    canonical placeholder `NeutralMarker` for an erased value. -/
def mk_enf_neutral : Expr := .neutral

/-- Modelled from the spec: `mk_enf_unreachable` of `library/compiler/util.h`,
    the canonical placeholder `UnreachableMarker`. -/
def mk_enf_unreachable : Expr := .unreachable

/-- Modelled from the spec: `is_enf_neutral`, the test for `NeutralMarker`. -/
def is_enf_neutral (e : Expr) : Bool := e == .neutral

/-- Modelled from the spec: the kernel's test `is_lambda` for a `Lambda` node. -/
def is_lambda : Expr → Bool
  | .lam _ _ _ => true
  | _ => false

/-- Modelled from the spec: the kernel's test `is_let` for a `Let` node. -/
def is_let : Expr → Bool
  | .elet _ _ _ _ => true
  | _ => false

/-- Modelled from the spec: the kernel's test `is_sort` for a `Sort` node. -/
def is_sort : Expr → Bool
  | .sort _ => true
  | _ => false

/-- Modelled from the spec: the kernel's test `is_constant` for a `Constant` node. -/
def is_constant : Expr → Bool
  | .const _ _ => true
  | _ => false

/-- Modelled from the spec: `has_loose_bvars` of the kernel, whether a bound
    variable of the expression points outside it; `d` binders have been
    crossed. -/
def has_loose_bvars_at : Expr → Nat → Bool
  | .bvar i, d => decide (d ≤ i)
  | .loc _, _ => false
  | .sort _, _ => false
  | .const _ _, _ => false
  | .app f a, d => has_loose_bvars_at f d || has_loose_bvars_at a d
  | .lam _ t b, d => has_loose_bvars_at t d || has_loose_bvars_at b (d + 1)
  | .pi _ t b, d => has_loose_bvars_at t d || has_loose_bvars_at b (d + 1)
  | .elet _ t v b, d =>
      has_loose_bvars_at t d || has_loose_bvars_at v d || has_loose_bvars_at b (d + 1)
  | .lit _, _ => false
  | .mdata _ e, d => has_loose_bvars_at e d
  | .neutral, _ => false
  | .unreachable, _ => false

/-- Modelled from the spec: `has_loose_bvars(e)`: the expression has an
    unresolved bound-variable reference. -/
def has_loose_bvars (e : Expr) : Bool := has_loose_bvars_at e 0

/-- Modelled from the spec: `has_local` of the kernel, whether a `Local`
    occurs in the expression. -/
def has_local : Expr → Bool
  | .bvar _ => false
  | .loc _ => true
  | .sort _ => false
  | .const _ _ => false
  | .app f a => has_local f || has_local a
  | .lam _ t b => has_local t || has_local b
  | .pi _ t b => has_local t || has_local b
  | .elet _ t v b => has_local t || has_local v || has_local b
  | .lit _ => false
  | .mdata _ e => has_local e
  | .neutral => false
  | .unreachable => false

/-! ## Binder-Type Erasure -/

def erase_type (e : Expr) : Expr :=
  if !has_loose_bvars e && !has_local e then e else mk_enf_neutral

def is_irrelevant_lambda_let_body : Expr → Bool
  | .lam _ _ b => is_irrelevant_lambda_let_body b
  | .elet _ _ _ b => is_irrelevant_lambda_let_body b
  | e => is_enf_neutral e

def erase_lambda_let_types_when_relevant : Expr → Expr
  | .lam n d b => .lam n (erase_type d) (erase_lambda_let_types_when_relevant b)
  | .elet n t v b => .elet n (erase_type t) v (erase_lambda_let_types_when_relevant b)
  | e => e

def erase_lambda_let_types_when_irrelevant : Expr → Expr
  | .lam n _ b => .lam n mk_enf_neutral (erase_lambda_let_types_when_irrelevant b)
  | .elet _ _ _ b => erase_lambda_let_types_when_irrelevant b
  | e => e

def erase_lambda_let_types (e : Expr) : Expr :=
  if is_irrelevant_lambda_let_body e then erase_lambda_let_types_when_irrelevant e
  else erase_lambda_let_types_when_relevant e

/-! ## Kernel operations on expressions -/

/-- Modelled from the spec: `mk_app(f, n, args)` of the kernel, the
    left-associative application of `f` to the arguments in order. -/
def mk_app (f : Expr) (args : List Expr) : Expr := args.foldl Expr.app f

/-- Modelled from the spec: the head returned by `get_app_args`. -/
def get_app_fn : Expr → Expr
  | .app f _ => get_app_fn f
  | e => e

/-- The arguments of an application, collected from the last one. -/
def get_app_args_aux : Expr → List Expr → List Expr
  | .app f a, acc => get_app_args_aux f (a :: acc)
  | _, acc => acc

/-- Modelled from the spec: the flattened argument list filled in by
    `get_app_args`, in application order. -/
def get_app_args (e : Expr) : List Expr := get_app_args_aux e []

/-- Modelled from the spec: `lift_loose_bvars(e, s, d)` of the kernel: the
    bound variables pointing at or above `s` are shifted up by `d`. -/
def lift_loose_bvars : Expr → Nat → Nat → Expr
  | .bvar i, s, d => if i < s then .bvar i else .bvar (i + d)
  | .loc i, _, _ => .loc i
  | .sort l, _, _ => .sort l
  | .const n ls, _, _ => .const n ls
  | .app f a, s, d => .app (lift_loose_bvars f s d) (lift_loose_bvars a s d)
  | .lam n t b, s, d => .lam n (lift_loose_bvars t s d) (lift_loose_bvars b (s + 1) d)
  | .pi n t b, s, d => .pi n (lift_loose_bvars t s d) (lift_loose_bvars b (s + 1) d)
  | .elet n t v b, s, d =>
      .elet n (lift_loose_bvars t s d) (lift_loose_bvars v s d) (lift_loose_bvars b (s + 1) d)
  | .lit n, _, _ => .lit n
  | .mdata m e, s, d => .mdata m (lift_loose_bvars e s d)
  | .neutral, _, _ => .neutral
  | .unreachable, _, _ => .unreachable

/-- Substitution of `subst` for the bound variable that points `k` binders
    out; the variables beyond it are lowered by one. -/
def instantiate_at : Expr → Nat → Expr → Expr
  | .bvar i, k, subst =>
      if i < k then .bvar i else if i = k then lift_loose_bvars subst 0 k else .bvar (i - 1)
  | .loc i, _, _ => .loc i
  | .sort l, _, _ => .sort l
  | .const n ls, _, _ => .const n ls
  | .app f a, k, subst => .app (instantiate_at f k subst) (instantiate_at a k subst)
  | .lam n t b, k, subst => .lam n (instantiate_at t k subst) (instantiate_at b (k + 1) subst)
  | .pi n t b, k, subst => .pi n (instantiate_at t k subst) (instantiate_at b (k + 1) subst)
  | .elet n t v b, k, subst =>
      .elet n (instantiate_at t k subst) (instantiate_at v k subst) (instantiate_at b (k + 1) subst)
  | .lit n, _, _ => .lit n
  | .mdata m e, k, subst => .mdata m (instantiate_at e k subst)
  | .neutral, _, _ => .neutral
  | .unreachable, _, _ => .unreachable

/-- Modelled from the spec: `instantiate(body, subst)` of the kernel, the
    substitution operation used when a binder is peeled: the outermost loose
    bound variable of `body` is replaced by `subst`. -/
def instantiate (body subst : Expr) : Expr := instantiate_at body 0 subst

/-- Modelled from the spec: `instantiate_rev(e, n, subst)` of the kernel: the
    loose bound variable `i` is replaced by `subst[n - 1 - i]`. -/
def instantiate_rev (e : Expr) (subst : List Expr) : Expr :=
  subst.foldr (fun s acc => instantiate acc s) e

/-- Position of a `Local` id in a list of ids. -/
def local_index : List Nat → Nat → Option Nat
  | [], _ => none
  | x :: xs, id => if x = id then some 0 else (local_index xs id).map (· + 1)

/-- The locals whose ids are listed (innermost first) are turned into bound
    variables; `k` binders have been crossed. -/
def abstract_locals_at : Expr → Nat → List Nat → Expr
  | .bvar i, _, _ => .bvar i
  | .loc i, k, ids =>
      match local_index ids i with
      | some j => .bvar (k + j)
      | none => .loc i
  | .sort l, _, _ => .sort l
  | .const n ls, _, _ => .const n ls
  | .app f a, k, ids => .app (abstract_locals_at f k ids) (abstract_locals_at a k ids)
  | .lam n t b, k, ids => .lam n (abstract_locals_at t k ids) (abstract_locals_at b (k + 1) ids)
  | .pi n t b, k, ids => .pi n (abstract_locals_at t k ids) (abstract_locals_at b (k + 1) ids)
  | .elet n t v b, k, ids =>
      .elet n (abstract_locals_at t k ids) (abstract_locals_at v k ids)
        (abstract_locals_at b (k + 1) ids)
  | .lit n, _, _ => .lit n
  | .mdata m e, k, ids => .mdata m (abstract_locals_at e k ids)
  | .neutral, _, _ => .neutral
  | .unreachable, _, _ => .unreachable

/-- A declaration of the local context: the id of the `Local` that refers to
    it, the binder name, the type, and the value of a let-variable. -/
structure LocalDecl where
  id : Nat
  name : Name
  type : Expr
  value : Option Expr
  deriving DecidableEq, Repr

/-- Modelled from the spec: the local context of the type context: the locals
    in scope, and the supply of fresh ids. -/
structure LocalContext where
  decls : List LocalDecl
  next : Nat
  deriving DecidableEq, Repr

/-- Modelled from the spec: `tmp_locals::push_local` / `push_let`: a fresh
    local is declared and added to the scope. -/
def LocalContext.push (lctx : LocalContext) (n : Name) (type : Expr) (value : Option Expr) :
    LocalContext × LocalDecl :=
  (⟨lctx.decls ++ [⟨lctx.next, n, type, value⟩], lctx.next + 1⟩, ⟨lctx.next, n, type, value⟩)

/-- Modelled from the spec: `abstract_locals(e, n, locals)` of the kernel; the
    last local of the list becomes the bound variable 0. -/
def abstract_locals (e : Expr) (locals : List LocalDecl) : Expr :=
  abstract_locals_at e 0 (locals.reverse.map LocalDecl.id)

/-- The binders of `tmp_locals::mk_lambda`, built from the innermost local
    outwards; `rev` lists the locals innermost first. -/
def mk_lambda_core : List LocalDecl → Expr → Expr
  | [], r => r
  | d :: rev, r =>
      let ty := abstract_locals_at d.type 0 (rev.map LocalDecl.id)
      match d.value with
      | none => mk_lambda_core rev (.lam d.name ty r)
      | some v => mk_lambda_core rev (.elet d.name ty (abstract_locals_at v 0 (rev.map LocalDecl.id)) r)

/-- Modelled from the spec: `tmp_locals::mk_lambda(e)`: the result is
    re-wrapped in binders over the pushed locals, a `Lambda` for a local and a
    `Let` for a let-variable, the locals becoming bound variables again. -/
def mk_lambda (locals : List LocalDecl) (e : Expr) : Expr :=
  mk_lambda_core locals.reverse (abstract_locals e locals)

/-! ## Environment, type context and failures -/

/-- Modelled from the spec: the metadata of an inductive-type declaration:
    parameter count, index count and ordered constructor names. -/
structure InductiveVal where
  nparams : Nat
  nindices : Nat
  cnstrs : List Name
  deriving DecidableEq, Repr

/-- Modelled from the spec: the metadata of a recursor declaration:
    parameter, index, motive and minor-premise counts. -/
structure RecursorVal where
  nparams : Nat
  nindices : Nat
  nmotives : Nat
  nminors : Nat
  deriving DecidableEq, Repr

/-- Modelled from the spec: a declaration of the environment: an inductive
    type, a recursor, or a plain constant. -/
inductive ConstantInfo where
  | induct (v : InductiveVal) : ConstantInfo
  | recursor (v : RecursorVal) : ConstantInfo
  | other : ConstantInfo
  deriving DecidableEq, Repr

/-- Modelled from the spec: the global declaration store and the name
    predicates of the library that the pass calls. -/
structure Environment where
  get : Name → Option ConstantInfo
  is_cases_on_recursor : Name → Bool
  is_recursor : Name → Bool
  is_no_confusion : Name → Bool
  is_recursive_datatype : Name → Bool
  get_constructor_arity : Name → Nat
  is_constructor_app : Expr → Option Name

/-- Modelled from the spec: the type-inference and normalisation oracle
    (`type_context_old`).  `none` stands for a thrown exception. -/
structure TypeContext where
  infer : LocalContext → Expr → Option Expr
  whnf : LocalContext → Expr → Option Expr
  is_prop : LocalContext → Expr → Option Bool

/-- The collaborators of a visitor object: the environment `env()`, the type
    context `ctx()`, the literal recognizer `to_nat_value` and the kernel
    function `beta_reduce`. -/
structure Visitor where
  env : Environment
  ctx : TypeContext
  to_nat_value : LocalContext → Expr → Option Nat
  beta_reduce : Expr → Expr

/-- How a call of the pass can end without a result.  `exception` is a thrown
    `exception` with its message; `assertion` is a violated `lean_assert`
    (checked in debug builds only); `undefined` is a read past the end of
    a raw array, which the source does not guard; `fuel` is the
    recursion bound of the model running out. -/
inductive Failure where
  | exception (msg : String) : Failure
  | assertion : Failure
  | undefined : Failure
  | fuel : Failure
  deriving DecidableEq, Repr

/-- The outcome of a call: a value, or the way the call ended without one. -/
abbrev Result := Except Failure

deriving instance DecidableEq for Except

/-- Modelled from the spec: the macro `lean_assert` of `util/debug.h`: a
    violated structural precondition ends the call with a hard failure, here
    the failure `assertion`. -/
def lean_assert (c : Bool) : Result Unit :=
  if c then pure () else throw Failure.assertion

/-- The indexing `args[i]` of a `buffer`, which asserts `i < size`. -/
def buffer_get (args : List Expr) (i : Nat) : Result Expr :=
  match args[i]? with
  | some a => pure a
  | none => throw Failure.assertion

/-- The accessor `const_name`, which asserts that its argument is a constant. -/
def const_name : Expr → Result Name
  | .const n _ => pure n
  | _ => throw Failure.assertion

/-- The lookup `env().get(n)`, which throws for an unknown declaration. -/
def env_get (V : Visitor) (n : Name) : Result ConstantInfo :=
  match V.env.get n with
  | some info => pure info
  | none => throw (Failure.exception "unknown declaration")

/-- The accessor `to_inductive_val`, which asserts that the declaration is an
    inductive type. -/
def to_inductive_val : ConstantInfo → Result InductiveVal
  | .induct v => pure v
  | _ => throw Failure.assertion

/-- The accessor `to_recursor_val`, which asserts that the declaration is a
    recursor. -/
def to_recursor_val : ConstantInfo → Result RecursorVal
  | .recursor v => pure v
  | _ => throw Failure.assertion

/-- Modelled from the spec: `get_constructor_names(env, I, cnames)`: the
    ordered constructor names of the inductive declaration `I`. -/
def get_constructor_names (V : Visitor) (I_name : Name) : Result (List Name) := do
  let I_info ← env_get V I_name
  let I_val ← to_inductive_val I_info
  pure I_val.cnstrs

/-- Unsigned 32-bit subtraction. -/
def usub (a b : Nat) : Nat := (a + 4294967296 - b % 4294967296) % 4294967296

/-- The components of a name, separated by dots. -/
def Name.toStr : Name → String
  | .anonymous => ""
  | .str .anonymous s => s
  | .str p s => p.toStr ++ "." ++ s

/-- The name with the one component `a`. -/
def name1 (a : String) : Name := .str .anonymous a
/-- The name `a.b`. -/
def name2 (a b : String) : Name := .str (.str .anonymous a) b

/-! Modelled from the spec: the names of the built-in operators, declared in
`library/constants.h`; each is the name its accessor is called after. -/

def get_false_name : Name := name1 "false"
def get_eq_rec_name : Name := name2 "eq" "rec"
def get_acc_cases_on_name : Name := name2 "acc" "cases_on"
def get_and_cases_on_name : Name := name2 "and" "cases_on"
def get_and_rec_name : Name := name2 "and" "rec"
def get_quot_lift_name : Name := name2 "quot" "lift"
def get_quot_mk_name : Name := name2 "quot" "mk"
def get_subtype_rec_name : Name := name2 "subtype" "rec"
def get_subtype_mk_name : Name := name2 "subtype" "mk"
def get_subtype_val_name : Name := name2 "subtype" "val"
def get_lc_unreachable_name : Name := name1 "lc_unreachable"

/-! ## The visitor `old_erase_irrelevant_fn`

The methods take the visitor's collaborators `V`, the recursive entry point
`visit` and the local context in scope. -/

def visit_sort (_e : Expr) : Result Expr := pure mk_enf_neutral

def visit_pi (_e : Expr) : Result Expr := pure mk_enf_neutral

def is_comp_irrelevant (V : Visitor) (lctx : LocalContext) (e : Expr) : Bool :=
  match V.ctx.infer lctx e with
  | none => false
  | some t =>
    match V.ctx.whnf lctx t with
    | none => false
    | some type =>
      if is_sort type then true
      else
        match V.ctx.is_prop lctx type with
        | none => false
        | some b => b

/-- Modelled from the spec: `is_marked_as_comp_irrelevant` of
    `library/compiler/comp_irrelevant.h`: the metadata node carries the flag
    "author-declared computationally irrelevant". -/
def is_marked_as_comp_irrelevant : Expr → Bool
  | .mdata irrel _ => irrel
  | _ => false

/-- The accessor `mdata_expr`. -/
def mdata_expr : Expr → Result Expr
  | .mdata _ e => pure e
  | _ => throw Failure.assertion

def visit_mdata (V : Visitor) (visit : LocalContext → Expr → Result Expr)
    (lctx : LocalContext) (e : Expr) : Result Expr :=
  if is_marked_as_comp_irrelevant e then pure mk_enf_neutral
  else if is_comp_irrelevant V lctx e then pure mk_enf_neutral
  else do
    let inner ← mdata_expr e
    visit lctx inner

def visit_local (V : Visitor) (lctx : LocalContext) (e : Expr) : Result Expr :=
  if is_comp_irrelevant V lctx e then pure mk_enf_neutral else pure e

def visit_constant (V : Visitor) (lctx : LocalContext) (e : Expr) : Result Expr :=
  if is_comp_irrelevant V lctx e then pure mk_enf_neutral
  else do
    let n ← const_name e
    if n = get_lc_unreachable_name then pure mk_enf_unreachable
    else pure (Expr.const n [])

/-- The loop of `compiler_step_visitor::visit_lambda_let`. -/
def visit_lambda_let_loop (visit : LocalContext → Expr → Result Expr) :
    LocalContext → List LocalDecl → Expr → Result Expr
  | lctx, locals, .lam n d b =>
      let d1 := instantiate_rev d (locals.map fun l => Expr.loc l.id)
      visit_lambda_let_loop visit (lctx.push n d1 none).1 (locals ++ [(lctx.push n d1 none).2]) b
  | lctx, locals, .elet n t v b =>
      let d1 := instantiate_rev t (locals.map fun l => Expr.loc l.id)
      match visit lctx (instantiate_rev v (locals.map fun l => Expr.loc l.id)) with
      | .error err => .error err
      | .ok v1 =>
        visit_lambda_let_loop visit (lctx.push n d1 (some v1)).1
          (locals ++ [(lctx.push n d1 (some v1)).2]) b
  | lctx, locals, t =>
      match visit lctx (instantiate_rev t (locals.map fun l => Expr.loc l.id)) with
      | .error err => .error err
      | .ok t1 => pure (mk_lambda locals t1)

/-- Modelled from the spec: `compiler_step_visitor::visit_lambda` and
    `visit_let`, the generic driver on a `Lambda`/`Let` chain: the binders are
    replaced by fresh locals, the let-values and the innermost body are visited
    (the binder types are not), and the chain is rebuilt. -/
def compiler_step_visitor_visit_lambda_let (visit : LocalContext → Expr → Result Expr)
    (lctx : LocalContext) (e : Expr) : Result Expr :=
  visit_lambda_let_loop visit lctx [] e

def visit_lambda (visit : LocalContext → Expr → Result Expr)
    (lctx : LocalContext) (e : Expr) : Result Expr := do
  let r ← compiler_step_visitor_visit_lambda_let visit lctx e
  pure (erase_lambda_let_types r)

def visit_let (visit : LocalContext → Expr → Result Expr)
    (lctx : LocalContext) (e : Expr) : Result Expr := do
  let r ← compiler_step_visitor_visit_lambda_let visit lctx e
  pure (erase_lambda_let_types r)

/-- The loops `for (...) args[i] = visit(args[i])`: the expressions are
    visited in order. -/
def visit_args (visit : LocalContext → Expr → Result Expr) (lctx : LocalContext) :
    List Expr → Result (List Expr)
  | [] => pure []
  | a :: as => do
    let a1 ← visit lctx a
    let as1 ← visit_args visit lctx as
    pure (a1 :: as1)

/-- The inner loop of `visit_minors` that peels `data_sz` leading lambdas of a
    minor premise, pushing a local for each. -/
def peel_minor : Nat → LocalContext → List LocalDecl → Expr →
    Result (LocalContext × List LocalDecl × Expr)
  | 0, lctx, locals, new_minor => pure (lctx, locals, new_minor)
  | j + 1, lctx, locals, new_minor =>
    match new_minor with
    | .lam n d b =>
        peel_minor j (lctx.push n d none).1 (locals ++ [(lctx.push n d none).2])
          (instantiate b (Expr.loc (lctx.push n d none).2.id))
    | _ => throw (Failure.exception
        "unexpected occurrence of 'cases_on' expression, the minor premise is expected to be a lambda-expression")

/-- The loop "distribute args over minors" of `visit_minors`; `minors` and
    `cnames` are read at the same index. -/
def distribute_args (V : Visitor) (visit : LocalContext → Expr → Result Expr)
    (lctx : LocalContext) (nparams : Nat) (args : List Expr) :
    List Expr → List Name → Result (List Expr)
  | [], _ => pure []
  | _ :: _, [] => throw Failure.undefined
  | minor :: minors, cname :: cnames => do
    let carity := V.env.get_constructor_arity cname
    lean_assert (decide (carity ≥ nparams))
    let data_sz := carity - nparams
    let (lctx1, locals, body) ← peel_minor data_sz lctx [] minor
    let new_minor ← visit lctx1 body
    let new_minor := V.beta_reduce (mk_app new_minor args)
    let r := erase_lambda_let_types (mk_lambda locals new_minor)
    let rs ← distribute_args V visit lctx nparams args minors cnames
    pure (r :: rs)

/-- Process minor premises and args, and distribute args over minors.
    `minors` are the `nminors` minor premises, `args` the extra arguments;
    the new minor premises are returned. -/
def visit_minors (V : Visitor) (visit : LocalContext → Expr → Result Expr)
    (lctx : LocalContext) (nparams : Nat) (minors : List Expr) (cnames : List Name)
    (args : List Expr) : Result (List Expr) :=
  if args.length > 0 then do
    let args1 ← visit_args visit lctx args
    distribute_args V visit lctx nparams args1 minors cnames
  else
    visit_args visit lctx minors

/-- We keep only the major and minor premises in cases_on applications. -/
def visit_cases_on (V : Visitor) (visit : LocalContext → Expr → Result Expr)
    (lctx : LocalContext) (fn : Expr) (args : List Expr) : Result Expr := do
  let rec_name ← const_name fn
  let I_name := rec_name.prefixOf
  if I_name = get_false_name then pure mk_enf_unreachable
  else do
    let I_info ← env_get V I_name
    let I_val ← to_inductive_val I_info
    let nparams := I_val.nparams
    let nminors := I_val.cnstrs.length
    let nindices := I_val.nindices
    let arity := nparams + 1 + nindices + 1 + nminors
    lean_assert (decide (args.length ≥ arity))
    let cnames ← get_constructor_names V I_name
    let minors := (args.drop (nparams + 1 + nindices + 1)).take nminors
    let extra_args := args.drop arity
    let minors1 ← visit_minors V visit lctx nparams minors cnames extra_args
    let major0 ← buffer_get args (nparams + 1 + nindices)
    let major ← visit lctx major0
    let new_fn ← visit lctx fn
    pure (mk_app (mk_app new_fn [major]) minors1)

/-- We keep only the major and minor premises in rec applications.
    This method also converts the rec into cases_on. -/
def visit_rec (V : Visitor) (visit : LocalContext → Expr → Result Expr)
    (lctx : LocalContext) (fn : Expr) (args : List Expr) : Result Expr := do
  let rec_name ← const_name fn
  let I_name := rec_name.prefixOf
  if I_name = get_false_name then pure mk_enf_unreachable
  else do
    lean_assert (!V.env.is_recursive_datatype I_name)
    let rec_info ← env_get V rec_name
    let rec_val ← to_recursor_val rec_info
    let nparams := rec_val.nparams
    let nminors := rec_val.nminors
    let nindices := rec_val.nindices
    let nmotives := rec_val.nmotives
    let arity := nparams + nmotives + nminors + nindices + 1
    lean_assert (decide (args.length ≥ arity))
    let cnames ← get_constructor_names V I_name
    let new_fn := Expr.const (Name.str I_name "cases_on") []
    let major0 ← buffer_get args (nparams + 1 + nminors + nindices)
    let major ← visit lctx major0
    let minors := (args.drop (nparams + 1)).take nminors
    let extra_args := args.drop arity
    let minors1 ← visit_minors V visit lctx nparams minors cnames extra_args
    pure (mk_app (mk_app new_fn [major]) minors1)

/-- The loop of `add_args`: `e = mk_app(e, visit(args[i]))` for the listed
    arguments. -/
def add_args_loop (visit : LocalContext → Expr → Result Expr) (lctx : LocalContext) :
    Expr → List Expr → Result Expr
  | e, [] => pure e
  | e, a :: as => do
    let a1 ← visit lctx a
    add_args_loop visit lctx (Expr.app e a1) as

def add_args (V : Visitor) (visit : LocalContext → Expr → Result Expr)
    (lctx : LocalContext) (e : Expr) (start_idx : Nat) (args : List Expr) : Result Expr := do
  let r ← add_args_loop visit lctx e (args.drop start_idx)
  pure (V.beta_reduce r)

/-- Remove eq.rec applications since they are just "type-casting" operations. -/
def visit_eq_rec (V : Visitor) (visit : LocalContext → Expr → Result Expr)
    (lctx : LocalContext) (args : List Expr) : Result Expr := do
  lean_assert (decide (args.length ≥ 6))
  let a3 ← buffer_get args 3
  let major ← visit lctx a3
  add_args V visit lctx major 6 args

/-- Number of leading lambdas of an expression. -/
def lambda_depth : Expr → Nat
  | .lam _ _ b => lambda_depth b + 1
  | _ => 0

/-- The loop of `consume_lambdas`, run for at most `n` lambdas. -/
def consume_lambdas_loop (V : Visitor) : Nat → LocalContext → List LocalDecl → Expr →
    Result (LocalContext × List LocalDecl × Expr)
  | n, lctx, locals, .lam x d b =>
    match n with
    | 0 => throw Failure.fuel
    | n + 1 =>
      consume_lambdas_loop V n (lctx.push x d none).1 (locals ++ [(lctx.push x d none).2])
        (instantiate b (Expr.loc (lctx.push x d none).2.id))
  | _, lctx, locals, e => pure (lctx, locals, V.beta_reduce e)

/-- All leading lambdas of `e` are peeled, a local is pushed for each, and the
    peeled body is beta-reduced.  Peeling a lambda leaves one leading lambda
    less, so that `lambda_depth e` rounds of the loop are enough. -/
def consume_lambdas (V : Visitor) (lctx : LocalContext) (locals : List LocalDecl) (e : Expr) :
    Result (LocalContext × List LocalDecl × Expr) :=
  consume_lambdas_loop V (lambda_depth e) lctx locals e

/-- The loop "add dummy proofs": `r = mk_app(r, mk_enf_neutral())`, `n` times. -/
def add_dummy_proofs : Nat → Expr → Expr
  | 0, r => r
  | n + 1, r => add_dummy_proofs n (Expr.app r mk_enf_neutral)

/-- We can eliminate no_confusion applications, they do not add any relevant
    information to the environment. -/
def visit_no_confusion (V : Visitor) (visit : LocalContext → Expr → Result Expr)
    (lctx : LocalContext) (fn : Expr) (args : List Expr) : Result Expr := do
  lean_assert (is_constant fn)
  let no_confusion_name ← const_name fn
  let I_name := no_confusion_name.prefixOf
  let I_info ← env_get V I_name
  let I_val ← to_inductive_val I_info
  let nparams := I_val.nparams
  let nindices := I_val.nindices
  let basic_arity := nparams + nindices + 1 + 2 + 1
  lean_assert (decide (args.length ≥ basic_arity))
  let lhs0 ← buffer_get args (nparams + nindices + 1)
  let lhs ← match V.ctx.whnf lctx lhs0 with
    | some r => pure r
    | none => throw (Failure.exception "whnf")
  let rhs0 ← buffer_get args (nparams + nindices + 2)
  let rhs ← match V.ctx.whnf lctx rhs0 with
    | some r => pure r
    | none => throw (Failure.exception "whnf")
  let lhs_constructor := V.env.is_constructor_app lhs
  let rhs_constructor := V.env.is_constructor_app rhs
  match lhs_constructor, rhs_constructor with
  | some lhs_c, some rhs_c =>
    if lhs_c ≠ rhs_c then pure mk_enf_unreachable
    else do
      lean_assert (decide (args.length ≥ basic_arity + 1))
      let major0 ← buffer_get args (nparams + nindices + 4)
      let (lctx1, locals, major1) ← consume_lambdas V lctx [] major0
      let major2 ← visit lctx1 major1
      let major := erase_lambda_let_types (mk_lambda locals major2)
      let c_data_sz := usub (V.env.get_constructor_arity lhs_c) nparams
      let r := add_dummy_proofs c_data_sz major
      add_args V visit lctx1 r (nparams + nindices + 5) args
  | _, _ =>
    throw (Failure.exception
      ("code generation failed, unsupported occurrence of '" ++ no_confusion_name.toStr ++
        "', constructors expected"))

/-- Treat subtype.mk as the identity function. -/
def visit_subtype_mk (V : Visitor) (visit : LocalContext → Expr → Result Expr)
    (lctx : LocalContext) (args : List Expr) : Result Expr := do
  lean_assert (decide (args.length ≥ 4))
  let a2 ← buffer_get args 2
  let r ← visit lctx a2
  add_args V visit lctx r 4 args

/-- Eliminate subtype.rec. -/
def visit_subtype_rec (V : Visitor) (visit : LocalContext → Expr → Result Expr)
    (lctx : LocalContext) (args : List Expr) : Result Expr := do
  lean_assert (decide (args.length ≥ 5))
  let a3 ← buffer_get args 3
  let minor ← visit lctx a3
  let a4 ← buffer_get args 4
  let major ← visit lctx a4
  let r := mk_app minor [major, mk_enf_neutral]
  add_args V visit lctx r 5 args

/-- subtype.val is also compiled as the identity function. -/
def visit_subtype_val (V : Visitor) (visit : LocalContext → Expr → Result Expr)
    (lctx : LocalContext) (args : List Expr) : Result Expr := do
  lean_assert (decide (args.length ≥ 3))
  let a2 ← buffer_get args 2
  let r ← visit lctx a2
  add_args V visit lctx r 3 args

def visit_acc_cases_on (V : Visitor) (visit : LocalContext → Expr → Result Expr)
    (lctx : LocalContext) (args : List Expr) : Result Expr := do
  lean_assert (decide (args.length ≥ 6))
  let a3 ← buffer_get args 3
  let a ← visit lctx a3
  let a5 ← buffer_get args 5
  let minor ← visit lctx a5
  let r := V.beta_reduce (mk_app minor [a, mk_enf_neutral])
  add_args V visit lctx r 6 args

def visit_and_cases_on (V : Visitor) (visit : LocalContext → Expr → Result Expr)
    (lctx : LocalContext) (args : List Expr) : Result Expr := do
  lean_assert (decide (args.length ≥ 5))
  let a4 ← buffer_get args 4
  let minor ← visit lctx a4
  let r := V.beta_reduce (mk_app minor [mk_enf_neutral, mk_enf_neutral])
  add_args V visit lctx r 5 args

/-- See and.cases_on. -/
def visit_and_rec (V : Visitor) (visit : LocalContext → Expr → Result Expr)
    (lctx : LocalContext) (args : List Expr) : Result Expr := do
  lean_assert (decide (args.length ≥ 5))
  let a3 ← buffer_get args 3
  let minor ← visit lctx a3
  let r := V.beta_reduce (mk_app minor [mk_enf_neutral, mk_enf_neutral])
  add_args V visit lctx r 5 args

def visit_quot_lift (V : Visitor) (visit : LocalContext → Expr → Result Expr)
    (lctx : LocalContext) (args : List Expr) : Result Expr := do
  lean_assert (decide (args.length ≥ 6))
  let a3 ← buffer_get args 3
  let f ← visit lctx a3
  let a5 ← buffer_get args 5
  let q ← visit lctx a5
  let r := V.beta_reduce (mk_app f [q])
  add_args V visit lctx r 6 args

def visit_quot_mk (V : Visitor) (visit : LocalContext → Expr → Result Expr)
    (lctx : LocalContext) (args : List Expr) : Result Expr := do
  lean_assert (decide (args.length ≥ 3))
  let a2 ← buffer_get args 2
  let r ← visit lctx a2
  add_args V visit lctx r 3 args

/-- Modelled from the spec: `compiler_step_visitor::visit_app`, the generic
    argument-wise erasure of an application in flattened form: the head and
    the arguments are visited and the application is rebuilt. -/
def compiler_step_visitor_visit_app (visit : LocalContext → Expr → Result Expr)
    (lctx : LocalContext) (e : Expr) : Result Expr := do
  let new_fn ← visit lctx (get_app_fn e)
  let new_args ← visit_args visit lctx (get_app_args e)
  pure (mk_app new_fn new_args)

/-- The dispatch of `visit_app` on the name of a constant head. -/
def visit_app_const (V : Visitor) (visit : LocalContext → Expr → Result Expr)
    (lctx : LocalContext) (e fn : Expr) (args : List Expr) (n : Name) : Result Expr :=
  if n = get_eq_rec_name then visit_eq_rec V visit lctx args
  else if n = get_acc_cases_on_name then visit_acc_cases_on V visit lctx args
  else if n = get_and_cases_on_name then visit_and_cases_on V visit lctx args
  else if n = get_and_rec_name then visit_and_rec V visit lctx args
  else if n = get_quot_lift_name then visit_quot_lift V visit lctx args
  else if n = get_quot_mk_name then visit_quot_mk V visit lctx args
  else if n = get_subtype_rec_name then visit_subtype_rec V visit lctx args
  else if V.env.is_cases_on_recursor n then visit_cases_on V visit lctx fn args
  else if V.env.is_recursor n then visit_rec V visit lctx fn args
  else if V.env.is_no_confusion n then visit_no_confusion V visit lctx fn args
  else if n = get_subtype_mk_name then visit_subtype_mk V visit lctx args
  else if n = get_subtype_val_name then visit_subtype_val V visit lctx args
  else if n = get_lc_unreachable_name then pure mk_enf_unreachable
  else compiler_step_visitor_visit_app visit lctx e

def visit_app (V : Visitor) (visit : LocalContext → Expr → Result Expr)
    (lctx : LocalContext) (e : Expr) : Result Expr :=
  if is_comp_irrelevant V lctx e then pure mk_enf_neutral
  else
    match V.to_nat_value lctx e with
    | some n => pure (Expr.lit n)
    | none =>
      let fn := get_app_fn e
      let args := get_app_args e
      if is_lambda fn then visit lctx (V.beta_reduce e)
      else
        match fn with
        | .const n _ => visit_app_const V visit lctx e fn args n
        | _ => compiler_step_visitor_visit_app visit lctx e

/-- Modelled from the spec: the dispatch `replace_visitor::visit` of the
    generic driver on the kind of the node.  The node kinds the pass does not
    specialise (bound variables, literals, the two markers) are leaves and
    are returned unchanged. -/
def visit_core (V : Visitor) (visit : LocalContext → Expr → Result Expr)
    (lctx : LocalContext) (e : Expr) : Result Expr :=
  match e with
  | .sort _ => visit_sort e
  | .pi _ _ _ => visit_pi e
  | .mdata _ _ => visit_mdata V visit lctx e
  | .loc _ => visit_local V lctx e
  | .const _ _ => visit_constant V lctx e
  | .lam _ _ _ => visit_lambda visit lctx e
  | .elet _ _ _ _ => visit_let visit lctx e
  | .app _ _ => visit_app V visit lctx e
  | .bvar _ => pure e
  | .lit _ => pure e
  | .neutral => pure e
  | .unreachable => pure e

/-- The recursive entry point `visit`; `fuel` bounds the depth of the
    recursion. -/
def visit (V : Visitor) : Nat → LocalContext → Expr → Result Expr
  | 0, _, _ => throw Failure.fuel
  | fuel + 1, lctx, e => visit_core V (visit V fuel) lctx e

/-- One more than the largest id of a `Local` of the expression. -/
def next_local_id : Expr → Nat
  | .bvar _ => 0
  | .loc i => i + 1
  | .sort _ => 0
  | .const _ _ => 0
  | .app f a => max (next_local_id f) (next_local_id a)
  | .lam _ t b => max (next_local_id t) (next_local_id b)
  | .pi _ t b => max (next_local_id t) (next_local_id b)
  | .elet _ t v b => max (next_local_id t) (max (next_local_id v) (next_local_id b))
  | .lit _ => 0
  | .mdata _ e => next_local_id e
  | .neutral => 0
  | .unreachable => 0

/-- The pass: a visitor is created, with an empty local context whose fresh
    locals differ from the locals of the input, and run on the input. -/
def old_erase_irrelevant (V : Visitor) (fuel : Nat) (e : Expr) : Result Expr :=
  visit V fuel ⟨[], next_local_id e⟩ e

/-! ## A sample environment

A small environment and oracle on which the pass is run in the examples:
the empty type `false`, the types `punit`, `nat`, `list` and a type `wrap`
with one constructor that has one field, of type `nat → nat`. -/

/-- The inductive types of the sample environment. -/
def sample_inductive (n : Name) : Option InductiveVal :=
  if n = name1 "false" then some ⟨0, 0, []⟩
  else if n = name1 "punit" then some ⟨0, 0, [name2 "punit" "star"]⟩
  else if n = name1 "nat" then some ⟨0, 0, [name2 "nat" "zero", name2 "nat" "succ"]⟩
  else if n = name1 "list" then some ⟨1, 0, [name2 "list" "nil", name2 "list" "cons"]⟩
  else if n = name1 "wrap" then some ⟨0, 0, [name2 "wrap" "mk"]⟩
  else none

/-- The number of arguments of the constructors of the sample environment,
    parameters included. -/
def sample_constructor_arity (n : Name) : Nat :=
  if n = name2 "nat" "succ" then 1
  else if n = name2 "list" "nil" then 1
  else if n = name2 "list" "cons" then 3
  else if n = name2 "wrap" "mk" then 1
  else 0

/-- Whether `n` is a constructor of the sample environment. -/
def sample_is_constructor (n : Name) : Bool :=
  match sample_inductive n.prefixOf with
  | some v => decide (n ∈ v.cnstrs)
  | none => false

/-- The declarations of the sample environment: the inductive types, their
    recursors `I.rec` (one motive, one minor premise per constructor) and
    their constructors. -/
def sample_get (n : Name) : Option ConstantInfo :=
  match sample_inductive n with
  | some v => some (.induct v)
  | none =>
    match n with
    | .str I "rec" =>
      match sample_inductive I with
      | some v => some (.recursor ⟨v.nparams, v.nindices, 1, v.cnstrs.length⟩)
      | none => none
    | _ => if sample_is_constructor n then some .other else none

/-- The sample environment: `I.cases_on`, `I.rec` and `I.no_confusion` are the
    case-split operator, the recursor and the discrimination helper of the
    inductive type `I`; `nat` and `list` are recursive. -/
def sample_env : Environment where
  get := sample_get
  is_cases_on_recursor := fun n =>
    match n with
    | .str I "cases_on" => (sample_inductive I).isSome
    | _ => false
  is_recursor := fun n =>
    match n with
    | .str I "rec" => (sample_inductive I).isSome
    | _ => false
  is_no_confusion := fun n =>
    match n with
    | .str I "no_confusion" => (sample_inductive I).isSome
    | _ => false
  is_recursive_datatype := fun n => decide (n = name1 "nat") || decide (n = name1 "list")
  get_constructor_arity := sample_constructor_arity
  is_constructor_app := fun e =>
    match get_app_fn e with
    | .const n _ => if sample_is_constructor n then some n else none
    | _ => none

/-- The types the sample oracle infers: a literal is a `nat`, a proposition
    `p` and a proof `hp` of it are declared, and an application of `false.rec`
    has the type given as its motive.  On every other term the inference
    fails. -/
def sample_infer (_lctx : LocalContext) : Expr → Option Expr
  | .lit _ => some (.const (name1 "nat") [])
  | .const n _ =>
    if n = name1 "p" then some (.sort 0)
    else if n = name1 "hp" then some (.const (name1 "p") [])
    else if n = name1 "nat" then some (.sort 1)
    else if n = name2 "punit" "star" then some (.const (name1 "punit") [])
    else if n = name2 "nat" "zero" then some (.const (name1 "nat") [])
    else none
  | .app (.app (.const n _) C) _ => if n = name2 "false" "rec" then some C else none
  | _ => none

/-- The sample oracle: terms are in weak-head normal form, and the only
    proposition is `p`. -/
def sample_ctx : TypeContext where
  infer := sample_infer
  whnf := fun _ e => some e
  is_prop := fun _ t => some (decide (t = .const (name1 "p") []))

/-- One bottom-up pass of beta reduction. -/
def beta_pass : Expr → Expr
  | .app f a =>
    match beta_pass f with
    | .lam _ _ b => instantiate b (beta_pass a)
    | f1 => .app f1 (beta_pass a)
  | .lam n t b => .lam n t (beta_pass b)
  | .pi n t b => .pi n t (beta_pass b)
  | .elet n t v b => .elet n t (beta_pass v) (beta_pass b)
  | .mdata m e => .mdata m (beta_pass e)
  | e => e

/-- Beta reduction by `n` passes, which reaches the normal form of the terms
    of the examples. -/
def beta_passes : Nat → Expr → Expr
  | 0, e => e
  | n + 1, e => beta_passes n (beta_pass e)

/-- The sample visitor; no application is a numeral. -/
def sample_visitor : Visitor where
  env := sample_env
  ctx := sample_ctx
  to_nat_value := fun _ _ => none
  beta_reduce := beta_passes 4

/-! ## Notions used to state the properties -/

/-- The binder names of the `Lambda` layers of a `Lambda`/`Let` chain, from
    the outside in. -/
def lambda_layer_names : Expr → List Name
  | .lam n _ b => n :: lambda_layer_names b
  | .elet _ _ _ b => lambda_layer_names b
  | _ => []

/-- The chain of lambdas with the given binder names, every domain
    `NeutralMarker`, that ends in `NeutralMarker`. -/
def neutral_lambdas : List Name → Expr
  | [] => .neutral
  | n :: ns => .lam n .neutral (neutral_lambdas ns)

/-- Whether a `Let` node occurs in the expression. -/
def has_let : Expr → Bool
  | .app f a => has_let f || has_let a
  | .lam _ t b => has_let t || has_let b
  | .pi _ t b => has_let t || has_let b
  | .elet _ _ _ _ => true
  | .mdata _ e => has_let e
  | _ => false

/-! ## Sample inputs -/

/-- A constant without universe arguments. -/
def cst (s : String) : Expr := .const (name1 s) []

/-- The value `list.cons nat a b`. -/
def sample_cons : Expr :=
  mk_app (.const (name2 "list" "cons") [1]) [cst "nat", cst "a", cst "b"]

/-- The minor premise `fun (h1 : eq a a) (h2 : eq b b) => k` of a
    `no_confusion` application on two `cons` values. -/
def sample_nc_minor : Expr :=
  .lam (name1 "h1") (mk_app (cst "eq") [cst "a", cst "a"])
    (.lam (name1 "h2") (mk_app (cst "eq") [cst "b", cst "b"]) (cst "k"))

/-- The arguments of `list.no_confusion` comparing `cons a b` with itself,
    with one trailing argument. -/
def sample_nc_args : List Expr :=
  [cst "nat", cst "P", sample_cons, sample_cons, cst "h", sample_nc_minor, .lit 3]

/-- The application `eq.rec A a C k b h 7`: an equality cast with exactly 7
    arguments whose argument at index 3 is the constant `k`. -/
def sample_eq_rec_app : Expr :=
  mk_app (.const (name2 "eq" "rec") [1, 1])
    [cst "A", cst "a", cst "C", cst "k", cst "b", cst "h", .lit 7]

/-- The application `eq.rec A a k m b h 7`: the constant `k` is the third
    argument (index 2). -/
def sample_eq_rec_app_third : Expr :=
  mk_app (.const (name2 "eq" "rec") [1, 1])
    [cst "A", cst "a", cst "k", cst "m", cst "b", cst "h", .lit 7]

/-- The application `false.rec p hf` of the recursor of the empty type at the
    proposition `p`: a proof of `p`. -/
def sample_false_rec_proof : Expr :=
  mk_app (.const (name2 "false" "rec") [0]) [cst "p", cst "hf"]

/-- The application `false.rec nat hf` of the recursor of the empty type at
    the type `nat`. -/
def sample_false_rec_nat : Expr :=
  mk_app (.const (name2 "false" "rec") [1]) [cst "nat", cst "hf"]

/-- The type `nat → nat`. -/
def nat_to_nat : Expr := .pi (name1 "n") (cst "nat") (cst "nat")

/-- The minor premise `fun (f : nat → nat) => f` of a case split over `wrap`. -/
def sample_wrap_minor : Expr := .lam (name1 "f") nat_to_nat (.bvar 0)

/-- The motive `fun (x : wrap) => nat → nat` of that case split. -/
def sample_wrap_motive : Expr := .lam (name1 "x") (cst "wrap") nat_to_nat

/-- The case split `wrap.cases_on (fun x => nat → nat) w (fun f => f) 7`, which
    carries one extra argument. -/
def sample_wrap_cases : Expr :=
  mk_app (.const (name2 "wrap" "cases_on") [1]) [sample_wrap_motive, cst "w", sample_wrap_minor, .lit 7]

/-- Whether a `Sort` node, a `Pi` node or a metadata node flagged irrelevant
    occurs anywhere in the expression, binder domains and `Let` type
    annotations included. -/
def has_residual : Expr → Bool
  | .sort _ => true
  | .pi _ _ _ => true
  | .mdata irrel e => irrel || has_residual e
  | .app f a => has_residual f || has_residual a
  | .lam _ d b => has_residual d || has_residual b
  | .elet _ t v b => has_residual t || has_residual v || has_residual b
  | _ => false

/-- No `Sort` node, `Pi` node or metadata node flagged irrelevant occurs in the
    expression outside the domains of its `Lambda` nodes and the type
    annotations of its `Let` nodes. -/
def enf_clean : Expr → Bool
  | .sort _ => false
  | .pi _ _ _ => false
  | .mdata irrel e => !irrel && enf_clean e
  | .app f a => enf_clean f && enf_clean a
  | .lam _ _ b => enf_clean b
  | .elet _ _ v b => enf_clean v && enf_clean b
  | _ => true

/-- The function `fun (α : Sort 1) (x : α) => x`. -/
def sample_poly_id : Expr :=
  .lam (name1 "α") (.sort 1) (.lam (name1 "x") (.bvar 0) (.bvar 0))

/-- Every expression the recursive entry point returns is clean. -/
def ReturnsClean (visit : LocalContext → Expr → Result Expr) : Prop :=
  ∀ lctx e r, visit lctx e = .ok r → enf_clean r = true

/-- The number of nodes of an expression. -/
def expr_size : Expr → Nat
  | .app f a => expr_size f + expr_size a + 1
  | .lam _ d b => expr_size d + expr_size b + 1
  | .pi _ d b => expr_size d + expr_size b + 1
  | .elet _ t v b => expr_size t + expr_size v + expr_size b + 1
  | .mdata _ e => expr_size e + 1
  | _ => 1

/-- The head of an application for which `visit_app` falls through to the
    generic argument-wise erasure: not a lambda, and not a constant that one
    of the rules of the dispatch matches. -/
def generic_head (V : Visitor) : Expr → Bool
  | .lam _ _ _ => false
  | .const n _ =>
    decide (n ≠ get_eq_rec_name) && decide (n ≠ get_acc_cases_on_name) &&
    decide (n ≠ get_and_cases_on_name) && decide (n ≠ get_and_rec_name) &&
    decide (n ≠ get_quot_lift_name) && decide (n ≠ get_quot_mk_name) &&
    decide (n ≠ get_subtype_rec_name) && !V.env.is_cases_on_recursor n &&
    !V.env.is_recursor n && !V.env.is_no_confusion n &&
    decide (n ≠ get_subtype_mk_name) && decide (n ≠ get_subtype_val_name) &&
    decide (n ≠ get_lc_unreachable_name)
  | _ => true

/-- The saturated case split `punit.cases_on (fun x => nat) star 5`. -/
def sample_punit_cases : Expr :=
  mk_app (.const (name2 "punit" "cases_on") [1])
    [.lam (name1 "x") (cst "punit") (cst "nat"), .const (name2 "punit" "star") [], .lit 5]

/-- The equality cast `eq.rec A a C (punit.cases_on (fun x => nat → nat) star f) b h 7`
    of a case split that returns a function, applied to `7`. -/
def sample_cast_of_cases : Expr :=
  mk_app (.const (name2 "eq" "rec") [1, 1])
    [cst "A", cst "a", cst "C",
     mk_app (.const (name2 "punit" "cases_on") [1])
       [.lam (name1 "x") (cst "punit") nat_to_nat, .const (name2 "punit" "star") [], cst "f"],
     cst "b", cst "h", .lit 7]

/-- The simultaneous form of `instantiate_rev` with locals: the bound variable
    that points `k + i` binders out becomes the local `ids[n - 1 - i]`, the
    variables beyond the `n` instantiated ones are lowered by `n`. -/
def sim_inst : Expr → Nat → List Nat → Expr
  | .bvar j, k, ids =>
      if j < k then .bvar j
      else
        match ids.reverse[j - k]? with
        | some i => .loc i
        | none => .bvar (j - ids.length)
  | .loc i, _, _ => .loc i
  | .sort l, _, _ => .sort l
  | .const n ls, _, _ => .const n ls
  | .app f a, k, ids => .app (sim_inst f k ids) (sim_inst a k ids)
  | .lam n t b, k, ids => .lam n (sim_inst t k ids) (sim_inst b (k + 1) ids)
  | .pi n t b, k, ids => .pi n (sim_inst t k ids) (sim_inst b (k + 1) ids)
  | .elet n t v b, k, ids =>
      .elet n (sim_inst t k ids) (sim_inst v k ids) (sim_inst b (k + 1) ids)
  | .lit n, _, _ => .lit n
  | .mdata m e, k, ids => .mdata m (sim_inst e k ids)
  | .neutral, _, _ => .neutral
  | .unreachable, _, _ => .unreachable

/-- The size of the largest expression that the generic driver visits when
    it goes through a `Lambda`/`Let` chain: a `Let` value or the innermost
    body. -/
def chain_size : Expr → Nat
  | .lam _ _ b => chain_size b
  | .elet _ _ v b => max (expr_size v) (chain_size b)
  | t => expr_size t

/-- Stable erased terms.  `Stable V lctx locals t` says that the part `t` of a
    `Lambda`/`Let` chain, whose outer binders have been replaced by `locals`, is
    left unchanged by the pass run in the local context `lctx`:

    * the constants, locals and applications that the pass visits are judged
      relevant by the oracle, an application is not folded to a literal, and
      its head is neither a lambda nor a constant matched by the dispatch of
      `visit_app` (so that no case split is left);
    * no `Sort`, `Pi` or metadata node is visited, and a constant carries no
      universe arguments and is not the unreachable constant;
    * Binder-Type Erasure leaves every `Lambda`/`Let` chain as it is. -/
inductive Stable (V : Visitor) : LocalContext → List LocalDecl → Expr → Prop where
  | lit (lctx : LocalContext) (n : Nat) : Stable V lctx [] (.lit n)
  | neutral (lctx : LocalContext) : Stable V lctx [] .neutral
  | unreachable (lctx : LocalContext) : Stable V lctx [] .unreachable
  | loc (lctx : LocalContext) (i : Nat)
      (hirr : is_comp_irrelevant V lctx (.loc i) = false) : Stable V lctx [] (.loc i)
  | const (lctx : LocalContext) (n : Name)
      (hirr : is_comp_irrelevant V lctx (.const n []) = false)
      (hne : n ≠ get_lc_unreachable_name) : Stable V lctx [] (.const n [])
  | app (lctx : LocalContext) (f a : Expr)
      (hirr : is_comp_irrelevant V lctx (.app f a) = false)
      (hnat : V.to_nat_value lctx (.app f a) = none)
      (hhead : generic_head V (get_app_fn (.app f a)) = true)
      (hfn : Stable V lctx [] (get_app_fn (.app f a)))
      (hargs : ∀ x ∈ get_app_args (.app f a), Stable V lctx [] x) :
      Stable V lctx [] (.app f a)
  | lam (lctx : LocalContext) (locals : List LocalDecl) (n : Name) (d b : Expr)
      (htop : locals = [] → erase_lambda_let_types (.lam n d b) = .lam n d b)
      (hb : Stable V
        (lctx.push n (instantiate_rev d (locals.map fun l => Expr.loc l.id)) none).1
        (locals ++ [(lctx.push n (instantiate_rev d (locals.map fun l => Expr.loc l.id)) none).2])
        b) :
      Stable V lctx locals (.lam n d b)
  | elet (lctx : LocalContext) (locals : List LocalDecl) (n : Name) (t v b : Expr)
      (htop : locals = [] → erase_lambda_let_types (.elet n t v b) = .elet n t v b)
      (hv : Stable V lctx [] (instantiate_rev v (locals.map fun l => Expr.loc l.id)))
      (hb : Stable V
        (lctx.push n (instantiate_rev t (locals.map fun l => Expr.loc l.id))
          (some (instantiate_rev v (locals.map fun l => Expr.loc l.id)))).1
        (locals ++ [(lctx.push n (instantiate_rev t (locals.map fun l => Expr.loc l.id))
          (some (instantiate_rev v (locals.map fun l => Expr.loc l.id)))).2])
        b) :
      Stable V lctx locals (.elet n t v b)
  | body (lctx : LocalContext) (locals : List LocalDecl) (t : Expr)
      (hlam : is_lambda t = false) (hlet : is_let t = false) (hne : locals ≠ [])
      (ht : Stable V lctx [] (instantiate_rev t (locals.map fun l => Expr.loc l.id))) :
      Stable V lctx locals t

/-- The function `fun (x : nat) => k x`. -/
def sample_fun : Expr :=
  .lam (name1 "x") (cst "nat") (.app (.const (name1 "k") [1]) (.bvar 0))

/-- The locals pushed while a chain is traversed are the last declarations of
    the local context: their ids are the consecutive ids below `lctx.next`. -/
def LocalsInv (lctx : LocalContext) (locals : List LocalDecl) : Prop :=
  locals.length ≤ lctx.next ∧
    locals.map LocalDecl.id = List.range' (lctx.next - locals.length) locals.length

/-- The function `fun (x : nat) => eq.rec A a C k b h x`. -/
def sample_fun_cast : Expr :=
  .lam (name1 "x") (cst "nat")
    (mk_app (.const (name2 "eq" "rec") [1, 1])
      [cst "A", cst "a", cst "C", .const (name1 "k") [1], cst "b", cst "h", .bvar 0])

/-- A layer of a `Lambda`/`Let` chain: the binder name and type annotation of a
    `Lambda`, or the binder name, type annotation and value of a `Let`. -/
inductive Layer where
  | lam (n : Name) (d : Expr) : Layer
  | elet (n : Name) (t v : Expr) : Layer
  deriving DecidableEq, Repr

/-- The layers of a `Lambda`/`Let` chain, from the outside in. -/
def chain_layers : Expr → List Layer
  | .lam n d b => .lam n d :: chain_layers b
  | .elet n t v b => .elet n t v :: chain_layers b
  | _ => []

/-- The innermost non-binder term of a `Lambda`/`Let` chain. -/
def chain_body : Expr → Expr
  | .lam _ _ b => chain_body b
  | .elet _ _ _ b => chain_body b
  | e => e

/-- The type annotation the claim on relevant chains describes: unchanged when
    it has no loose bound variable and no local, `NeutralMarker` otherwise. -/
def closed_or_neutral (t : Expr) : Expr :=
  if has_loose_bvars t = false ∧ has_local t = false then t else .neutral

/-- A layer with its type annotation replaced by `closed_or_neutral` of it;
    the binder name and the value of a `Let` are kept. -/
def Layer.retype : Layer → Layer
  | .lam n d => .lam n (closed_or_neutral d)
  | .elet n t v => .elet n (closed_or_neutral t) v

/-- The message of the failure that `visit_minors` raises for a minor premise
    that is not a lambda-expression. -/
def minor_not_lambda_msg : String :=
  "unexpected occurrence of 'cases_on' expression, the minor premise is expected to be a lambda-expression"

/-- The message of the failure that `visit_no_confusion` raises for the
    discrimination helper `n` when a compared value is not a constructor
    application. -/
def constructors_expected_msg (n : Name) : String :=
  "code generation failed, unsupported occurrence of '" ++ n.toStr ++ "', constructors expected"

/-- The arguments of `subtype.mk A P f hf 7`: the wrapped value `f`, the proof
    `hf` of its property, and one further argument. -/
def sample_subtype_mk_args : List Expr :=
  [cst "A", cst "P", cst "f", cst "hf", .lit 7]

/-- The binder names of the leading lambdas of an expression, from the
    outside in. -/
def leading_lambda_names : Expr → List Name
  | .lam n _ b => n :: leading_lambda_names b
  | _ => []

/-- The arguments of `list.no_confusion` comparing the constant `x`, which is
    no constructor application, with `nil`. -/
def sample_nc_bad_args : List Expr :=
  [cst "nat", cst "P", cst "x", mk_app (.const (name2 "list" "nil") [1]) [cst "nat"], cst "h",
   sample_nc_minor]

/-- The minor premise `fun (f : nat → nat) (y : nat) => f y` of a case split
    over `wrap`: one lambda more than the constructor has fields. -/
def sample_wrap_minor2 : Expr :=
  .lam (name1 "f") nat_to_nat (.lam (name1 "y") (cst "nat") (.app (.bvar 1) (.bvar 0)))

/-! ## The build without assertions

`lean_assert` is compiled in debug builds only (in `visit_no_confusion` the
variable `basic_arity` that an assertion reads is declared inside
`DEBUG_CODE`).  The following definitions are `visit_cases_on` and `visit_rec`
as they run in a build without assertions: the assertions are left out, the
counts are unsigned 32-bit numbers, and `visit_minors` works on the two
pointers and the two counts it is passed.  A list stands for the expressions
stored from a pointer to the end of the argument buffer; a read past that end
is the failure `undefined`. -/

/-- An accessor in a build without assertions: where its assertion is
    violated, what it reads is not there. -/
def unchecked {α : Type} : Result α → Result α
  | .error Failure.assertion => .error Failure.undefined
  | r => r

/-- The loop `for (i = 0; i < nargs; i++) args[i] = visit(args[i])` on a
    pointer. -/
def visit_args_raw (visit : LocalContext → Expr → Result Expr) (lctx : LocalContext) :
    Nat → List Expr → Result (List Expr)
  | 0, _ => pure []
  | _ + 1, [] => throw Failure.undefined
  | n + 1, a :: as => do
    let a1 ← visit lctx a
    let as1 ← visit_args_raw visit lctx n as
    pure (a1 :: as1)

/-- The loop "distribute args over minors" on pointers, for `nminors` minor
    premises; the subtraction `carity - nparams` is unsigned. -/
def distribute_args_raw (V : Visitor) (visit : LocalContext → Expr → Result Expr)
    (lctx : LocalContext) (nparams : Nat) (args : List Expr) :
    Nat → List Expr → List Name → Result (List Expr)
  | 0, _, _ => pure []
  | _ + 1, [], _ => throw Failure.undefined
  | _ + 1, _ :: _, [] => throw Failure.undefined
  | n + 1, minor :: minors, cname :: cnames => do
    let carity := V.env.get_constructor_arity cname
    let data_sz := usub carity nparams
    let (lctx1, locals, body) ← peel_minor data_sz lctx [] minor
    let new_minor ← visit lctx1 body
    let new_minor := V.beta_reduce (mk_app new_minor args)
    let r := erase_lambda_let_types (mk_lambda locals new_minor)
    let rs ← distribute_args_raw V visit lctx nparams args n minors cnames
    pure (r :: rs)

/-- The method `visit_minors` on the pointers `minors`, `cnames`, `args` and
    the counts `nminors`, `nargs`. -/
def visit_minors_raw (V : Visitor) (visit : LocalContext → Expr → Result Expr)
    (lctx : LocalContext) (nparams nminors : Nat) (minors : List Expr) (cnames : List Name)
    (nargs : Nat) (args : List Expr) : Result (List Expr) :=
  if nargs > 0 then do
    let args1 ← visit_args_raw visit lctx nargs args
    distribute_args_raw V visit lctx nparams args1 nminors minors cnames
  else
    visit_args_raw visit lctx nminors minors

/-- The method `visit_cases_on` in a build without assertions. -/
def visit_cases_on_unchecked (V : Visitor) (visit : LocalContext → Expr → Result Expr)
    (lctx : LocalContext) (fn : Expr) (args : List Expr) : Result Expr := do
  let rec_name ← unchecked (const_name fn)
  let I_name := rec_name.prefixOf
  if I_name = get_false_name then pure mk_enf_unreachable
  else do
    let I_info ← env_get V I_name
    let I_val ← unchecked (to_inductive_val I_info)
    let nparams := I_val.nparams
    let nminors := I_val.cnstrs.length
    let nindices := I_val.nindices
    let arity := nparams + 1 + nindices + 1 + nminors
    let cnames ← unchecked (get_constructor_names V I_name)
    let minors := args.drop (nparams + 1 + nindices + 1)
    let nextra_args := usub args.length arity
    let extra_args := args.drop arity
    let minors1 ← visit_minors_raw V visit lctx nparams nminors minors cnames nextra_args
      extra_args
    let major0 ← unchecked (buffer_get args (nparams + 1 + nindices))
    let major ← visit lctx major0
    let new_fn ← visit lctx fn
    pure (mk_app (mk_app new_fn [major]) minors1)

/-- The method `visit_rec` in a build without assertions. -/
def visit_rec_unchecked (V : Visitor) (visit : LocalContext → Expr → Result Expr)
    (lctx : LocalContext) (fn : Expr) (args : List Expr) : Result Expr := do
  let rec_name ← unchecked (const_name fn)
  let I_name := rec_name.prefixOf
  if I_name = get_false_name then pure mk_enf_unreachable
  else do
    let rec_info ← env_get V rec_name
    let rec_val ← unchecked (to_recursor_val rec_info)
    let nparams := rec_val.nparams
    let nminors := rec_val.nminors
    let nindices := rec_val.nindices
    let nmotives := rec_val.nmotives
    let arity := nparams + nmotives + nminors + nindices + 1
    let cnames ← unchecked (get_constructor_names V I_name)
    let new_fn := Expr.const (Name.str I_name "cases_on") []
    let major0 ← unchecked (buffer_get args (nparams + 1 + nminors + nindices))
    let major ← visit lctx major0
    let minors := args.drop (nparams + 1)
    let nextra_args := usub args.length arity
    let extra_args := args.drop arity
    let minors1 ← visit_minors_raw V visit lctx nparams nminors minors cnames nextra_args
      extra_args
    pure (mk_app (mk_app new_fn [major]) minors1)

/-- An environment with two mutually defined inductive types `foo` and `bar`
    that are not recursive, one constructor each, added to the sample
    environment: the recursor `foo.rec` has two motives and two minor
    premises. -/
def sample_env_mutual : Environment where
  get := fun n =>
    if n = name1 "foo" then some (.induct ⟨0, 0, [name2 "foo" "mk"]⟩)
    else if n = name1 "bar" then some (.induct ⟨0, 0, [name2 "bar" "mk"]⟩)
    else if n = name2 "foo" "rec" then some (.recursor ⟨0, 0, 2, 2⟩)
    else if n = name2 "bar" "rec" then some (.recursor ⟨0, 0, 2, 2⟩)
    else sample_get n
  is_cases_on_recursor := fun n =>
    decide (n = name2 "foo" "cases_on") || decide (n = name2 "bar" "cases_on") ||
      sample_env.is_cases_on_recursor n
  is_recursor := fun n =>
    decide (n = name2 "foo" "rec") || decide (n = name2 "bar" "rec") || sample_env.is_recursor n
  is_no_confusion := sample_env.is_no_confusion
  is_recursive_datatype := sample_env.is_recursive_datatype
  get_constructor_arity := sample_env.get_constructor_arity
  is_constructor_app := sample_env.is_constructor_app

/-- The sample visitor on the environment with `foo` and `bar`. -/
def sample_visitor_mutual : Visitor where
  env := sample_env_mutual
  ctx := sample_ctx
  to_nat_value := fun _ _ => none
  beta_reduce := beta_passes 4

/-- The arguments `C1 C2 m1 m2 t` of `foo.rec`: two motives, the minor premises
    for `foo.mk` and `bar.mk`, and the major premise. -/
def sample_foo_rec_args : List Expr :=
  [cst "C1", cst "C2", cst "m1", cst "m2", cst "t"]

/-- An oracle for which every term is a proof of the proposition `p`. -/
def sample_ctx_proofs : TypeContext where
  infer := fun _ _ => some (.const (name1 "p") [])
  whnf := fun _ e => some e
  is_prop := fun _ t => some (decide (t = .const (name1 "p") []))

/-- The sample environment with the oracle for which every term is a proof,
    and a literal recognizer that folds every term to the numeral 3. -/
def sample_visitor_proofs : Visitor where
  env := sample_env
  ctx := sample_ctx_proofs
  to_nat_value := fun _ _ => some 3
  beta_reduce := beta_passes 4

/-- The sample visitor with a literal recognizer that folds every term to the
    numeral 3. -/
def sample_visitor_numerals : Visitor where
  env := sample_env
  ctx := sample_ctx
  to_nat_value := fun _ _ => some 3
  beta_reduce := beta_passes 4

/-- The malformed application `list.no_confusion nat P x nil h m`, whose first
    compared value `x` is no constructor application. -/
def sample_nc_bad_app : Expr :=
  mk_app (.const (name2 "list" "no_confusion") [1, 1]) sample_nc_bad_args

/-- The malformed case split `punit.cases_on C star`, which has no minor
    premise. -/
def sample_short_cases : Expr :=
  mk_app (.const (name2 "punit" "cases_on") [1]) [cst "C", .const (name2 "punit" "star") []]

/-- The application `lc_unreachable nat hf` of the unreachable constant. -/
def sample_unreachable_app : Expr :=
  mk_app (.const get_lc_unreachable_name [1]) [cst "nat", cst "hf"]

/-- The malformed case split `wrap.cases_on motive w g 7`: it has the extra
    argument `7`, and its minor premise `g` is not a lambda although the
    constructor of `wrap` has one field. -/
def sample_wrap_bad_cases : Expr :=
  mk_app (.const (name2 "wrap" "cases_on") [1]) [sample_wrap_motive, cst "w", cst "g", .lit 7]

/-- The arguments of `list.no_confusion` comparing `cons a b` with itself,
    with the malformed `no_confusion` application `sample_nc_bad_app` as
    trailing argument. -/
def sample_nc_nested_args : List Expr :=
  [cst "nat", cst "P", sample_cons, sample_cons, cst "h", sample_nc_minor, sample_nc_bad_app]

/-- The test of `erase_type`: the type has no loose bound variable and no
    `Local`, so that Binder-Type Erasure keeps it. -/
def closed_type (t : Expr) : Bool := !has_loose_bvars t && !has_local t

/-- The form of the expressions the pass returns.  Outside the domains of
    `Lambda` nodes and the type annotations of `Let` nodes there is no `Sort`,
    `Pi` or metadata node, and a constant carries no universe arguments and is
    not the unreachable constant; the domains and type annotations are types
    that Binder-Type Erasure keeps. -/
def erased_form : Expr → Bool
  | .sort _ => false
  | .pi _ _ _ => false
  | .mdata _ _ => false
  | .const n ls => decide (ls = []) && decide (n ≠ get_lc_unreachable_name)
  | .app f a => erased_form f && erased_form a
  | .lam _ d b => closed_type d && erased_form b
  | .elet _ t v b => closed_type t && erased_form v && erased_form b
  | _ => true

/-- The form of a `Lambda`/`Let` chain before Binder-Type Erasure: the `Let`
    values and the innermost body are in erased form, the domains and type
    annotations of the chain are arbitrary. -/
def chain_erased_form : Expr → Bool
  | .lam _ _ b => chain_erased_form b
  | .elet _ _ v b => erased_form v && chain_erased_form b
  | e => erased_form e

/-- Every expression the recursive entry point returns is in erased form. -/
def ReturnsErasedForm (visit : LocalContext → Expr → Result Expr) : Prop :=
  ∀ lctx e r, visit lctx e = .ok r → erased_form r = true

/-- The head of an application that `visit_app` does not leave to the generic
    argument-wise erasure: a lambda, or a constant that the dispatch sends to
    one of the operator-specific methods. -/
def dispatched_head (V : Visitor) : Expr → Bool
  | .lam _ _ _ => true
  | .const n _ =>
    decide (n = get_eq_rec_name) || decide (n = get_acc_cases_on_name) ||
    decide (n = get_and_cases_on_name) || decide (n = get_and_rec_name) ||
    decide (n = get_quot_lift_name) || decide (n = get_quot_mk_name) ||
    decide (n = get_subtype_rec_name) || V.env.is_cases_on_recursor n ||
    V.env.is_recursor n || V.env.is_no_confusion n ||
    decide (n = get_subtype_mk_name) || decide (n = get_subtype_val_name)
  | _ => false

/-- What a second run of the pass asks of an expression `t` beyond its erased
    form.  `Quiet V lctx locals t` follows the second run through the part `t`
    of a `Lambda`/`Let` chain whose outer binders have been replaced by
    `locals`, in the local context `lctx`, and says that

    * the oracle judges no constant, local or application that is visited
      irrelevant, and the literal recognizer folds no application;
    * no application has as head a lambda or a constant that the dispatch of
      `visit_app` sends to an operator-specific method;
    * a `Lambda`/`Let` chain that ends in `NeutralMarker` is collapsed already.

    Nothing is asked of a `Sort`, `Pi` or metadata node, of the universe
    arguments of a constant, or of the binder types. -/
inductive Quiet (V : Visitor) : LocalContext → List LocalDecl → Expr → Prop where
  | lit (lctx : LocalContext) (n : Nat) : Quiet V lctx [] (.lit n)
  | neutral (lctx : LocalContext) : Quiet V lctx [] .neutral
  | unreachable (lctx : LocalContext) : Quiet V lctx [] .unreachable
  | sort (lctx : LocalContext) (l : Level) : Quiet V lctx [] (.sort l)
  | pi (lctx : LocalContext) (n : Name) (d b : Expr) : Quiet V lctx [] (.pi n d b)
  | mdata (lctx : LocalContext) (m : Bool) (e : Expr) : Quiet V lctx [] (.mdata m e)
  | loc (lctx : LocalContext) (i : Nat)
      (hirr : is_comp_irrelevant V lctx (.loc i) = false) : Quiet V lctx [] (.loc i)
  | const (lctx : LocalContext) (n : Name) (ls : List Level)
      (hirr : is_comp_irrelevant V lctx (.const n ls) = false) : Quiet V lctx [] (.const n ls)
  | app (lctx : LocalContext) (f a : Expr)
      (hirr : is_comp_irrelevant V lctx (.app f a) = false)
      (hnat : V.to_nat_value lctx (.app f a) = none)
      (hhead : dispatched_head V (get_app_fn (.app f a)) = false)
      (hfn : Quiet V lctx [] (get_app_fn (.app f a)))
      (hargs : ∀ x ∈ get_app_args (.app f a), Quiet V lctx [] x) :
      Quiet V lctx [] (.app f a)
  | lam (lctx : LocalContext) (locals : List LocalDecl) (n : Name) (d b : Expr)
      (hcol : locals = [] → is_irrelevant_lambda_let_body (.lam n d b) = true →
        erase_lambda_let_types_when_irrelevant (.lam n d b) = .lam n d b)
      (hb : Quiet V
        (lctx.push n (instantiate_rev d (locals.map fun l => Expr.loc l.id)) none).1
        (locals ++ [(lctx.push n (instantiate_rev d (locals.map fun l => Expr.loc l.id)) none).2])
        b) :
      Quiet V lctx locals (.lam n d b)
  | elet (lctx : LocalContext) (locals : List LocalDecl) (n : Name) (t v b : Expr)
      (hcol : locals = [] → is_irrelevant_lambda_let_body (.elet n t v b) = false)
      (hv : Quiet V lctx [] (instantiate_rev v (locals.map fun l => Expr.loc l.id)))
      (hb : Quiet V
        (lctx.push n (instantiate_rev t (locals.map fun l => Expr.loc l.id))
          (some (instantiate_rev v (locals.map fun l => Expr.loc l.id)))).1
        (locals ++ [(lctx.push n (instantiate_rev t (locals.map fun l => Expr.loc l.id))
          (some (instantiate_rev v (locals.map fun l => Expr.loc l.id)))).2])
        b) :
      Quiet V lctx locals (.elet n t v b)
  | body (lctx : LocalContext) (locals : List LocalDecl) (t : Expr)
      (hlam : is_lambda t = false) (hlet : is_let t = false) (hne : locals ≠ [])
      (ht : Quiet V lctx [] (instantiate_rev t (locals.map fun l => Expr.loc l.id))) :
      Quiet V lctx locals t

/-- The recursive entry point returns a closed expression for a closed one. -/
def ReturnsClosed (visit : LocalContext → Expr → Result Expr) : Prop :=
  ∀ lctx e r, has_loose_bvars_at e 0 = false → visit lctx e = .ok r →
    has_loose_bvars_at r 0 = false

/-- The application `(mdata (fun (x : nat) => x)) 5` of a lambda under a
    metadata node that is not flagged irrelevant. -/
def sample_mdata_redex : Expr :=
  .app (.mdata false (.lam (name1 "x") (cst "nat") (.bvar 0))) (.lit 5)

/-- The equality cast `eq.rec A a C (fun (f y : nat) => f) b h hp` of a
    function, applied to the proof `hp`. -/
def sample_cast_of_const_fun : Expr :=
  mk_app (.const (name2 "eq" "rec") [1, 1])
    [cst "A", cst "a", cst "C",
     .lam (name1 "f") (cst "nat") (.lam (name1 "y") (cst "nat") (.bvar 1)),
     cst "b", cst "h", cst "hp"]

/-- A literal recognizer that folds `nat.succ n` for a literal `n`. -/
def sample_to_nat_value (_lctx : LocalContext) : Expr → Option Nat
  | .app (.const n _) (.lit k) => if n = name2 "nat" "succ" then some (k + 1) else none
  | _ => none

/-- The sample visitor with the literal recognizer `sample_to_nat_value`. -/
def sample_visitor_succ : Visitor where
  env := sample_env
  ctx := sample_ctx
  to_nat_value := sample_to_nat_value
  beta_reduce := beta_passes 4

/-- The application `nat.succ (mdata 0)` of the successor to a literal under
    a metadata node. -/
def sample_succ_mdata : Expr :=
  .app (.const (name2 "nat" "succ") []) (.mdata false (.lit 0))

/-- An oracle that knows the constant `q` as a proof of `p` when it carries
    no universe argument, and fails on every other term. -/
def sample_ctx_levels : TypeContext where
  infer := fun _ e =>
    match e with
    | .const n [] => if n = name1 "q" then some (.const (name1 "p") []) else none
    | _ => none
  whnf := fun _ e => some e
  is_prop := fun _ t => some (decide (t = .const (name1 "p") []))

/-- The sample visitor with the oracle `sample_ctx_levels`. -/
def sample_visitor_levels : Visitor where
  env := sample_env
  ctx := sample_ctx_levels
  to_nat_value := fun _ _ => none
  beta_reduce := beta_passes 4

/-! ## Properties -/

theorem neutral_lambdas_no_loose_bvars (ns : List Name) (d : Nat) :
    has_loose_bvars_at (neutral_lambdas ns) d = false := by
  induction ns generalizing d with
  | nil => rfl
  | cons n ns ih => simp [neutral_lambdas, has_loose_bvars_at, ih]

theorem neutral_lambdas_no_let (ns : List Name) : has_let (neutral_lambdas ns) = false := by
  induction ns with
  | nil => rfl
  | cons n ns ih => simp [neutral_lambdas, has_let, ih]

theorem when_irrelevant_eq_neutral_lambdas (e : Expr)
    (h : is_irrelevant_lambda_let_body e = true) :
    erase_lambda_let_types_when_irrelevant e = neutral_lambdas (lambda_layer_names e) := by
  induction e with
  | lam n d b _ ihb =>
    simp only [is_irrelevant_lambda_let_body] at h
    simp [erase_lambda_let_types_when_irrelevant, lambda_layer_names, neutral_lambdas,
      mk_enf_neutral, ihb h]
  | elet n t v b _ _ ihb =>
    simp only [is_irrelevant_lambda_let_body] at h
    simp [erase_lambda_let_types_when_irrelevant, lambda_layer_names, ihb h]
  | neutral => rfl
  | bvar _ => simp [is_irrelevant_lambda_let_body, is_enf_neutral] at h
  | loc _ => simp [is_irrelevant_lambda_let_body, is_enf_neutral] at h
  | sort _ => simp [is_irrelevant_lambda_let_body, is_enf_neutral] at h
  | const _ _ => simp [is_irrelevant_lambda_let_body, is_enf_neutral] at h
  | app _ _ _ _ => simp [is_irrelevant_lambda_let_body, is_enf_neutral] at h
  | pi _ _ _ _ _ => simp [is_irrelevant_lambda_let_body, is_enf_neutral] at h
  | lit _ => simp [is_irrelevant_lambda_let_body, is_enf_neutral] at h
  | mdata _ _ _ => simp [is_irrelevant_lambda_let_body, is_enf_neutral] at h
  | unreachable => simp [is_irrelevant_lambda_let_body, is_enf_neutral] at h

/-- C9 (binder-chain collapse): on a `Lambda`/`Let` chain whose innermost
    non-binder term is `NeutralMarker`, `erase_lambda_let_types` returns the
    chain of one `Lambda` per `Lambda` layer of the input, with the same binder
    names in the same order, every domain `NeutralMarker`, ending in
    `NeutralMarker`; the result has no `Let` node and no loose bound
    variable. -/
theorem binder_chain_collapse (e : Expr) (h : is_irrelevant_lambda_let_body e = true) :
    erase_lambda_let_types e = neutral_lambdas (lambda_layer_names e) ∧
    has_let (erase_lambda_let_types e) = false ∧
    has_loose_bvars (erase_lambda_let_types e) = false := by
  have key : erase_lambda_let_types e = neutral_lambdas (lambda_layer_names e) := by
    unfold erase_lambda_let_types
    rw [if_pos h]
    exact when_irrelevant_eq_neutral_lambdas e h
  refine ⟨key, ?_, ?_⟩
  · rw [key]; exact neutral_lambdas_no_let _
  · rw [key]; exact neutral_lambdas_no_loose_bvars _ 0

/-- Witness of C9: the chain `fun x : Sort 0 => let y : #0 := c in fun z : y => _neutral`,
    whose `Let` layer is dropped. -/
theorem binder_chain_collapse_witness :
    is_irrelevant_lambda_let_body
        (.lam (name1 "x") (.sort 0)
          (.elet (name1 "y") (.bvar 0) (.const (name1 "c") [])
            (.lam (name1 "z") (.bvar 0) .neutral))) = true ∧
      erase_lambda_let_types
        (.lam (name1 "x") (.sort 0)
          (.elet (name1 "y") (.bvar 0) (.const (name1 "c") [])
            (.lam (name1 "z") (.bvar 0) .neutral)))
        = .lam (name1 "x") .neutral (.lam (name1 "z") .neutral .neutral) :=
  ⟨by decide, (binder_chain_collapse _ (by decide)).1⟩

/-- C10 (conservative irrelevance oracle): `is_comp_irrelevant` is a total
    boolean function, and it answers `true` exactly when type inference and
    weak-head normalisation succeed and the normalised type is a sort or the
    proposition test succeeds on it with answer `true`; in every other case,
    among them a failure of inference, normalisation or the proposition test,
    it answers `false`. -/
theorem is_comp_irrelevant_iff (V : Visitor) (lctx : LocalContext) (e : Expr) :
    is_comp_irrelevant V lctx e = true ↔
      ∃ t type, V.ctx.infer lctx e = some t ∧ V.ctx.whnf lctx t = some type ∧
        (is_sort type = true ∨ V.ctx.is_prop lctx type = some true) := by
  unfold is_comp_irrelevant
  cases hi : V.ctx.infer lctx e with
  | none => simp
  | some t =>
    cases hw : V.ctx.whnf lctx t with
    | none => simp [hw]
    | some type =>
      by_cases hs : is_sort type = true
      · simp [hw, hs]
      · cases hp : V.ctx.is_prop lctx type with
        | none => simp [hw, hs, hp]
        | some b => simp [hw, hs, hp]

theorem get_app_fn_mk_app (f : Expr) (args : List Expr) :
    get_app_fn (mk_app f args) = get_app_fn f := by
  induction args generalizing f with
  | nil => rfl
  | cons a as ih => simp [mk_app, List.foldl] at ih ⊢; rw [ih]; rfl

theorem get_app_args_aux_append (e : Expr) (acc : List Expr) :
    get_app_args_aux e acc = get_app_args_aux e [] ++ acc := by
  induction e generalizing acc with
  | app f a ihf _ =>
    simp only [get_app_args_aux]
    rw [ihf (a :: acc), ihf [a]]
    simp
  | _ => simp [get_app_args_aux]

theorem get_app_args_mk_app (f : Expr) (args : List Expr) :
    get_app_args (mk_app f args) = get_app_args f ++ args := by
  induction args generalizing f with
  | nil => simp [mk_app]
  | cons a as ih =>
    have h := ih (Expr.app f a)
    simp only [mk_app, List.foldl] at h ⊢
    rw [h]
    simp only [get_app_args, get_app_args_aux]
    rw [get_app_args_aux_append f [a]]
    simp

theorem add_args_loop_eq (visit : LocalContext → Expr → Result Expr) (lctx : LocalContext)
    (e : Expr) (as : List Expr) :
    add_args_loop visit lctx e as =
      match visit_args visit lctx as with
      | .ok as1 => .ok (mk_app e as1)
      | .error err => .error err := by
  induction as generalizing e with
  | nil => rfl
  | cons a as ih =>
    simp only [add_args_loop, visit_args, bind, Except.bind]
    cases visit lctx a with
    | error err => rfl
    | ok a1 =>
      simp only [ih]
      cases visit_args visit lctx as with
      | error err => rfl
      | ok as1 => rfl

theorem add_dummy_proofs_eq (n : Nat) (r : Expr) :
    add_dummy_proofs n r = mk_app r (List.replicate n Expr.neutral) := by
  induction n generalizing r with
  | zero => rfl
  | succ n ih => simp [add_dummy_proofs, ih, List.replicate, mk_app, mk_enf_neutral]

theorem usub_eq_sub (a b : Nat) (h : b ≤ a) (ha : a < 4294967296) : usub a b = a - b := by
  unfold usub
  have hb : b % 4294967296 = b := Nat.mod_eq_of_lt (by omega)
  rw [hb]
  omega

/-- C4 (discrimination soundness, mismatch): when a `no_confusion`
    application carries at least `nparams + nindices + 4` arguments and its
    two compared values, the arguments `nparams + nindices + 1` and
    `nparams + nindices + 2`, head-normalise to applications of different
    constructors, `visit_no_confusion` returns `UnreachableMarker`, whatever
    the other arguments are. -/
theorem no_confusion_mismatch (V : Visitor) (visit : LocalContext → Expr → Result Expr)
    (lctx : LocalContext) (n : Name) (ls : List Level) (args : List Expr) (I_val : InductiveVal)
    (a1 a2 lhs rhs : Expr) (c1 c2 : Name)
    (hI : V.env.get n.prefixOf = some (.induct I_val))
    (hlen : I_val.nparams + I_val.nindices + 4 ≤ args.length)
    (h1 : args[I_val.nparams + I_val.nindices + 1]? = some a1)
    (h2 : args[I_val.nparams + I_val.nindices + 2]? = some a2)
    (hl : V.ctx.whnf lctx a1 = some lhs) (hr : V.ctx.whnf lctx a2 = some rhs)
    (hc1 : V.env.is_constructor_app lhs = some c1)
    (hc2 : V.env.is_constructor_app rhs = some c2)
    (hne : c1 ≠ c2) :
    visit_no_confusion V visit lctx (.const n ls) args = .ok Expr.unreachable := by
  have hlen' : I_val.nparams + I_val.nindices + 1 + 2 + 1 ≤ args.length := by omega
  simp [visit_no_confusion, lean_assert, is_constant, const_name, env_get, hI, to_inductive_val,
    bind, Except.bind, pure, Except.pure, buffer_get, h1, h2, hl, hr, hc1, hc2, hne, hlen',
    mk_enf_unreachable]

theorem lambda_depth_instantiate_at (e : Expr) (k i : Nat) :
    lambda_depth (instantiate_at e k (.loc i)) = lambda_depth e := by
  induction e generalizing k with
  | bvar j =>
    simp only [instantiate_at]
    split
    · rfl
    · split <;> rfl
  | lam n t b _ ihb => simp [instantiate_at, lambda_depth, ihb]
  | _ => simp [instantiate_at, lambda_depth]

theorem consume_lambdas_loop_non_lambda (V : Visitor) (n : Nat) (lctx : LocalContext)
    (locals : List LocalDecl) (e : Expr) (h : is_lambda e = false) :
    consume_lambdas_loop V n lctx locals e = .ok (lctx, locals, V.beta_reduce e) := by
  cases e with
  | lam x d b => simp [is_lambda] at h
  | _ => simp [consume_lambdas_loop, pure, Except.pure]

theorem consume_lambdas_loop_ok (V : Visitor) (n : Nat) (lctx : LocalContext)
    (locals : List LocalDecl) (e : Expr) (h : lambda_depth e ≤ n) :
    ∃ lctx1 new_locals b, consume_lambdas_loop V n lctx locals e
        = .ok (lctx1, locals ++ new_locals, V.beta_reduce b) ∧
      is_lambda b = false ∧ new_locals.length = lambda_depth e := by
  induction n generalizing lctx locals e with
  | zero =>
    have hl : is_lambda e = false := by
      cases e <;> first | rfl | (simp [lambda_depth] at h)
    have hd : lambda_depth e = 0 := by
      cases e <;> first | rfl | (simp [is_lambda] at hl)
    exact ⟨lctx, [], e, by simp [consume_lambdas_loop_non_lambda V 0 lctx locals e hl], hl,
      by simp [hd]⟩
  | succ n ih =>
    by_cases hl : is_lambda e = false
    · have hd : lambda_depth e = 0 := by
        cases e <;> first | rfl | (simp [is_lambda] at hl)
      exact ⟨lctx, [], e, by simp [consume_lambdas_loop_non_lambda V _ lctx locals e hl], hl,
        by simp [hd]⟩
    · cases e with
      | lam x d b =>
        simp only [lambda_depth] at h
        have hd : lambda_depth (instantiate b (Expr.loc (lctx.push x d none).2.id)) ≤ n := by
          unfold instantiate
          rw [lambda_depth_instantiate_at]
          omega
        obtain ⟨lctx1, nl, b1, h1, h2, h3⟩ :=
          ih (lctx.push x d none).1 (locals ++ [(lctx.push x d none).2]) _ hd
        refine ⟨lctx1, (lctx.push x d none).2 :: nl, b1, ?_, h2, ?_⟩
        · simp only [consume_lambdas_loop]
          rw [h1]
          simp
        · simp only [List.length_cons, h3, lambda_depth]
          unfold instantiate
          rw [lambda_depth_instantiate_at]
      | _ => simp [is_lambda] at hl

theorem consume_lambdas_ok (V : Visitor) (lctx : LocalContext) (e : Expr) :
    ∃ lctx1 locals b, consume_lambdas V lctx [] e = .ok (lctx1, locals, V.beta_reduce b) ∧
      is_lambda b = false ∧ locals.length = lambda_depth e := by
  obtain ⟨lctx1, nl, b, h1, h2, h3⟩ :=
    consume_lambdas_loop_ok V (lambda_depth e) lctx [] e (Nat.le_refl _)
  exact ⟨lctx1, nl, b, by simpa [consume_lambdas] using h1, h2, h3⟩

/-- C5 (discrimination soundness, match): when the two compared values of a
    `no_confusion` application head-normalise to applications of the same
    constructor `c`, all leading lambdas of the minor premise (argument
    `nparams + nindices + 4`) are peeled, and once the peeled body and the
    trailing arguments (from index `nparams + nindices + 5` on) are erased,
    the result is `beta_reduce` of the processed minor premise (lambdas
    rebuilt over the erased body, Binder-Type Erasure applied) applied to
    exactly `arity(c) - nparams` `NeutralMarker` arguments followed by the
    erased trailing arguments in their order. -/
theorem no_confusion_match (V : Visitor) (visit : LocalContext → Expr → Result Expr)
    (lctx : LocalContext) (n : Name) (ls : List Level) (args : List Expr) (I_val : InductiveVal)
    (a1 a2 lhs rhs minor : Expr) (c : Name)
    (hI : V.env.get n.prefixOf = some (.induct I_val))
    (h1 : args[I_val.nparams + I_val.nindices + 1]? = some a1)
    (h2 : args[I_val.nparams + I_val.nindices + 2]? = some a2)
    (hm : args[I_val.nparams + I_val.nindices + 4]? = some minor)
    (hl : V.ctx.whnf lctx a1 = some lhs) (hr : V.ctx.whnf lctx a2 = some rhs)
    (hc1 : V.env.is_constructor_app lhs = some c)
    (hc2 : V.env.is_constructor_app rhs = some c)
    (har : I_val.nparams ≤ V.env.get_constructor_arity c)
    (har2 : V.env.get_constructor_arity c < 4294967296) :
    ∃ lctx1 locals body,
      consume_lambdas V lctx [] minor = .ok (lctx1, locals, V.beta_reduce body) ∧
      is_lambda body = false ∧ locals.length = lambda_depth minor ∧
      ∀ body1 trailing1,
        visit lctx1 (V.beta_reduce body) = .ok body1 →
        visit_args visit lctx1 (args.drop (I_val.nparams + I_val.nindices + 5)) = .ok trailing1 →
        visit_no_confusion V visit lctx (.const n ls) args =
          .ok (V.beta_reduce
            (mk_app
              (mk_app (erase_lambda_let_types (mk_lambda locals body1))
                (List.replicate (V.env.get_constructor_arity c - I_val.nparams) Expr.neutral))
              trailing1)) := by
  obtain ⟨lctx1, locals, body, hcl, hnl, hlen⟩ := consume_lambdas_ok V lctx minor
  refine ⟨lctx1, locals, body, hcl, hnl, hlen, ?_⟩
  intro body1 trailing1 hb ht
  have hlen1 : I_val.nparams + I_val.nindices + 4 < args.length := by
    rcases Nat.lt_or_ge (I_val.nparams + I_val.nindices + 4) args.length with h | h
    · exact h
    · rw [List.getElem?_eq_none h] at hm; cases hm
  have hlen2 : I_val.nparams + I_val.nindices + 1 + 2 + 1 ≤ args.length := by omega
  have hlen3 : I_val.nparams + I_val.nindices + 1 + 2 + 1 + 1 ≤ args.length := by omega
  simp [visit_no_confusion, lean_assert, is_constant, const_name, env_get, hI, to_inductive_val,
    bind, Except.bind, pure, Except.pure, buffer_get, h1, h2, hm, hl, hr, hc1, hc2, hlen2, hlen3,
    hcl, hb, add_args, add_args_loop_eq, ht, add_dummy_proofs_eq, usub_eq_sub _ _ har har2]

/-- Witness of C4: `list.no_confusion` comparing `cons a b` against `nil`. -/
theorem no_confusion_mismatch_witness :
    visit_no_confusion sample_visitor (visit sample_visitor 5) ⟨[], 0⟩
      (.const (name2 "list" "no_confusion") [1, 1])
      [.const (name1 "nat") [], .const (name1 "P") [],
       mk_app (.const (name2 "list" "cons") [1])
         [.const (name1 "nat") [], .const (name1 "a") [], .const (name1 "b") []],
       mk_app (.const (name2 "list" "nil") [1]) [.const (name1 "nat") []],
       .const (name1 "h") [], .const (name1 "m") []]
      = .ok Expr.unreachable :=
  no_confusion_mismatch sample_visitor (visit sample_visitor 5) ⟨[], 0⟩
    (name2 "list" "no_confusion") [1, 1] _ ⟨1, 0, [name2 "list" "nil", name2 "list" "cons"]⟩
    _ _ _ _ (name2 "list" "cons") (name2 "list" "nil")
    (by decide) (by decide) (by rfl) (by rfl) (by rfl) (by rfl) (by decide) (by decide)
    (by decide)

/-- Witness of C5: `list.no_confusion` on `cons a b` and `cons a b`, whose
    minor premise has two lambdas (one per non-parameter field of `cons`) and
    which carries one trailing argument; the result is `k 3`. -/
theorem no_confusion_match_witness :
    (∃ lctx1 locals body,
      consume_lambdas sample_visitor ⟨[], 0⟩ [] sample_nc_minor
        = .ok (lctx1, locals, sample_visitor.beta_reduce body) ∧
      is_lambda body = false ∧ locals.length = lambda_depth sample_nc_minor ∧
      ∀ body1 trailing1,
        visit sample_visitor 5 lctx1 (sample_visitor.beta_reduce body) = .ok body1 →
        visit_args (visit sample_visitor 5) lctx1 (sample_nc_args.drop (1 + 0 + 5))
          = .ok trailing1 →
        visit_no_confusion sample_visitor (visit sample_visitor 5) ⟨[], 0⟩
            (.const (name2 "list" "no_confusion") [1, 1]) sample_nc_args =
          .ok (sample_visitor.beta_reduce
            (mk_app
              (mk_app (erase_lambda_let_types (mk_lambda locals body1))
                (List.replicate (sample_visitor.env.get_constructor_arity (name2 "list" "cons") - 1)
                  Expr.neutral))
              trailing1))) ∧
    visit_no_confusion sample_visitor (visit sample_visitor 5) ⟨[], 0⟩
        (.const (name2 "list" "no_confusion") [1, 1]) sample_nc_args
      = .ok (.app (cst "k") (.lit 3)) :=
  ⟨no_confusion_match sample_visitor (visit sample_visitor 5) ⟨[], 0⟩
    (name2 "list" "no_confusion") [1, 1] sample_nc_args
    ⟨1, 0, [name2 "list" "nil", name2 "list" "cons"]⟩
    sample_cons sample_cons sample_cons sample_cons sample_nc_minor (name2 "list" "cons")
    (by decide) (by rfl) (by rfl) (by rfl) (by rfl) (by rfl) (by rfl) (by rfl)
    (by decide) (by decide), by rfl⟩

/-- Counterexample to C6 as stated: erasing `eq.rec A a C k b h 7` (7
    arguments, the constant `k` at index 3) gives `k 7`, the application of
    `k` to one argument, the erased argument at index 6; it is not an
    application of `k` to two arguments.  With `k` as the third argument
    (index 2) the result is `m 7`, no application of `k` at all. -/
theorem eq_rec_seven_args_counterexample :
    old_erase_irrelevant sample_visitor 10 sample_eq_rec_app = .ok (.app (cst "k") (.lit 7)) ∧
    (¬ ∃ x y, old_erase_irrelevant sample_visitor 10 sample_eq_rec_app
        = .ok (.app (.app (cst "k") x) y)) ∧
    old_erase_irrelevant sample_visitor 10 sample_eq_rec_app_third
      = .ok (.app (cst "m") (.lit 7)) := by
  have h : old_erase_irrelevant sample_visitor 10 sample_eq_rec_app
      = .ok (.app (cst "k") (.lit 7)) := by rfl
  refine ⟨h, ?_, by rfl⟩
  rintro ⟨x, y, hxy⟩
  rw [h] at hxy
  simp [cst] at hxy

/-- C6, amended: erasing an `eq.rec` application with exactly 7 arguments
    whose argument at index 3 is a relevant constant `K` (not the designated
    unreachable constant) yields `beta_reduce` of `K`, without universe
    arguments, applied to exactly one argument: the erased argument at
    index 6. -/
theorem eq_rec_seven_args (V : Visitor) (fuel : Nat) (lctx : LocalContext)
    (ls kls : List Level) (a0 a1 a2 a4 a5 a6 a6e : Expr) (K : Name)
    (hirr : is_comp_irrelevant V lctx
      (mk_app (.const get_eq_rec_name ls) [a0, a1, a2, .const K kls, a4, a5, a6]) = false)
    (hnat : V.to_nat_value lctx
      (mk_app (.const get_eq_rec_name ls) [a0, a1, a2, .const K kls, a4, a5, a6]) = none)
    (hK : is_comp_irrelevant V lctx (.const K kls) = false)
    (hKu : K ≠ get_lc_unreachable_name)
    (h6 : visit V (fuel + 1) lctx a6 = .ok a6e) :
    visit V (fuel + 2) lctx
        (mk_app (.const get_eq_rec_name ls) [a0, a1, a2, .const K kls, a4, a5, a6])
      = .ok (V.beta_reduce (.app (.const K []) a6e)) := by
  have hv : visit V (fuel + 1) lctx (.const K kls) = .ok (.const K []) := by
    simp [visit, visit_core, visit_constant, hK, const_name, hKu, bind, Except.bind, pure,
      Except.pure]
  have e1 : mk_app (.const get_eq_rec_name ls) [a0, a1, a2, .const K kls, a4, a5, a6]
      = .app (.app (.app (.app (.app (.app (.app (.const get_eq_rec_name ls) a0) a1) a2)
          (.const K kls)) a4) a5) a6 := rfl
  rw [e1] at hirr hnat ⊢
  rw [visit]
  simp only [visit_core, visit_app, hirr, hnat]
  simp [get_app_fn, get_app_args, get_app_args_aux, is_lambda, visit_app_const, visit_eq_rec,
    lean_assert, buffer_get, bind, Except.bind, pure, Except.pure, hv, add_args, add_args_loop,
    h6]

/-- Witness of C6, amended, on `eq.rec A a C k b h 7`. -/
theorem eq_rec_seven_args_witness :
    visit sample_visitor 3 ⟨[], 0⟩ sample_eq_rec_app
      = .ok (sample_visitor.beta_reduce (.app (.const (name1 "k") []) (.lit 7))) :=
  eq_rec_seven_args sample_visitor 1 ⟨[], 0⟩ [1, 1] [] (cst "A") (cst "a") (cst "C") (cst "b")
    (cst "h") (.lit 7) (.lit 7) (name1 "k") (by rfl) (by rfl) (by rfl) (by decide) (by rfl)

/-- Counterexample to C3 as stated: `false.rec p hf` is an application of the
    recursor of the empty type, and it is a proof of the proposition `p`;
    `visit_app` returns `NeutralMarker` for it, not `UnreachableMarker`. -/
theorem empty_type_elimination_counterexample :
    visit_app sample_visitor (visit sample_visitor 5) ⟨[], 0⟩ sample_false_rec_proof
      = .ok Expr.neutral ∧
    visit_app sample_visitor (visit sample_visitor 5) ⟨[], 0⟩ sample_false_rec_proof
      ≠ .ok Expr.unreachable := by
  constructor
  · rfl
  · decide

/-- C3, amended: an application whose head is the case-split operator or the
    recursor of the empty type `false`, which is neither computationally
    irrelevant nor recognised as a numeral, is erased by `visit_app` to
    `UnreachableMarker`, whatever its arguments are. -/
theorem empty_type_elimination (V : Visitor) (visit : LocalContext → Expr → Result Expr)
    (lctx : LocalContext) (n : Name) (ls : List Level) (args : List Expr)
    (hn : n.prefixOf = get_false_name)
    (hk : V.env.is_cases_on_recursor n = true ∨ V.env.is_recursor n = true)
    (hirr : is_comp_irrelevant V lctx (mk_app (.const n ls) args) = false)
    (hnat : V.to_nat_value lctx (mk_app (.const n ls) args) = none) :
    visit_app V visit lctx (mk_app (.const n ls) args) = .ok Expr.unreachable := by
  have ne : ∀ m : Name, m.prefixOf ≠ get_false_name → n ≠ m := by
    intro m hm h
    rw [h] at hn
    exact hm hn
  have h1 := ne get_eq_rec_name (by decide)
  have h2 := ne get_acc_cases_on_name (by decide)
  have h3 := ne get_and_cases_on_name (by decide)
  have h4 := ne get_and_rec_name (by decide)
  have h5 := ne get_quot_lift_name (by decide)
  have h6 := ne get_quot_mk_name (by decide)
  have h7 := ne get_subtype_rec_name (by decide)
  have hfn : get_app_fn (mk_app (.const n ls) args) = .const n ls := by
    rw [get_app_fn_mk_app]; rfl
  unfold visit_app
  simp only [hirr, hnat, hfn, is_lambda]
  simp only [visit_app_const, h1, h2, h3, h4, h5, h6, h7, if_false]
  by_cases hc : V.env.is_cases_on_recursor n = true
  · simp [hc, visit_cases_on, const_name, hn, bind, Except.bind, pure, Except.pure,
      mk_enf_unreachable]
  · have hr : V.env.is_recursor n = true := by
      rcases hk with h | h
      · exact absurd h hc
      · exact h
    simp [hc, hr, visit_rec, const_name, hn, bind, Except.bind, pure, Except.pure,
      mk_enf_unreachable]

/-- Witness of C3, amended: `false.rec nat hf` is erased to
    `UnreachableMarker`. -/
theorem empty_type_elimination_witness :
    visit_app sample_visitor (visit sample_visitor 5) ⟨[], 0⟩ sample_false_rec_nat
      = .ok Expr.unreachable :=
  empty_type_elimination sample_visitor (visit sample_visitor 5) ⟨[], 0⟩ (name2 "false" "rec") [1]
    [cst "nat", cst "hf"] (by rfl) (Or.inr (by rfl)) (by rfl) (by rfl)

theorem getElem?_mid {α : Type} (a : List α) (x : α) (c : List α) (n : Nat)
    (ha : a.length = n) : (a ++ x :: c)[n]? = some x := by
  subst ha
  rw [List.getElem?_append_right (Nat.le_refl _)]
  simp

theorem drop_right_of_length {α : Type} (a c : List α) (n : Nat) (ha : a.length = n) :
    (a ++ c).drop n = c := by
  subst ha
  simp

theorem drop_take_mid {α : Type} (a b c : List α) (n m : Nat) (ha : a.length = n)
    (hb : b.length = m) : ((a ++ (b ++ c)).drop n).take m = b := by
  subst ha hb
  simp

theorem visit_args_length (visit : LocalContext → Expr → Result Expr) (lctx : LocalContext)
    (as as1 : List Expr) (h : visit_args visit lctx as = .ok as1) : as1.length = as.length := by
  induction as generalizing as1 with
  | nil => simp [visit_args, pure, Except.pure] at h; subst h; rfl
  | cons a as ih =>
    simp only [visit_args, bind, Except.bind] at h
    cases hv : visit lctx a with
    | error err => simp [hv] at h
    | ok a1 =>
      cases hr : visit_args visit lctx as with
      | error err => simp [hv, hr] at h
      | ok r =>
        simp [hv, hr, pure, Except.pure] at h
        subst h
        simp [ih r hr]

theorem distribute_args_length (V : Visitor) (visit : LocalContext → Expr → Result Expr)
    (lctx : LocalContext) (nparams : Nat) (args : List Expr) (minors : List Expr)
    (cnames : List Name) (rs : List Expr)
    (h : distribute_args V visit lctx nparams args minors cnames = .ok rs) :
    rs.length = minors.length := by
  induction minors generalizing cnames rs with
  | nil => simp [distribute_args, pure, Except.pure] at h; subst h; rfl
  | cons m ms ih =>
    cases cnames with
    | nil => simp [distribute_args, throw, throwThe, MonadExceptOf.throw] at h
    | cons c cs =>
      simp only [distribute_args, bind, Except.bind] at h
      split at h
      · simp at h
      · split at h
        · simp at h
        · split at h
          · simp at h
          · split at h
            · simp at h
            · rename_i rs1 hrs
              simp [pure, Except.pure] at h
              subst h
              simp [ih cs rs1 hrs]

theorem visit_minors_length (V : Visitor) (visit : LocalContext → Expr → Result Expr)
    (lctx : LocalContext) (nparams : Nat) (minors : List Expr) (cnames : List Name)
    (args : List Expr) (rs : List Expr)
    (h : visit_minors V visit lctx nparams minors cnames args = .ok rs) :
    rs.length = minors.length := by
  unfold visit_minors at h
  split at h
  · simp only [bind, Except.bind] at h
    split at h
    · simp at h
    · exact distribute_args_length V visit lctx nparams _ minors cnames rs h
  · exact visit_args_length visit lctx minors rs h

theorem visit_const_shape (V : Visitor) (fuel : Nat) (lctx : LocalContext) (n : Name)
    (ls : List Level) (r : Expr) (h : visit V fuel lctx (.const n ls) = .ok r) :
    r = .neutral ∨ r = .unreachable ∨ r = .const n [] := by
  cases fuel with
  | zero => simp [visit, throw, throwThe, MonadExceptOf.throw] at h
  | succ fuel =>
    simp only [visit, visit_core, visit_constant] at h
    split at h
    · simp [pure, Except.pure, mk_enf_neutral] at h; exact Or.inl h.symm
    · simp only [const_name, bind, Except.bind, pure, Except.pure] at h
      split at h
      · simp [mk_enf_unreachable] at h; exact Or.inr (Or.inl h.symm)
      · simp at h; exact Or.inr (Or.inr h.symm)

/-- C7 (case-split lowering shape): for an inductive type other than `false`
    with `nparams` parameters, `nindices` indices and `m` constructors, and an
    argument list laid out as `[params, motive, indices, major, minors, extra]`,
    `visit_cases_on` returns, once the head, the major premise and the minor
    premises are processed, the erased head applied to exactly `1 + m`
    arguments: the erased major premise followed by the `m` processed minor
    premises in their order.  Parameters, motive and indices are dropped and
    no extra argument is applied outside the case split. -/
theorem cases_on_lowering_shape (V : Visitor) (fuel : Nat) (lctx : LocalContext) (n : Name)
    (ls : List Level) (I_val : InductiveVal) (params indices minors extra : List Expr)
    (motive major fn1 major1 : Expr) (minors1 : List Expr)
    (hfalse : n.prefixOf ≠ get_false_name)
    (hI : V.env.get n.prefixOf = some (.induct I_val))
    (hp : params.length = I_val.nparams) (hi : indices.length = I_val.nindices)
    (hm : minors.length = I_val.cnstrs.length)
    (hfn : visit V fuel lctx (.const n ls) = .ok fn1)
    (hmajor : visit V fuel lctx major = .ok major1)
    (hminors : visit_minors V (visit V fuel) lctx I_val.nparams minors I_val.cnstrs extra
      = .ok minors1) :
    visit_cases_on V (visit V fuel) lctx (.const n ls)
        (params ++ motive :: (indices ++ major :: (minors ++ extra)))
      = .ok (mk_app fn1 (major1 :: minors1)) ∧
    minors1.length = I_val.cnstrs.length ∧
    get_app_fn (mk_app fn1 (major1 :: minors1)) = fn1 ∧
    get_app_args (mk_app fn1 (major1 :: minors1)) = major1 :: minors1 := by
  have hlen : (params ++ motive :: (indices ++ major :: (minors ++ extra))).length
      = I_val.nparams + 1 + I_val.nindices + 1 + I_val.cnstrs.length + extra.length := by
    simp [hp, hi, hm]; omega
  have hmaj : (params ++ motive :: (indices ++ major :: (minors ++ extra)))[
      I_val.nparams + 1 + I_val.nindices]? = some major := by
    have := getElem?_mid (params ++ motive :: indices) major (minors ++ extra)
      (I_val.nparams + 1 + I_val.nindices) (by simp [hp, hi]; omega)
    simpa using this
  have hmin : ((params ++ motive :: (indices ++ major :: (minors ++ extra))).drop
      (I_val.nparams + 1 + I_val.nindices + 1)).take I_val.cnstrs.length = minors := by
    have := drop_take_mid (params ++ motive :: (indices ++ [major])) minors extra
      (I_val.nparams + 1 + I_val.nindices + 1) I_val.cnstrs.length (by simp [hp, hi]; omega) hm
    simpa using this
  have hext : (params ++ motive :: (indices ++ major :: (minors ++ extra))).drop
      (I_val.nparams + 1 + I_val.nindices + 1 + I_val.cnstrs.length) = extra := by
    have := drop_right_of_length (params ++ motive :: (indices ++ major :: minors)) extra
      (I_val.nparams + 1 + I_val.nindices + 1 + I_val.cnstrs.length)
      (by simp [hp, hi, hm]; omega)
    simpa using this
  have hshape := visit_const_shape V fuel lctx n ls fn1 hfn
  have hml := visit_minors_length V (visit V fuel) lctx _ _ _ _ _ hminors
  refine ⟨?_, by rw [hml, hm], ?_, ?_⟩
  · simp only [visit_cases_on, const_name, bind, Except.bind, pure, Except.pure, hfalse,
      if_false, env_get, hI, to_inductive_val, get_constructor_names, lean_assert, hlen, hmin,
      hext, hminors, buffer_get, hmaj, hmajor, hfn]
    simp [mk_app]
  · rw [get_app_fn_mk_app]
    rcases hshape with h | h | h <;> subst h <;> rfl
  · rw [get_app_args_mk_app]
    rcases hshape with h | h | h <;> subst h <;> rfl

/-- Witness of C7: `wrap.cases_on motive w (fun f => f) 7` is lowered to
    `wrap.cases_on w (fun f => f 7)`: the extra argument `7` is applied inside
    the minor premise. -/
theorem cases_on_lowering_shape_witness :
    visit_cases_on sample_visitor (visit sample_visitor 5) ⟨[], 0⟩
        (.const (name2 "wrap" "cases_on") [1])
        ([] ++ sample_wrap_motive :: ([] ++ cst "w" :: ([sample_wrap_minor] ++ [.lit 7])))
      = .ok (mk_app (.const (name2 "wrap" "cases_on") [])
          (cst "w" :: [.lam (name1 "f") nat_to_nat (.app (.bvar 0) (.lit 7))])) ∧
    [Expr.lam (name1 "f") nat_to_nat (.app (.bvar 0) (.lit 7))].length
      = [name2 "wrap" "mk"].length ∧
    get_app_fn (mk_app (.const (name2 "wrap" "cases_on") [])
        (cst "w" :: [.lam (name1 "f") nat_to_nat (.app (.bvar 0) (.lit 7))]))
      = .const (name2 "wrap" "cases_on") [] ∧
    get_app_args (mk_app (.const (name2 "wrap" "cases_on") [])
        (cst "w" :: [.lam (name1 "f") nat_to_nat (.app (.bvar 0) (.lit 7))]))
      = cst "w" :: [.lam (name1 "f") nat_to_nat (.app (.bvar 0) (.lit 7))] :=
  cases_on_lowering_shape sample_visitor 5 ⟨[], 0⟩ (name2 "wrap" "cases_on") [1]
    ⟨0, 0, [name2 "wrap" "mk"]⟩ [] [] [sample_wrap_minor] [.lit 7] sample_wrap_motive (cst "w")
    (.const (name2 "wrap" "cases_on") []) (cst "w")
    [.lam (name1 "f") nat_to_nat (.app (.bvar 0) (.lit 7))]
    (by decide) (by rfl) (by rfl) (by rfl) (by rfl) (by rfl) (by rfl) (by rfl)

theorem visit_cases_on_const (V : Visitor) (fuel : Nat) (lctx : LocalContext) (I : Name)
    (ls : List Level)
    (hco : is_comp_irrelevant V lctx (.const (.str I "cases_on") ls) = false) :
    visit V (fuel + 1) lctx (.const (.str I "cases_on") ls)
      = .ok (.const (.str I "cases_on") []) := by
  have hne : Name.str I "cases_on" ≠ get_lc_unreachable_name := by
    simp [get_lc_unreachable_name, name1]
  simp [visit, visit_core, visit_constant, hco, const_name, bind, Except.bind, pure, Except.pure,
    hne]

/-- C8 (recursor-to-case-split refinement): for a non-recursive inductive
    type `I` whose recursor has one motive and as many minor premises as `I`
    has constructors, and whose `cases_on` constant is not irrelevant,
    `visit_rec` on `I.rec [params, motive, minors, indices, major, extra]`
    returns an expression exactly when `visit_cases_on` on
    `I.cases_on [params, motive, indices, major, minors, extra]` returns it;
    and, `I` not being `false`, once the major premise and the minor premises
    are processed, that expression is `I.cases_on` without universe arguments
    applied to the erased major premise and the processed minor premises. -/
theorem rec_refines_cases_on (V : Visitor) (fuel : Nat) (lctx : LocalContext) (I : Name)
    (ls ls1 : List Level) (I_val : InductiveVal) (params indices minors extra : List Expr)
    (motive major : Expr)
    (hnr : V.env.is_recursive_datatype I = false)
    (hI : V.env.get I = some (.induct I_val))
    (hrec : V.env.get (.str I "rec")
      = some (.recursor ⟨I_val.nparams, I_val.nindices, 1, I_val.cnstrs.length⟩))
    (hp : params.length = I_val.nparams) (hi : indices.length = I_val.nindices)
    (hm : minors.length = I_val.cnstrs.length)
    (hco : is_comp_irrelevant V lctx (.const (.str I "cases_on") ls1) = false) :
    (∀ r : Expr,
      visit_rec V (visit V fuel) lctx (.const (.str I "rec") ls)
          (params ++ motive :: (minors ++ (indices ++ major :: extra))) = .ok r ↔
      visit_cases_on V (visit V fuel) lctx (.const (.str I "cases_on") ls1)
          (params ++ motive :: (indices ++ major :: (minors ++ extra))) = .ok r) ∧
    (∀ major1 minors1, I ≠ get_false_name →
      visit V fuel lctx major = .ok major1 →
      visit_minors V (visit V fuel) lctx I_val.nparams minors I_val.cnstrs extra = .ok minors1 →
      visit_rec V (visit V fuel) lctx (.const (.str I "rec") ls)
          (params ++ motive :: (minors ++ (indices ++ major :: extra)))
        = .ok (mk_app (.const (.str I "cases_on") []) (major1 :: minors1))) := by
  -- the layout of the case-split application
  have hlen : (params ++ motive :: (indices ++ major :: (minors ++ extra))).length
      = I_val.nparams + 1 + I_val.nindices + 1 + I_val.cnstrs.length + extra.length := by
    simp [hp, hi, hm]; omega
  have hmaj : (params ++ motive :: (indices ++ major :: (minors ++ extra)))[
      I_val.nparams + 1 + I_val.nindices]? = some major := by
    have := getElem?_mid (params ++ motive :: indices) major (minors ++ extra)
      (I_val.nparams + 1 + I_val.nindices) (by simp [hp, hi]; omega)
    simpa using this
  have hmin : ((params ++ motive :: (indices ++ major :: (minors ++ extra))).drop
      (I_val.nparams + 1 + I_val.nindices + 1)).take I_val.cnstrs.length = minors := by
    have := drop_take_mid (params ++ motive :: (indices ++ [major])) minors extra
      (I_val.nparams + 1 + I_val.nindices + 1) I_val.cnstrs.length (by simp [hp, hi]; omega) hm
    simpa using this
  have hext : (params ++ motive :: (indices ++ major :: (minors ++ extra))).drop
      (I_val.nparams + 1 + I_val.nindices + 1 + I_val.cnstrs.length) = extra := by
    have := drop_right_of_length (params ++ motive :: (indices ++ major :: minors)) extra
      (I_val.nparams + 1 + I_val.nindices + 1 + I_val.cnstrs.length)
      (by simp [hp, hi, hm]; omega)
    simpa using this
  -- the layout of the recursor application
  have hlen' : (params ++ motive :: (minors ++ (indices ++ major :: extra))).length
      = I_val.nparams + 1 + I_val.cnstrs.length + I_val.nindices + 1 + extra.length := by
    simp [hp, hi, hm]; omega
  have hmaj' : (params ++ motive :: (minors ++ (indices ++ major :: extra)))[
      I_val.nparams + 1 + I_val.cnstrs.length + I_val.nindices]? = some major := by
    have := getElem?_mid (params ++ motive :: (minors ++ indices)) major extra
      (I_val.nparams + 1 + I_val.cnstrs.length + I_val.nindices) (by simp [hp, hi, hm]; omega)
    simpa using this
  have hmin' : ((params ++ motive :: (minors ++ (indices ++ major :: extra))).drop
      (I_val.nparams + 1)).take I_val.cnstrs.length = minors := by
    have := drop_take_mid (params ++ [motive]) minors (indices ++ major :: extra)
      (I_val.nparams + 1) I_val.cnstrs.length (by simp [hp]) hm
    simpa using this
  have hext' : (params ++ motive :: (minors ++ (indices ++ major :: extra))).drop
      (I_val.nparams + 1 + I_val.cnstrs.length + I_val.nindices + 1) = extra := by
    have := drop_right_of_length (params ++ motive :: (minors ++ (indices ++ [major]))) extra
      (I_val.nparams + 1 + I_val.cnstrs.length + I_val.nindices + 1)
      (by simp [hp, hi, hm]; omega)
    simpa using this
  refine ⟨fun r => ?_, fun major1 minors1 hf h1 h2 => ?_⟩
  · by_cases hf : I = get_false_name
    · simp [visit_rec, visit_cases_on, const_name, Name.prefixOf, hf, bind, Except.bind, pure,
        Except.pure]
    cases fuel with
    | zero =>
      have hv0 : ∀ e, visit V 0 lctx e = .error Failure.fuel := fun _ => rfl
      simp only [visit_rec, visit_cases_on, const_name, Name.prefixOf, bind, Except.bind, pure,
        Except.pure, hf, if_false, env_get, hI, hrec, to_inductive_val, to_recursor_val,
        get_constructor_names, lean_assert, hnr, hlen, hlen', hmin, hext, hmin', hext',
        buffer_get, hmaj, hmaj', hv0]
      cases visit_minors V (visit V 0) lctx I_val.nparams minors I_val.cnstrs extra <;> simp
    | succ fuel =>
      have hfn := visit_cases_on_const V fuel lctx I ls1 hco
      simp only [visit_rec, visit_cases_on, const_name, Name.prefixOf, bind, Except.bind, pure,
        Except.pure, hf, if_false, env_get, hI, hrec, to_inductive_val, to_recursor_val,
        get_constructor_names, lean_assert, hnr, hlen, hlen', hmin, hext, hmin', hext',
        buffer_get, hmaj, hmaj', hfn]
      cases visit_minors V (visit V (fuel + 1)) lctx I_val.nparams minors I_val.cnstrs extra <;>
        cases visit V (fuel + 1) lctx major <;> simp
  · simp only [visit_rec, const_name, Name.prefixOf, bind, Except.bind, pure,
      Except.pure, hf, if_false, env_get, hI, hrec, to_inductive_val, to_recursor_val,
      get_constructor_names, lean_assert, hnr, hlen', hmin', hext', buffer_get, hmaj', h1, h2]
    simp [mk_app]

/-- Witness of C8: `punit.rec motive f star 7` and
    `punit.cases_on motive star f 7` are both lowered to
    `punit.cases_on star (f 7)`. -/
theorem rec_refines_cases_on_witness :
    visit_rec sample_visitor (visit sample_visitor 5) ⟨[], 0⟩ (.const (name2 "punit" "rec") [1])
        ([] ++ cst "motive" :: ([cst "f"] ++ ([] ++ cst "star" :: [.lit 7])))
      = .ok (mk_app (.const (name2 "punit" "cases_on") []) [cst "star", .app (cst "f") (.lit 7)]) ∧
    visit_cases_on sample_visitor (visit sample_visitor 5) ⟨[], 0⟩
        (.const (name2 "punit" "cases_on") [1])
        ([] ++ cst "motive" :: ([] ++ cst "star" :: ([cst "f"] ++ [.lit 7])))
      = .ok (mk_app (.const (name2 "punit" "cases_on") []) [cst "star", .app (cst "f") (.lit 7)]) :=
  have h := rec_refines_cases_on sample_visitor 5 ⟨[], 0⟩ (name1 "punit") [1] [1]
    ⟨0, 0, [name2 "punit" "star"]⟩ [] [] [cst "f"] [.lit 7] (cst "motive") (cst "star")
    (by rfl) (by rfl) (by rfl) (by rfl) (by rfl) (by rfl) (by rfl)
  have h2 := h.2 (cst "star") [.app (cst "f") (.lit 7)] (by decide) (by rfl) (by rfl)
  ⟨h2, (h.1 _).1 h2⟩

/-- Counterexample to C2 as stated: the case split
    `wrap.cases_on motive w (fun (f : nat → nat) => f) 7` is erased to
    `wrap.cases_on w (fun (f : nat → nat) => f 7)`, which contains the `Pi` node
    `nat → nat` as a binder domain, and `fun (α : Sort 1) (x : α) => x` is
    erased to `fun (α : Sort 1) (x : _neutral) => x`, which contains a `Sort`
    node as a binder domain: Binder-Type Erasure keeps a closed domain as it
    is in the input. -/
theorem no_residual_irrelevance_counterexample :
    old_erase_irrelevant sample_visitor 10 sample_wrap_cases
      = .ok (mk_app (.const (name2 "wrap" "cases_on") [])
          [cst "w", .lam (name1 "f") nat_to_nat (.app (.bvar 0) (.lit 7))]) ∧
    has_residual (mk_app (.const (name2 "wrap" "cases_on") [])
          [cst "w", .lam (name1 "f") nat_to_nat (.app (.bvar 0) (.lit 7))]) = true ∧
    old_erase_irrelevant sample_visitor 10 sample_poly_id
      = .ok (.lam (name1 "α") (.sort 1) (.lam (name1 "x") .neutral (.bvar 0))) ∧
    has_residual (.lam (name1 "α") (.sort 1) (.lam (name1 "x") .neutral (.bvar 0))) = true :=
  ⟨by rfl, by rfl, by rfl, by rfl⟩

theorem enf_clean_mk_app (f : Expr) (as : List Expr) :
    enf_clean (mk_app f as) = (enf_clean f && as.all enf_clean) := by
  induction as generalizing f with
  | nil => simp [mk_app]
  | cons a as ih =>
    have h := ih (Expr.app f a)
    simp only [mk_app, List.foldl] at h ⊢
    rw [h]
    simp [enf_clean, Bool.and_assoc]

theorem enf_clean_abstract (e : Expr) (k : Nat) (ids : List Nat) :
    enf_clean (abstract_locals_at e k ids) = enf_clean e := by
  induction e generalizing k with
  | loc i =>
    simp only [abstract_locals_at]
    split <;> rfl
  | app f a ihf iha => simp [abstract_locals_at, enf_clean, ihf, iha]
  | lam n t b _ ihb => simp [abstract_locals_at, enf_clean, ihb]
  | elet n t v b _ ihv ihb => simp [abstract_locals_at, enf_clean, ihv, ihb]
  | mdata m e ih => simp [abstract_locals_at, enf_clean, ih]
  | _ => simp [abstract_locals_at, enf_clean]

theorem enf_clean_mk_lambda_core (rev : List LocalDecl) (r : Expr)
    (hv : ∀ d ∈ rev, ∀ v, d.value = some v → enf_clean v = true)
    (hr : enf_clean r = true) : enf_clean (mk_lambda_core rev r) = true := by
  induction rev generalizing r with
  | nil => simpa [mk_lambda_core] using hr
  | cons d rev ih =>
    have hv' : ∀ d' ∈ rev, ∀ v, d'.value = some v → enf_clean v = true :=
      fun d' hd' => hv d' (List.mem_cons_of_mem _ hd')
    simp only [mk_lambda_core]
    cases hval : d.value with
    | none => exact ih _ hv' (by simpa [enf_clean] using hr)
    | some v =>
      have hcv := hv d (List.mem_cons_self _ _) v hval
      exact ih _ hv' (by simp [enf_clean, enf_clean_abstract, hcv, hr])

theorem enf_clean_mk_lambda (locals : List LocalDecl) (e : Expr)
    (hv : ∀ d ∈ locals, ∀ v, d.value = some v → enf_clean v = true)
    (he : enf_clean e = true) : enf_clean (mk_lambda locals e) = true := by
  unfold mk_lambda
  apply enf_clean_mk_lambda_core
  · intro d hd
    exact hv d (List.mem_reverse.mp hd)
  · simpa [abstract_locals, enf_clean_abstract] using he

theorem enf_clean_when_relevant (e : Expr) (h : enf_clean e = true) :
    enf_clean (erase_lambda_let_types_when_relevant e) = true := by
  induction e with
  | lam n d b _ ihb =>
    simp only [enf_clean] at h
    simpa [erase_lambda_let_types_when_relevant, enf_clean] using ihb h
  | elet n t v b _ _ ihb =>
    simp only [enf_clean, Bool.and_eq_true] at h
    simp [erase_lambda_let_types_when_relevant, enf_clean, h.1, ihb h.2]
  | _ => simpa [erase_lambda_let_types_when_relevant] using h

theorem enf_clean_when_irrelevant (e : Expr) (h : enf_clean e = true) :
    enf_clean (erase_lambda_let_types_when_irrelevant e) = true := by
  induction e with
  | lam n d b _ ihb =>
    simp only [enf_clean] at h
    simpa [erase_lambda_let_types_when_irrelevant, enf_clean] using ihb h
  | elet n t v b _ _ ihb =>
    simp only [enf_clean, Bool.and_eq_true] at h
    simpa [erase_lambda_let_types_when_irrelevant] using ihb h.2
  | _ => simpa [erase_lambda_let_types_when_irrelevant] using h

theorem enf_clean_erase_lambda_let_types (e : Expr) (h : enf_clean e = true) :
    enf_clean (erase_lambda_let_types e) = true := by
  unfold erase_lambda_let_types
  split
  · exact enf_clean_when_irrelevant e h
  · exact enf_clean_when_relevant e h

theorem enf_clean_visit_args (visit : LocalContext → Expr → Result Expr)
    (hP : ReturnsClean visit) (lctx : LocalContext) (as rs : List Expr)
    (h : visit_args visit lctx as = .ok rs) : rs.all enf_clean = true := by
  induction as generalizing rs with
  | nil => simp [visit_args, pure, Except.pure] at h; subst h; rfl
  | cons a as ih =>
    simp only [visit_args, bind, Except.bind] at h
    cases hv : visit lctx a with
    | error err => simp [hv] at h
    | ok a1 =>
      cases hr : visit_args visit lctx as with
      | error err => simp [hv, hr] at h
      | ok r =>
        simp [hv, hr, pure, Except.pure] at h
        subst h
        have h1 := hP _ _ _ hv
        have h2 := ih r hr
        simp only [List.all_cons, h1, h2, Bool.and_self]

theorem enf_clean_add_args (V : Visitor) (visit : LocalContext → Expr → Result Expr)
    (hβ : ∀ e, enf_clean e = true → enf_clean (V.beta_reduce e) = true)
    (hP : ReturnsClean visit) (lctx : LocalContext) (e : Expr) (start_idx : Nat)
    (args : List Expr) (r : Expr) (he : enf_clean e = true)
    (h : add_args V visit lctx e start_idx args = .ok r) : enf_clean r = true := by
  simp only [add_args, add_args_loop_eq, bind, Except.bind, pure, Except.pure] at h
  cases hv : visit_args visit lctx (List.drop start_idx args) with
  | error err => simp [hv] at h
  | ok as1 =>
    simp [hv] at h
    subst h
    apply hβ
    rw [enf_clean_mk_app, he, enf_clean_visit_args visit hP lctx _ _ hv]
    rfl

theorem peel_minor_no_values (n : Nat) (lctx : LocalContext) (locals : List LocalDecl)
    (e : Expr) (lctx1 : LocalContext) (locals1 : List LocalDecl) (body : Expr)
    (hl : ∀ d ∈ locals, d.value = none)
    (h : peel_minor n lctx locals e = .ok (lctx1, locals1, body)) :
    ∀ d ∈ locals1, d.value = none := by
  induction n generalizing lctx locals e with
  | zero =>
    simp [peel_minor, pure, Except.pure] at h
    obtain ⟨_, h2, _⟩ := h
    subst h2
    exact hl
  | succ n ih =>
    cases e with
    | lam x d b =>
      simp only [peel_minor] at h
      refine ih _ _ _ ?_ h
      intro d' hd'
      rcases List.mem_append.mp hd' with h1 | h1
      · exact hl d' h1
      · simp [LocalContext.push] at h1
        subst h1
        rfl
    | _ => simp [peel_minor, throw, throwThe, MonadExceptOf.throw] at h

theorem enf_clean_distribute_args (V : Visitor) (visit : LocalContext → Expr → Result Expr)
    (hβ : ∀ e, enf_clean e = true → enf_clean (V.beta_reduce e) = true)
    (hP : ReturnsClean visit) (lctx : LocalContext) (nparams : Nat) (args : List Expr)
    (hargs : args.all enf_clean = true) (minors : List Expr) (cnames : List Name)
    (rs : List Expr)
    (h : distribute_args V visit lctx nparams args minors cnames = .ok rs) :
    rs.all enf_clean = true := by
  induction minors generalizing cnames rs with
  | nil => simp [distribute_args, pure, Except.pure] at h; subst h; rfl
  | cons m ms ih =>
    cases cnames with
    | nil => simp [distribute_args, throw, throwThe, MonadExceptOf.throw] at h
    | cons c cs =>
      simp only [distribute_args, bind, Except.bind] at h
      split at h
      · simp at h
      · split at h
        · simp at h
        · rename_i peeled hpeel
          split at h
          · simp at h
          · rename_i new_minor hnm
            split at h
            · simp at h
            · rename_i rs1 hrs
              simp [pure, Except.pure] at h
              subst h
              have hnv := peel_minor_no_values _ _ _ _ peeled.1 peeled.2.1 peeled.2.2
                (by simp) hpeel
              have h1 : enf_clean (erase_lambda_let_types
                  (mk_lambda peeled.2.1 (V.beta_reduce (mk_app new_minor args)))) = true := by
                apply enf_clean_erase_lambda_let_types
                apply enf_clean_mk_lambda
                · intro d hd v hv
                  rw [hnv d hd] at hv
                  cases hv
                · apply hβ
                  rw [enf_clean_mk_app, hP _ _ _ hnm, hargs]
                  rfl
              simp only [List.all_cons, h1, ih cs rs1 hrs, Bool.and_self]

theorem enf_clean_visit_minors (V : Visitor) (visit : LocalContext → Expr → Result Expr)
    (hβ : ∀ e, enf_clean e = true → enf_clean (V.beta_reduce e) = true)
    (hP : ReturnsClean visit) (lctx : LocalContext) (nparams : Nat) (minors : List Expr)
    (cnames : List Name) (args : List Expr) (rs : List Expr)
    (h : visit_minors V visit lctx nparams minors cnames args = .ok rs) :
    rs.all enf_clean = true := by
  unfold visit_minors at h
  split at h
  · simp only [bind, Except.bind] at h
    split at h
    · simp at h
    · rename_i args1 hargs
      exact enf_clean_distribute_args V visit hβ hP lctx nparams args1
        (enf_clean_visit_args visit hP lctx _ _ hargs) minors cnames rs h
  · exact enf_clean_visit_args visit hP lctx minors rs h

theorem enf_clean_visit_cases_on (V : Visitor) (visit : LocalContext → Expr → Result Expr)
    (hβ : ∀ e, enf_clean e = true → enf_clean (V.beta_reduce e) = true)
    (hP : ReturnsClean visit) (lctx : LocalContext) (fn : Expr) (args : List Expr) (r : Expr)
    (h : visit_cases_on V visit lctx fn args = .ok r) : enf_clean r = true := by
  simp only [visit_cases_on, bind, Except.bind] at h
  split at h
  · simp at h
  · split at h
    · simp [pure, Except.pure, mk_enf_unreachable] at h; subst h; rfl
    · split at h
      · simp at h
      · split at h
        · simp at h
        · split at h
          · simp at h
          · split at h
            · simp at h
            · split at h
              · simp at h
              · rename_i minors1 hminors
                split at h
                · simp at h
                · split at h
                  · simp at h
                  · rename_i major hmajor
                    split at h
                    · simp at h
                    · rename_i new_fn hfn
                      simp [pure, Except.pure] at h
                      subst h
                      rw [enf_clean_mk_app, enf_clean_mk_app, hP _ _ _ hfn,
                        enf_clean_visit_minors V visit hβ hP _ _ _ _ _ _ hminors]
                      simp [hP _ _ _ hmajor]

theorem enf_clean_visit_rec (V : Visitor) (visit : LocalContext → Expr → Result Expr)
    (hβ : ∀ e, enf_clean e = true → enf_clean (V.beta_reduce e) = true)
    (hP : ReturnsClean visit) (lctx : LocalContext) (fn : Expr) (args : List Expr) (r : Expr)
    (h : visit_rec V visit lctx fn args = .ok r) : enf_clean r = true := by
  simp only [visit_rec, bind, Except.bind] at h
  split at h
  · simp at h
  · split at h
    · simp [pure, Except.pure, mk_enf_unreachable] at h; subst h; rfl
    · split at h
      · simp at h
      · split at h
        · simp at h
        · split at h
          · simp at h
          · split at h
            · simp at h
            · split at h
              · simp at h
              · split at h
                · simp at h
                · split at h
                  · simp at h
                  · rename_i major hmajor
                    split at h
                    · simp at h
                    · rename_i minors1 hminors
                      simp [pure, Except.pure] at h
                      subst h
                      rw [enf_clean_mk_app, enf_clean_mk_app,
                        enf_clean_visit_minors V visit hβ hP _ _ _ _ _ _ hminors]
                      simp [hP _ _ _ hmajor, enf_clean]

theorem enf_clean_visit_eq_rec (V : Visitor) (visit : LocalContext → Expr → Result Expr)
    (hβ : ∀ e, enf_clean e = true → enf_clean (V.beta_reduce e) = true)
    (hP : ReturnsClean visit) (lctx : LocalContext) (args : List Expr) (r : Expr)
    (h : visit_eq_rec V visit lctx args = .ok r) : enf_clean r = true := by
  simp only [visit_eq_rec, bind, Except.bind] at h
  split at h
  · simp at h
  · split at h
    · simp at h
    · split at h
      · simp at h
      · rename_i major hmajor
        exact enf_clean_add_args V visit hβ hP _ _ _ _ _ (hP _ _ _ hmajor) h

theorem enf_clean_visit_subtype_mk (V : Visitor) (visit : LocalContext → Expr → Result Expr)
    (hβ : ∀ e, enf_clean e = true → enf_clean (V.beta_reduce e) = true)
    (hP : ReturnsClean visit) (lctx : LocalContext) (args : List Expr) (r : Expr)
    (h : visit_subtype_mk V visit lctx args = .ok r) : enf_clean r = true := by
  simp only [visit_subtype_mk, bind, Except.bind] at h
  split at h
  · simp at h
  · split at h
    · simp at h
    · split at h
      · simp at h
      · rename_i major hmajor
        exact enf_clean_add_args V visit hβ hP _ _ _ _ _ (hP _ _ _ hmajor) h

theorem enf_clean_visit_subtype_val (V : Visitor) (visit : LocalContext → Expr → Result Expr)
    (hβ : ∀ e, enf_clean e = true → enf_clean (V.beta_reduce e) = true)
    (hP : ReturnsClean visit) (lctx : LocalContext) (args : List Expr) (r : Expr)
    (h : visit_subtype_val V visit lctx args = .ok r) : enf_clean r = true := by
  simp only [visit_subtype_val, bind, Except.bind] at h
  split at h
  · simp at h
  · split at h
    · simp at h
    · split at h
      · simp at h
      · rename_i major hmajor
        exact enf_clean_add_args V visit hβ hP _ _ _ _ _ (hP _ _ _ hmajor) h

theorem enf_clean_visit_quot_mk (V : Visitor) (visit : LocalContext → Expr → Result Expr)
    (hβ : ∀ e, enf_clean e = true → enf_clean (V.beta_reduce e) = true)
    (hP : ReturnsClean visit) (lctx : LocalContext) (args : List Expr) (r : Expr)
    (h : visit_quot_mk V visit lctx args = .ok r) : enf_clean r = true := by
  simp only [visit_quot_mk, bind, Except.bind] at h
  split at h
  · simp at h
  · split at h
    · simp at h
    · split at h
      · simp at h
      · rename_i major hmajor
        exact enf_clean_add_args V visit hβ hP _ _ _ _ _ (hP _ _ _ hmajor) h

theorem enf_clean_visit_and_cases_on (V : Visitor) (visit : LocalContext → Expr → Result Expr)
    (hβ : ∀ e, enf_clean e = true → enf_clean (V.beta_reduce e) = true)
    (hP : ReturnsClean visit) (lctx : LocalContext) (args : List Expr) (r : Expr)
    (h : visit_and_cases_on V visit lctx args = .ok r) : enf_clean r = true := by
  simp only [visit_and_cases_on, bind, Except.bind] at h
  split at h
  · simp at h
  · split at h
    · simp at h
    · split at h
      · simp at h
      · rename_i minor hminor
        refine enf_clean_add_args V visit hβ hP _ _ _ _ _ (hβ _ ?_) h
        simp [enf_clean_mk_app, hP _ _ _ hminor, mk_enf_neutral, enf_clean]

theorem enf_clean_visit_and_rec (V : Visitor) (visit : LocalContext → Expr → Result Expr)
    (hβ : ∀ e, enf_clean e = true → enf_clean (V.beta_reduce e) = true)
    (hP : ReturnsClean visit) (lctx : LocalContext) (args : List Expr) (r : Expr)
    (h : visit_and_rec V visit lctx args = .ok r) : enf_clean r = true := by
  simp only [visit_and_rec, bind, Except.bind] at h
  split at h
  · simp at h
  · split at h
    · simp at h
    · split at h
      · simp at h
      · rename_i minor hminor
        refine enf_clean_add_args V visit hβ hP _ _ _ _ _ (hβ _ ?_) h
        simp [enf_clean_mk_app, hP _ _ _ hminor, mk_enf_neutral, enf_clean]

theorem enf_clean_visit_subtype_rec (V : Visitor) (visit : LocalContext → Expr → Result Expr)
    (hβ : ∀ e, enf_clean e = true → enf_clean (V.beta_reduce e) = true)
    (hP : ReturnsClean visit) (lctx : LocalContext) (args : List Expr) (r : Expr)
    (h : visit_subtype_rec V visit lctx args = .ok r) : enf_clean r = true := by
  simp only [visit_subtype_rec, bind, Except.bind] at h
  split at h
  · simp at h
  · split at h
    · simp at h
    · split at h
      · simp at h
      · rename_i minor hminor
        split at h
        · simp at h
        · split at h
          · simp at h
          · rename_i major hmajor
            refine enf_clean_add_args V visit hβ hP _ _ _ _ _ ?_ h
            simp [enf_clean_mk_app, hP _ _ _ hminor, hP _ _ _ hmajor, mk_enf_neutral, enf_clean]

theorem enf_clean_visit_acc_cases_on (V : Visitor) (visit : LocalContext → Expr → Result Expr)
    (hβ : ∀ e, enf_clean e = true → enf_clean (V.beta_reduce e) = true)
    (hP : ReturnsClean visit) (lctx : LocalContext) (args : List Expr) (r : Expr)
    (h : visit_acc_cases_on V visit lctx args = .ok r) : enf_clean r = true := by
  simp only [visit_acc_cases_on, bind, Except.bind] at h
  split at h
  · simp at h
  · split at h
    · simp at h
    · split at h
      · simp at h
      · rename_i a ha
        split at h
        · simp at h
        · split at h
          · simp at h
          · rename_i minor hminor
            refine enf_clean_add_args V visit hβ hP _ _ _ _ _ (hβ _ ?_) h
            simp [enf_clean_mk_app, hP _ _ _ hminor, hP _ _ _ ha, mk_enf_neutral, enf_clean]

theorem enf_clean_visit_quot_lift (V : Visitor) (visit : LocalContext → Expr → Result Expr)
    (hβ : ∀ e, enf_clean e = true → enf_clean (V.beta_reduce e) = true)
    (hP : ReturnsClean visit) (lctx : LocalContext) (args : List Expr) (r : Expr)
    (h : visit_quot_lift V visit lctx args = .ok r) : enf_clean r = true := by
  simp only [visit_quot_lift, bind, Except.bind] at h
  split at h
  · simp at h
  · split at h
    · simp at h
    · split at h
      · simp at h
      · rename_i f hf
        split at h
        · simp at h
        · split at h
          · simp at h
          · rename_i q hq
            refine enf_clean_add_args V visit hβ hP _ _ _ _ _ (hβ _ ?_) h
            simp [enf_clean_mk_app, hP _ _ _ hf, hP _ _ _ hq]

theorem enf_clean_add_dummy_proofs (n : Nat) (r : Expr) (h : enf_clean r = true) :
    enf_clean (add_dummy_proofs n r) = true := by
  rw [add_dummy_proofs_eq, enf_clean_mk_app, h]
  simp [enf_clean]

theorem consume_lambdas_loop_no_values (V : Visitor) (n : Nat) (lctx : LocalContext)
    (locals : List LocalDecl) (e : Expr) (lctx1 : LocalContext) (locals1 : List LocalDecl)
    (body : Expr) (hl : ∀ d ∈ locals, d.value = none)
    (h : consume_lambdas_loop V n lctx locals e = .ok (lctx1, locals1, body)) :
    ∀ d ∈ locals1, d.value = none := by
  induction n generalizing lctx locals e with
  | zero =>
    cases e with
    | lam x d b => simp [consume_lambdas_loop, throw, throwThe, MonadExceptOf.throw] at h
    | _ =>
      simp [consume_lambdas_loop, pure, Except.pure] at h
      obtain ⟨_, h2, _⟩ := h
      subst h2
      exact hl
  | succ n ih =>
    cases e with
    | lam x d b =>
      simp only [consume_lambdas_loop] at h
      refine ih _ _ _ ?_ h
      intro d' hd'
      rcases List.mem_append.mp hd' with h1 | h1
      · exact hl d' h1
      · simp [LocalContext.push] at h1
        subst h1
        rfl
    | _ =>
      simp [consume_lambdas_loop, pure, Except.pure] at h
      obtain ⟨_, h2, _⟩ := h
      subst h2
      exact hl

theorem enf_clean_visit_no_confusion (V : Visitor) (visit : LocalContext → Expr → Result Expr)
    (hβ : ∀ e, enf_clean e = true → enf_clean (V.beta_reduce e) = true)
    (hP : ReturnsClean visit) (lctx : LocalContext) (fn : Expr) (args : List Expr) (r : Expr)
    (h : visit_no_confusion V visit lctx fn args = .ok r) : enf_clean r = true := by
  simp only [visit_no_confusion, bind, Except.bind] at h
  repeat' (split at h)
  all_goals first
    | (simp [throw, throwThe, MonadExceptOf.throw] at h)
    | (simp [pure, Except.pure, mk_enf_unreachable] at h; subst h; rfl)
    | skip
  rename_i peeled hpeel _ major2 hmajor2
  have hnv := consume_lambdas_loop_no_values V _ _ _ _ peeled.1 peeled.2.1 peeled.2.2
    (by simp) hpeel
  refine enf_clean_add_args V visit hβ hP _ _ _ _ _ ?_ h
  apply enf_clean_add_dummy_proofs
  apply enf_clean_erase_lambda_let_types
  apply enf_clean_mk_lambda
  · intro d hd v hv
    rw [hnv d hd] at hv
    cases hv
  · exact hP _ _ _ hmajor2

theorem enf_clean_visit_lambda_let_loop (visit : LocalContext → Expr → Result Expr)
    (hP : ReturnsClean visit) (t : Expr) (lctx : LocalContext) (locals : List LocalDecl)
    (r : Expr) (hl : ∀ d ∈ locals, ∀ v, d.value = some v → enf_clean v = true)
    (h : visit_lambda_let_loop visit lctx locals t = .ok r) : enf_clean r = true := by
  induction t generalizing lctx locals with
  | lam n d b _ ihb =>
    simp only [visit_lambda_let_loop] at h
    refine ihb _ _ ?_ h
    intro d' hd' v hv
    rcases List.mem_append.mp hd' with h1 | h1
    · exact hl d' h1 v hv
    · simp [LocalContext.push] at h1
      subst h1
      simp at hv
  | elet n t v b _ _ ihb =>
    simp only [visit_lambda_let_loop] at h
    split at h
    · simp at h
    · rename_i v1 hv1
      refine ihb _ _ ?_ h
      intro d' hd' v hv
      rcases List.mem_append.mp hd' with h1 | h1
      · exact hl d' h1 v hv
      · simp [LocalContext.push] at h1
        subst h1
        simp at hv
        subst hv
        exact hP _ _ _ hv1
  | _ =>
    simp only [visit_lambda_let_loop] at h
    split at h
    · simp at h
    · rename_i t1 ht1
      simp [pure, Except.pure] at h
      subst h
      exact enf_clean_mk_lambda locals t1 hl (hP _ _ _ ht1)

theorem enf_clean_visit_lambda (visit : LocalContext → Expr → Result Expr)
    (hP : ReturnsClean visit) (lctx : LocalContext) (e r : Expr)
    (h : visit_lambda visit lctx e = .ok r) : enf_clean r = true := by
  simp only [visit_lambda, compiler_step_visitor_visit_lambda_let, bind, Except.bind] at h
  split at h
  · simp at h
  · rename_i r1 hr1
    simp [pure, Except.pure] at h
    subst h
    exact enf_clean_erase_lambda_let_types _
      (enf_clean_visit_lambda_let_loop visit hP e lctx [] r1 (by simp) hr1)

theorem enf_clean_visit_let (visit : LocalContext → Expr → Result Expr)
    (hP : ReturnsClean visit) (lctx : LocalContext) (e r : Expr)
    (h : visit_let visit lctx e = .ok r) : enf_clean r = true := by
  simp only [visit_let, compiler_step_visitor_visit_lambda_let, bind, Except.bind] at h
  split at h
  · simp at h
  · rename_i r1 hr1
    simp [pure, Except.pure] at h
    subst h
    exact enf_clean_erase_lambda_let_types _
      (enf_clean_visit_lambda_let_loop visit hP e lctx [] r1 (by simp) hr1)

theorem enf_clean_generic_visit_app (visit : LocalContext → Expr → Result Expr)
    (hP : ReturnsClean visit) (lctx : LocalContext) (e r : Expr)
    (h : compiler_step_visitor_visit_app visit lctx e = .ok r) : enf_clean r = true := by
  simp only [compiler_step_visitor_visit_app, bind, Except.bind] at h
  split at h
  · simp at h
  · rename_i new_fn hfn
    split at h
    · simp at h
    · rename_i new_args hargs
      simp [pure, Except.pure] at h
      subst h
      rw [enf_clean_mk_app, hP _ _ _ hfn, enf_clean_visit_args visit hP lctx _ _ hargs]
      rfl

theorem enf_clean_visit_app_const (V : Visitor) (visit : LocalContext → Expr → Result Expr)
    (hβ : ∀ e, enf_clean e = true → enf_clean (V.beta_reduce e) = true)
    (hP : ReturnsClean visit) (lctx : LocalContext) (e fn : Expr) (args : List Expr)
    (n : Name) (r : Expr)
    (h : visit_app_const V visit lctx e fn args n = .ok r) : enf_clean r = true := by
  unfold visit_app_const at h
  by_cases h1 : n = get_eq_rec_name
  · rw [if_pos h1] at h
    exact enf_clean_visit_eq_rec V visit hβ hP _ _ _ h
  rw [if_neg h1] at h
  by_cases h2 : n = get_acc_cases_on_name
  · rw [if_pos h2] at h
    exact enf_clean_visit_acc_cases_on V visit hβ hP _ _ _ h
  rw [if_neg h2] at h
  by_cases h3 : n = get_and_cases_on_name
  · rw [if_pos h3] at h
    exact enf_clean_visit_and_cases_on V visit hβ hP _ _ _ h
  rw [if_neg h3] at h
  by_cases h4 : n = get_and_rec_name
  · rw [if_pos h4] at h
    exact enf_clean_visit_and_rec V visit hβ hP _ _ _ h
  rw [if_neg h4] at h
  by_cases h5 : n = get_quot_lift_name
  · rw [if_pos h5] at h
    exact enf_clean_visit_quot_lift V visit hβ hP _ _ _ h
  rw [if_neg h5] at h
  by_cases h6 : n = get_quot_mk_name
  · rw [if_pos h6] at h
    exact enf_clean_visit_quot_mk V visit hβ hP _ _ _ h
  rw [if_neg h6] at h
  by_cases h7 : n = get_subtype_rec_name
  · rw [if_pos h7] at h
    exact enf_clean_visit_subtype_rec V visit hβ hP _ _ _ h
  rw [if_neg h7] at h
  by_cases h8 : V.env.is_cases_on_recursor n = true
  · rw [if_pos h8] at h
    exact enf_clean_visit_cases_on V visit hβ hP _ _ _ _ h
  rw [if_neg h8] at h
  by_cases h9 : V.env.is_recursor n = true
  · rw [if_pos h9] at h
    exact enf_clean_visit_rec V visit hβ hP _ _ _ _ h
  rw [if_neg h9] at h
  by_cases h10 : V.env.is_no_confusion n = true
  · rw [if_pos h10] at h
    exact enf_clean_visit_no_confusion V visit hβ hP _ _ _ _ h
  rw [if_neg h10] at h
  by_cases h11 : n = get_subtype_mk_name
  · rw [if_pos h11] at h
    exact enf_clean_visit_subtype_mk V visit hβ hP _ _ _ h
  rw [if_neg h11] at h
  by_cases h12 : n = get_subtype_val_name
  · rw [if_pos h12] at h
    exact enf_clean_visit_subtype_val V visit hβ hP _ _ _ h
  rw [if_neg h12] at h
  by_cases h13 : n = get_lc_unreachable_name
  · rw [if_pos h13] at h
    simp [pure, Except.pure, mk_enf_unreachable] at h; subst h; rfl
  rw [if_neg h13] at h
  exact enf_clean_generic_visit_app visit hP _ _ _ h

theorem enf_clean_visit_app (V : Visitor) (visit : LocalContext → Expr → Result Expr)
    (hβ : ∀ e, enf_clean e = true → enf_clean (V.beta_reduce e) = true)
    (hP : ReturnsClean visit) (lctx : LocalContext) (e r : Expr)
    (h : visit_app V visit lctx e = .ok r) : enf_clean r = true := by
  unfold visit_app at h
  split at h
  · simp [pure, Except.pure, mk_enf_neutral] at h; subst h; rfl
  · split at h
    · simp [pure, Except.pure] at h; subst h; rfl
    · simp only at h
      split at h
      · exact hP _ _ _ h
      · split at h
        · exact enf_clean_visit_app_const V visit hβ hP _ _ _ _ _ _ h
        · exact enf_clean_generic_visit_app visit hP _ _ _ h

theorem enf_clean_visit_core (V : Visitor) (visit : LocalContext → Expr → Result Expr)
    (hβ : ∀ e, enf_clean e = true → enf_clean (V.beta_reduce e) = true)
    (hP : ReturnsClean visit) (lctx : LocalContext) (e r : Expr)
    (h : visit_core V visit lctx e = .ok r) : enf_clean r = true := by
  cases e with
  | sort l => simp [visit_core, visit_sort, pure, Except.pure, mk_enf_neutral] at h; subst h; rfl
  | pi n d b => simp [visit_core, visit_pi, pure, Except.pure, mk_enf_neutral] at h; subst h; rfl
  | mdata m e =>
    simp only [visit_core, visit_mdata] at h
    split at h
    · simp [pure, Except.pure, mk_enf_neutral] at h; subst h; rfl
    · split at h
      · simp [pure, Except.pure, mk_enf_neutral] at h; subst h; rfl
      · simp only [mdata_expr, bind, Except.bind, pure, Except.pure] at h
        exact hP _ _ _ h
  | loc i =>
    simp only [visit_core, visit_local] at h
    split at h
    · simp [pure, Except.pure, mk_enf_neutral] at h; subst h; rfl
    · simp [pure, Except.pure] at h; subst h; rfl
  | const n ls =>
    simp only [visit_core, visit_constant] at h
    split at h
    · simp [pure, Except.pure, mk_enf_neutral] at h; subst h; rfl
    · simp only [const_name, bind, Except.bind, pure, Except.pure] at h
      split at h
      · simp [mk_enf_unreachable] at h; subst h; rfl
      · simp at h; subst h; rfl
  | lam n d b => exact enf_clean_visit_lambda visit hP lctx _ r h
  | elet n t v b => exact enf_clean_visit_let visit hP lctx _ r h
  | app f a => exact enf_clean_visit_app V visit hβ hP lctx _ r h
  | bvar i => simp [visit_core, pure, Except.pure] at h; subst h; rfl
  | lit n => simp [visit_core, pure, Except.pure] at h; subst h; rfl
  | neutral => simp [visit_core, pure, Except.pure] at h; subst h; rfl
  | unreachable => simp [visit_core, pure, Except.pure] at h; subst h; rfl

theorem visit_returns_clean (V : Visitor)
    (hβ : ∀ e, enf_clean e = true → enf_clean (V.beta_reduce e) = true) (fuel : Nat) :
    ReturnsClean (visit V fuel) := by
  induction fuel with
  | zero =>
    intro lctx e r h
    simp [visit, throw, throwThe, MonadExceptOf.throw] at h
  | succ fuel ih =>
    intro lctx e r h
    exact enf_clean_visit_core V (visit V fuel) hβ ih lctx e r h

/-- C2, amended: the output of the pass contains no `Sort` node, no `Pi` node
    and no metadata node flagged irrelevant outside the domains of its `Lambda`
    nodes and the type annotations of its `Let` nodes, provided the kernel's
    `beta_reduce` does not introduce one there. -/
theorem no_residual_irrelevance_outside_types (V : Visitor)
    (hβ : ∀ e, enf_clean e = true → enf_clean (V.beta_reduce e) = true)
    (fuel : Nat) (e r : Expr) (h : old_erase_irrelevant V fuel e = .ok r) :
    enf_clean r = true :=
  visit_returns_clean V hβ fuel _ e r h

theorem enf_clean_lift (e : Expr) (s d : Nat) :
    enf_clean (lift_loose_bvars e s d) = enf_clean e := by
  induction e generalizing s with
  | bvar i =>
    simp only [lift_loose_bvars]
    split <;> rfl
  | app f a ihf iha => simp [lift_loose_bvars, enf_clean, ihf, iha]
  | lam n t b _ ihb => simp [lift_loose_bvars, enf_clean, ihb]
  | elet n t v b _ ihv ihb => simp [lift_loose_bvars, enf_clean, ihv, ihb]
  | mdata m e ih => simp [lift_loose_bvars, enf_clean, ih]
  | _ => simp [lift_loose_bvars, enf_clean]

theorem enf_clean_instantiate_at (b : Expr) (k : Nat) (s : Expr) (hb : enf_clean b = true)
    (hs : enf_clean s = true) : enf_clean (instantiate_at b k s) = true := by
  induction b generalizing k with
  | bvar i =>
    simp only [instantiate_at]
    split
    · rfl
    · split
      · rw [enf_clean_lift]; exact hs
      · rfl
  | app f a ihf iha =>
    simp only [enf_clean, Bool.and_eq_true] at hb
    simp [instantiate_at, enf_clean, ihf k hb.1, iha k hb.2]
  | lam n t b _ ihb =>
    simp only [enf_clean] at hb
    simp [instantiate_at, enf_clean, ihb (k + 1) hb]
  | elet n t v b _ ihv ihb =>
    simp only [enf_clean, Bool.and_eq_true] at hb
    simp [instantiate_at, enf_clean, ihv k hb.1, ihb (k + 1) hb.2]
  | mdata m e ih =>
    simp only [enf_clean, Bool.and_eq_true] at hb
    simp [instantiate_at, enf_clean, hb.1, ih k hb.2]
  | _ => simpa [instantiate_at] using hb

theorem enf_clean_beta_pass (e : Expr) (h : enf_clean e = true) :
    enf_clean (beta_pass e) = true := by
  induction e with
  | app f a ihf iha =>
    simp only [enf_clean, Bool.and_eq_true] at h
    have hf := ihf h.1
    have ha := iha h.2
    simp only [beta_pass]
    split
    · rename_i n t b hfb
      rw [hfb] at hf
      simp only [enf_clean] at hf
      exact enf_clean_instantiate_at b 0 _ hf ha
    · simp [enf_clean, hf, ha]
  | lam n t b _ ihb =>
    simp only [enf_clean] at h
    simp [beta_pass, enf_clean, ihb h]
  | elet n t v b _ ihv ihb =>
    simp only [enf_clean, Bool.and_eq_true] at h
    simp [beta_pass, enf_clean, ihv h.1, ihb h.2]
  | mdata m e ih =>
    simp only [enf_clean, Bool.and_eq_true] at h
    simp [beta_pass, enf_clean, h.1, ih h.2]
  | pi n t b _ _ => simp [enf_clean] at h
  | _ => simpa [beta_pass] using h

theorem enf_clean_beta_passes (n : Nat) (e : Expr) (h : enf_clean e = true) :
    enf_clean (beta_passes n e) = true := by
  induction n generalizing e with
  | zero => simpa [beta_passes] using h
  | succ n ih => exact ih _ (enf_clean_beta_pass e h)

/-- Witness of C2, amended: the erased case split
    `wrap.cases_on w (fun (f : nat → nat) => f 7)` has its only `Pi` node in a
    binder domain. -/
theorem no_residual_irrelevance_outside_types_witness :
    enf_clean (mk_app (.const (name2 "wrap" "cases_on") [])
      [cst "w", .lam (name1 "f") nat_to_nat (.app (.bvar 0) (.lit 7))]) = true :=
  no_residual_irrelevance_outside_types sample_visitor (enf_clean_beta_passes 4) 10
    sample_wrap_cases _ (by rfl)

/-- Counterexample to C1 as stated.  The saturated case split
    `punit.cases_on (fun x => nat) star 5` is erased to `punit.cases_on star 5`,
    which has fewer arguments than a case split over `punit` takes: erasing it
    again fails on the assertion `args.size() >= arity` of `visit_cases_on`.
    And `eq.rec A a C (punit.cases_on motive star f) b h 7` is erased to
    `punit.cases_on star f 7`, which is erased again to the different
    expression `punit.cases_on f 7`: the second run reads the erased major
    premise as the motive.

    The case split is not the only obstacle:

    * `(mdata (fun (x : nat) => x)) 5` is erased to `(fun (x : nat) => x) 5`,
      whose head is a lambda, and that to `5`;
    * `eq.rec A a C (fun (f y : nat) => f) b h hp` is erased to
      `fun (y : nat) => NeutralMarker`, a chain that ends in `NeutralMarker`
      with a domain that is kept, and that to
      `fun (y : NeutralMarker) => NeutralMarker`;
    * with a literal recognizer that folds `nat.succ n`, `nat.succ (mdata 0)`
      is erased to `nat.succ 0`, and that to `1`;
    * with an oracle that knows `q` only without universe arguments, as a
      proof, `g q.{1}` is erased to `g q`, and that to `g NeutralMarker`. -/
theorem erase_idempotent_counterexample :
    old_erase_irrelevant sample_visitor 10 sample_punit_cases
      = .ok (mk_app (.const (name2 "punit" "cases_on") [])
          [.const (name2 "punit" "star") [], .lit 5]) ∧
    old_erase_irrelevant sample_visitor 10
        (mk_app (.const (name2 "punit" "cases_on") []) [.const (name2 "punit" "star") [], .lit 5])
      = .error Failure.assertion ∧
    old_erase_irrelevant sample_visitor 10 sample_cast_of_cases
      = .ok (mk_app (.const (name2 "punit" "cases_on") [])
          [.const (name2 "punit" "star") [], cst "f", .lit 7]) ∧
    old_erase_irrelevant sample_visitor 10
        (mk_app (.const (name2 "punit" "cases_on") [])
          [.const (name2 "punit" "star") [], cst "f", .lit 7])
      = .ok (mk_app (.const (name2 "punit" "cases_on") []) [cst "f", .lit 7]) ∧
    mk_app (.const (name2 "punit" "cases_on") []) [cst "f", .lit 7]
      ≠ mk_app (.const (name2 "punit" "cases_on") [])
          [.const (name2 "punit" "star") [], cst "f", .lit 7] ∧
    old_erase_irrelevant sample_visitor 10 sample_mdata_redex
      = .ok (.app (.lam (name1 "x") (cst "nat") (.bvar 0)) (.lit 5)) ∧
    old_erase_irrelevant sample_visitor 10 (.app (.lam (name1 "x") (cst "nat") (.bvar 0)) (.lit 5))
      = .ok (.lit 5) ∧
    old_erase_irrelevant sample_visitor 10 sample_cast_of_const_fun
      = .ok (.lam (name1 "y") (cst "nat") .neutral) ∧
    old_erase_irrelevant sample_visitor 10 (.lam (name1 "y") (cst "nat") .neutral)
      = .ok (.lam (name1 "y") .neutral .neutral) ∧
    old_erase_irrelevant sample_visitor_succ 10 sample_succ_mdata
      = .ok (.app (.const (name2 "nat" "succ") []) (.lit 0)) ∧
    old_erase_irrelevant sample_visitor_succ 10 (.app (.const (name2 "nat" "succ") []) (.lit 0))
      = .ok (.lit 1) ∧
    old_erase_irrelevant sample_visitor_levels 10 (.app (cst "g") (.const (name1 "q") [1]))
      = .ok (.app (cst "g") (cst "q")) ∧
    old_erase_irrelevant sample_visitor_levels 10 (.app (cst "g") (cst "q"))
      = .ok (.app (cst "g") .neutral) :=
  ⟨by rfl, by rfl, by rfl, by rfl, by decide, by rfl, by rfl, by rfl, by rfl, by rfl, by rfl,
    by rfl, by rfl⟩

theorem get_app_args_app (f a : Expr) : get_app_args (.app f a) = get_app_args f ++ [a] := by
  simp only [get_app_args, get_app_args_aux]
  rw [get_app_args_aux_append f [a]]

theorem mk_app_append (f : Expr) (as bs : List Expr) :
    mk_app f (as ++ bs) = mk_app (mk_app f as) bs := by
  simp [mk_app, List.foldl_append]

theorem mk_app_get_app (e : Expr) : mk_app (get_app_fn e) (get_app_args e) = e := by
  induction e with
  | app f a ihf _ =>
    rw [get_app_args_app, mk_app_append]
    simp only [get_app_fn]
    rw [ihf]
    rfl
  | _ => rfl

theorem visit_args_append (visit : LocalContext → Expr → Result Expr) (lctx : LocalContext)
    (as bs as1 bs1 : List Expr) (ha : visit_args visit lctx as = .ok as1)
    (hb : visit_args visit lctx bs = .ok bs1) :
    visit_args visit lctx (as ++ bs) = .ok (as1 ++ bs1) := by
  induction as generalizing as1 with
  | nil =>
    simp [visit_args, pure, Except.pure] at ha
    subst ha
    simpa using hb
  | cons a as ih =>
    simp only [visit_args, bind, Except.bind] at ha
    cases hv : visit lctx a with
    | error err => simp [hv] at ha
    | ok a1 =>
      cases hr : visit_args visit lctx as with
      | error err => simp [hv, hr] at ha
      | ok r =>
        simp [hv, hr, pure, Except.pure] at ha
        subst ha
        simp [visit_args, bind, Except.bind, hv, ih r hr, pure, Except.pure]

theorem visit_app_const_generic (V : Visitor) (visit : LocalContext → Expr → Result Expr)
    (lctx : LocalContext) (e : Expr) (args : List Expr) (n : Name) (ls : List Level)
    (h : generic_head V (.const n ls) = true) :
    visit_app_const V visit lctx e (.const n ls) args n
      = compiler_step_visitor_visit_app visit lctx e := by
  simp only [generic_head, Bool.and_eq_true, decide_eq_true_eq, Bool.not_eq_true'] at h
  obtain ⟨⟨⟨⟨⟨⟨⟨⟨⟨⟨⟨⟨h1, h2⟩, h3⟩, h4⟩, h5⟩, h6⟩, h7⟩, h8⟩, h9⟩, h10⟩, h11⟩, h12⟩, h13⟩ := h
  unfold visit_app_const
  rw [if_neg h1, if_neg h2, if_neg h3, if_neg h4, if_neg h5, if_neg h6, if_neg h7,
    if_neg (by simp [h8]), if_neg (by simp [h9]), if_neg (by simp [h10]), if_neg h11,
    if_neg h12, if_neg h13]

theorem visit_app_generic (V : Visitor) (visit : LocalContext → Expr → Result Expr)
    (lctx : LocalContext) (e : Expr)
    (hirr : is_comp_irrelevant V lctx e = false) (hnat : V.to_nat_value lctx e = none)
    (hh : generic_head V (get_app_fn e) = true) :
    visit_app V visit lctx e = compiler_step_visitor_visit_app visit lctx e := by
  unfold visit_app
  simp only [hirr, hnat]
  cases hfn : get_app_fn e with
  | lam n d b => rw [hfn] at hh; simp [generic_head] at hh
  | const n ls =>
    rw [hfn] at hh
    simp only [is_lambda]
    exact visit_app_const_generic V visit lctx e _ n ls hh
  | _ => simp [is_lambda]

theorem lift_loc (i s d : Nat) : lift_loose_bvars (.loc i) s d = .loc i := rfl

theorem instantiate_at_sim_inst (x : Expr) (k l1 : Nat) (rest : List Nat) :
    instantiate_at (sim_inst x k rest) k (.loc l1) = sim_inst x k (l1 :: rest) := by
  induction x generalizing k with
  | bvar j =>
    simp only [sim_inst]
    by_cases hjk : j < k
    · simp [hjk, instantiate_at]
    · simp only [hjk, if_false, List.reverse_cons]
      by_cases hlt : j - k < rest.length
      · have h2 : (rest.reverse ++ [l1])[j - k]? = rest.reverse[j - k]? :=
          List.getElem?_append_left (by simpa using hlt)
        rw [h2]
        cases h1 : rest.reverse[j - k]? with
        | none =>
          have := List.getElem?_eq_none_iff.mp h1
          simp at this
          omega
        | some v => simp [instantiate_at]
      · have h1 : rest.reverse[j - k]? = none :=
          List.getElem?_eq_none (by simpa using Nat.le_of_not_lt hlt)
        rw [h1]
        simp only [instantiate_at]
        by_cases heq : j - k = rest.length
        · have h2 : (rest.reverse ++ [l1])[j - k]? = some l1 := by
            rw [List.getElem?_append_right (by simp [heq])]
            simp [heq]
          rw [h2]
          have : ¬ (j - rest.length < k) := by omega
          have h3 : j - rest.length = k := by omega
          simp [this, h3, lift_loose_bvars]
        · have h2 : (rest.reverse ++ [l1])[j - k]? = none :=
            List.getElem?_eq_none (by simp; omega)
          rw [h2]
          have h3 : ¬ (j - rest.length < k) := by omega
          have h4 : ¬ (j - rest.length = k) := by omega
          simp only [h3, h4, if_false, List.length_cons]
          congr 1
  | app f a ihf iha => simp [sim_inst, instantiate_at, ihf, iha]
  | lam n t b iht ihb => simp [sim_inst, instantiate_at, iht, ihb]
  | pi n t b iht ihb => simp [sim_inst, instantiate_at, iht, ihb]
  | elet n t v b iht ihv ihb => simp [sim_inst, instantiate_at, iht, ihv, ihb]
  | mdata m e ih => simp [sim_inst, instantiate_at, ih]
  | _ => simp [sim_inst, instantiate_at]

theorem sim_inst_nil (x : Expr) (k : Nat) : sim_inst x k [] = x := by
  induction x generalizing k with
  | bvar j => simp [sim_inst]
  | app f a ihf iha => simp [sim_inst, ihf, iha]
  | lam n t b iht ihb => simp [sim_inst, iht, ihb]
  | pi n t b iht ihb => simp [sim_inst, iht, ihb]
  | elet n t v b iht ihv ihb => simp [sim_inst, iht, ihv, ihb]
  | mdata m e ih => simp [sim_inst, ih]
  | _ => simp [sim_inst]

theorem instantiate_rev_eq_sim_inst (x : Expr) (ids : List Nat) :
    instantiate_rev x (ids.map Expr.loc) = sim_inst x 0 ids := by
  induction ids with
  | nil => simp [instantiate_rev, sim_inst_nil]
  | cons l1 rest ih =>
    simp only [instantiate_rev, List.map_cons, List.foldr_cons] at ih ⊢
    rw [ih]
    exact instantiate_at_sim_inst x 0 l1 rest

theorem local_index_none (l : List Nat) (i : Nat) (h : i ∉ l) : local_index l i = none := by
  induction l with
  | nil => rfl
  | cons x xs ih =>
    simp only [List.mem_cons, not_or] at h
    simp [local_index, Ne.symm h.1, ih h.2]

theorem local_index_of_getElem (l : List Nat) (p i : Nat) (hnd : l.Nodup)
    (h : l[p]? = some i) : local_index l i = some p := by
  induction l generalizing p with
  | nil => simp at h
  | cons x xs ih =>
    rw [List.nodup_cons] at hnd
    cases p with
    | zero =>
      simp at h
      simp [local_index, h]
    | succ p =>
      simp at h
      have hmem : i ∈ xs := List.getElem?_mem h
      have hne : x ≠ i := by
        intro hx
        rw [hx] at hnd
        exact hnd.1 hmem
      simp [local_index, hne, ih p hnd.2 h]

theorem abstract_sim_inst (x : Expr) (k : Nat) (ids : List Nat) (hnd : ids.Nodup)
    (hc : has_loose_bvars_at x (k + ids.length) = false)
    (hf : ∀ i ∈ ids, next_local_id x ≤ i) :
    abstract_locals_at (sim_inst x k ids) k ids.reverse = x := by
  induction x generalizing k with
  | bvar j =>
    simp only [has_loose_bvars_at, decide_eq_false_iff_not, Nat.not_le] at hc
    simp only [sim_inst]
    by_cases hjk : j < k
    · simp [hjk, abstract_locals_at]
    · simp only [hjk, if_false]
      cases h1 : ids.reverse[j - k]? with
      | none =>
        have := List.getElem?_eq_none_iff.mp h1
        simp at this
        omega
      | some v =>
        simp only [abstract_locals_at]
        rw [local_index_of_getElem ids.reverse (j - k) v (List.nodup_reverse.mpr hnd) h1]
        simp only [Expr.bvar.injEq]
        omega
  | loc i =>
    have hni : i ∉ ids.reverse := by
      intro hmem
      have := hf i (List.mem_reverse.mp hmem)
      simp [next_local_id] at this
    simp [sim_inst, abstract_locals_at, local_index_none _ _ hni]
  | app f a ihf iha =>
    simp only [has_loose_bvars_at, Bool.or_eq_false_iff] at hc
    simp only [next_local_id, Nat.max_le] at hf
    simp [sim_inst, abstract_locals_at, ihf k hc.1 (fun i hi => (hf i hi).1),
      iha k hc.2 (fun i hi => (hf i hi).2)]
  | lam n t b iht ihb =>
    simp only [has_loose_bvars_at, Bool.or_eq_false_iff] at hc
    simp only [next_local_id, Nat.max_le] at hf
    simp [sim_inst, abstract_locals_at, iht k hc.1 (fun i hi => (hf i hi).1),
      ihb (k + 1) (by rw [Nat.add_right_comm]; exact hc.2) (fun i hi => (hf i hi).2)]
  | pi n t b iht ihb =>
    simp only [has_loose_bvars_at, Bool.or_eq_false_iff] at hc
    simp only [next_local_id, Nat.max_le] at hf
    simp [sim_inst, abstract_locals_at, iht k hc.1 (fun i hi => (hf i hi).1),
      ihb (k + 1) (by rw [Nat.add_right_comm]; exact hc.2) (fun i hi => (hf i hi).2)]
  | elet n t v b iht ihv ihb =>
    simp only [has_loose_bvars_at, Bool.or_eq_false_iff] at hc
    simp only [next_local_id, Nat.max_le] at hf
    simp [sim_inst, abstract_locals_at, iht k hc.1.1 (fun i hi => (hf i hi).1),
      ihv k hc.1.2 (fun i hi => (hf i hi).2.1),
      ihb (k + 1) (by rw [Nat.add_right_comm]; exact hc.2) (fun i hi => (hf i hi).2.2)]
  | mdata m e ih =>
    simp only [has_loose_bvars_at] at hc
    simp only [next_local_id] at hf
    simp [sim_inst, abstract_locals_at, ih k hc hf]
  | _ => simp [sim_inst, abstract_locals_at]

theorem sim_inst_closed (x : Expr) (k : Nat) (ids : List Nat)
    (hc : has_loose_bvars_at x (k + ids.length) = false) :
    has_loose_bvars_at (sim_inst x k ids) k = false := by
  induction x generalizing k with
  | bvar j =>
    simp only [has_loose_bvars_at, decide_eq_false_iff_not, Nat.not_le] at hc
    simp only [sim_inst]
    by_cases hjk : j < k
    · simp [hjk, has_loose_bvars_at]
    · simp only [hjk, if_false]
      cases h1 : ids.reverse[j - k]? with
      | none =>
        have := List.getElem?_eq_none_iff.mp h1
        simp at this
        omega
      | some v => simp [has_loose_bvars_at]
  | app f a ihf iha =>
    simp only [has_loose_bvars_at, Bool.or_eq_false_iff] at hc
    simp [sim_inst, has_loose_bvars_at, ihf k hc.1, iha k hc.2]
  | lam n t b iht ihb =>
    simp only [has_loose_bvars_at, Bool.or_eq_false_iff] at hc
    simp [sim_inst, has_loose_bvars_at, iht k hc.1,
      ihb (k + 1) (by rw [Nat.add_right_comm]; exact hc.2)]
  | pi n t b iht ihb =>
    simp only [has_loose_bvars_at, Bool.or_eq_false_iff] at hc
    simp [sim_inst, has_loose_bvars_at, iht k hc.1,
      ihb (k + 1) (by rw [Nat.add_right_comm]; exact hc.2)]
  | elet n t v b iht ihv ihb =>
    simp only [has_loose_bvars_at, Bool.or_eq_false_iff] at hc
    simp [sim_inst, has_loose_bvars_at, iht k hc.1.1, ihv k hc.1.2,
      ihb (k + 1) (by rw [Nat.add_right_comm]; exact hc.2)]
  | mdata m e ih =>
    simp only [has_loose_bvars_at] at hc
    simp [sim_inst, has_loose_bvars_at, ih k hc]
  | _ => simp [sim_inst, has_loose_bvars_at]

theorem sim_inst_fresh (x : Expr) (k : Nat) (ids : List Nat) (N : Nat)
    (hx : next_local_id x ≤ N) (hids : ∀ i ∈ ids, i < N) :
    next_local_id (sim_inst x k ids) ≤ N := by
  induction x generalizing k with
  | bvar j =>
    simp only [sim_inst]
    by_cases hjk : j < k
    · simp [hjk, next_local_id]
    · simp only [hjk, if_false]
      cases h1 : ids.reverse[j - k]? with
      | none => simp [next_local_id]
      | some v =>
        have hmem : v ∈ ids := List.mem_reverse.mp (List.getElem?_mem h1)
        have := hids v hmem
        simp only [next_local_id]
        omega
  | app f a ihf iha =>
    simp only [next_local_id, Nat.max_le] at hx
    simp [sim_inst, next_local_id, ihf k hx.1, iha k hx.2]
  | lam n t b iht ihb =>
    simp only [next_local_id, Nat.max_le] at hx
    simp [sim_inst, next_local_id, iht k hx.1, ihb (k + 1) hx.2]
  | pi n t b iht ihb =>
    simp only [next_local_id, Nat.max_le] at hx
    simp [sim_inst, next_local_id, iht k hx.1, ihb (k + 1) hx.2]
  | elet n t v b iht ihv ihb =>
    simp only [next_local_id, Nat.max_le] at hx
    simp [sim_inst, next_local_id, iht k hx.1, ihv k hx.2.1, ihb (k + 1) hx.2.2]
  | mdata m e ih =>
    simp only [next_local_id] at hx
    simp [sim_inst, next_local_id, ih k hx]
  | _ => simpa [sim_inst] using hx

theorem sim_inst_size (x : Expr) (k : Nat) (ids : List Nat) :
    expr_size (sim_inst x k ids) = expr_size x := by
  induction x generalizing k with
  | bvar j =>
    simp only [sim_inst]
    by_cases hjk : j < k
    · simp [hjk]
    · simp only [hjk, if_false]
      cases h1 : ids.reverse[j - k]? <;> simp [expr_size]
  | app f a ihf iha => simp [sim_inst, expr_size, ihf, iha]
  | lam n t b iht ihb => simp [sim_inst, expr_size, iht, ihb]
  | pi n t b iht ihb => simp [sim_inst, expr_size, iht, ihb]
  | elet n t v b iht ihv ihb => simp [sim_inst, expr_size, iht, ihv, ihb]
  | mdata m e ih => simp [sim_inst, expr_size, ih]
  | _ => simp [sim_inst, expr_size]

theorem abstract_locals_at_nil (e : Expr) (k : Nat) : abstract_locals_at e k [] = e := by
  induction e generalizing k with
  | app f a ihf iha => simp [abstract_locals_at, ihf, iha]
  | lam n t b iht ihb => simp [abstract_locals_at, iht, ihb]
  | pi n t b iht ihb => simp [abstract_locals_at, iht, ihb]
  | elet n t v b iht ihv ihb => simp [abstract_locals_at, iht, ihv, ihb]
  | mdata m e ih => simp [abstract_locals_at, ih]
  | _ => simp [abstract_locals_at, local_index]

theorem mk_lambda_nil (e : Expr) : mk_lambda [] e = e := by
  simp [mk_lambda, mk_lambda_core, abstract_locals, abstract_locals_at_nil]

theorem loop_of_body (visit : LocalContext → Expr → Result Expr) (lctx : LocalContext)
    (locals : List LocalDecl) (t : Expr) (hlam : is_lambda t = false) (hlet : is_let t = false) :
    visit_lambda_let_loop visit lctx locals t =
      match visit lctx (instantiate_rev t (locals.map fun l => Expr.loc l.id)) with
      | .error err => .error err
      | .ok t1 => .ok (mk_lambda locals t1) := by
  cases t with
  | lam n d b => simp [is_lambda] at hlam
  | elet n t v b => simp [is_let] at hlet
  | _ => simp [visit_lambda_let_loop, pure, Except.pure]

theorem chain_size_le (t : Expr) : chain_size t ≤ expr_size t := by
  induction t with
  | lam n d b _ ihb => simp only [chain_size, expr_size]; omega
  | elet n t v b _ _ ihb => simp only [chain_size, expr_size, Nat.max_le]; omega
  | _ => simp [chain_size]

theorem chain_size_lt_of_binder (t : Expr) (h : is_lambda t = true ∨ is_let t = true) :
    chain_size t + 1 ≤ expr_size t := by
  cases t with
  | lam n d b =>
    have := chain_size_le b
    simp only [chain_size, expr_size]; omega
  | elet n t v b =>
    have := chain_size_le b
    simp only [chain_size, expr_size, Nat.max_def]
    split <;> omega
  | _ => simp [is_lambda, is_let] at h

theorem app_parts (e : Expr) (k N : Nat) (hc : has_loose_bvars_at e k = false)
    (hf : next_local_id e ≤ N) :
    (has_loose_bvars_at (get_app_fn e) k = false ∧ next_local_id (get_app_fn e) ≤ N ∧
      expr_size (get_app_fn e) ≤ expr_size e) ∧
    ∀ x ∈ get_app_args e, has_loose_bvars_at x k = false ∧ next_local_id x ≤ N ∧
      expr_size x < expr_size e := by
  induction e with
  | app f a ihf _ =>
    simp only [has_loose_bvars_at, Bool.or_eq_false_iff] at hc
    simp only [next_local_id, Nat.max_le] at hf
    obtain ⟨⟨h1, h2, h3⟩, h4⟩ := ihf hc.1 hf.1
    refine ⟨⟨h1, h2, by simp only [get_app_fn, expr_size]; omega⟩, ?_⟩
    intro x hx
    rw [get_app_args_app] at hx
    rcases List.mem_append.mp hx with hx | hx
    · obtain ⟨h5, h6, h7⟩ := h4 x hx
      exact ⟨h5, h6, by simp only [expr_size]; omega⟩
    · simp at hx
      subst hx
      exact ⟨hc.2, hf.2, by simp only [expr_size]; omega⟩
  | _ => exact ⟨⟨hc, hf, Nat.le_refl _⟩, by simp [get_app_args, get_app_args_aux]⟩

theorem visit_args_fixed (visit : LocalContext → Expr → Result Expr) (lctx : LocalContext)
    (as : List Expr) (h : ∀ x ∈ as, visit lctx x = .ok x) :
    visit_args visit lctx as = .ok as := by
  induction as with
  | nil => rfl
  | cons a as ih =>
    simp [visit_args, bind, Except.bind, h a (List.mem_cons_self _ _),
      ih (fun x hx => h x (List.mem_cons_of_mem _ hx)), pure, Except.pure]

theorem locs_eq (locals : List LocalDecl) :
    (locals.map fun l => Expr.loc l.id) = (locals.map LocalDecl.id).map Expr.loc := by
  simp [List.map_map, Function.comp_def]

theorem LocalsInv_nil (lctx : LocalContext) : LocalsInv lctx [] := by
  simp [LocalsInv]

theorem LocalsInv_push (lctx : LocalContext) (locals : List LocalDecl) (n : Name) (ty : Expr)
    (val : Option Expr) (h : LocalsInv lctx locals) :
    LocalsInv (lctx.push n ty val).1 (locals ++ [(lctx.push n ty val).2]) := by
  obtain ⟨h1, h2⟩ := h
  refine ⟨by simp [LocalContext.push]; omega, ?_⟩
  simp only [LocalContext.push, List.map_append, List.map_cons, List.map_nil, List.length_append,
    List.length_cons, List.length_nil, h2]
  have e1 : lctx.next + 1 - (locals.length + 0 + 1) = lctx.next - locals.length := by omega
  rw [e1, List.range'_concat]
  congr 2
  omega

theorem inst_roundtrip (lctx : LocalContext) (locals : List LocalDecl) (x : Expr)
    (hinv : LocalsInv lctx locals) (hc : has_loose_bvars_at x locals.length = false)
    (hf : next_local_id x ≤ lctx.next - locals.length) :
    abstract_locals_at (instantiate_rev x (locals.map fun l => Expr.loc l.id)) 0
      (locals.reverse.map LocalDecl.id) = x := by
  rw [locs_eq, instantiate_rev_eq_sim_inst, List.map_reverse]
  apply abstract_sim_inst
  · rw [hinv.2]; exact List.nodup_range' _ _
  · simpa using hc
  · intro i hi
    rw [hinv.2, List.mem_range'] at hi
    obtain ⟨j, _, hj⟩ := hi
    omega

theorem inst_closed (locals : List LocalDecl) (x : Expr)
    (hc : has_loose_bvars_at x locals.length = false) :
    has_loose_bvars_at (instantiate_rev x (locals.map fun l => Expr.loc l.id)) 0 = false := by
  rw [locs_eq, instantiate_rev_eq_sim_inst]
  apply sim_inst_closed
  simpa using hc

theorem inst_fresh (lctx : LocalContext) (locals : List LocalDecl) (x : Expr)
    (hinv : LocalsInv lctx locals) (hf : next_local_id x ≤ lctx.next - locals.length) :
    next_local_id (instantiate_rev x (locals.map fun l => Expr.loc l.id)) ≤ lctx.next := by
  rw [locs_eq, instantiate_rev_eq_sim_inst]
  apply sim_inst_fresh
  · omega
  · intro i hi
    rw [hinv.2, List.mem_range'] at hi
    obtain ⟨j, hj1, hj⟩ := hi
    have := hinv.1
    omega

theorem inst_size (locals : List LocalDecl) (x : Expr) :
    expr_size (instantiate_rev x (locals.map fun l => Expr.loc l.id)) = expr_size x := by
  rw [locs_eq, instantiate_rev_eq_sim_inst, sim_inst_size]

theorem chain_size_of_body (t : Expr) (hlam : is_lambda t = false) (hlet : is_let t = false) :
    chain_size t = expr_size t := by
  cases t with
  | lam n d b => simp [is_lambda] at hlam
  | elet n t v b => simp [is_let] at hlet
  | _ => rfl

theorem loop_of_fixed (V : Visitor) (lctx : LocalContext) (t : Expr)
    (hlam : is_lambda t = false) (hlet : is_let t = false)
    (h : ∀ m, expr_size t ≤ m → visit V m lctx t = .ok t) :
    ∀ m, chain_size t ≤ m →
      visit_lambda_let_loop (visit V m) lctx [] t = .ok (mk_lambda_core [].reverse t) := by
  intro m hm
  rw [chain_size_of_body t hlam hlet] at hm
  rw [loop_of_body _ _ _ _ hlam hlet]
  have : instantiate_rev t (([] : List LocalDecl).map fun l => Expr.loc l.id) = t := rfl
  rw [this, h m hm]
  simp [mk_lambda_nil, mk_lambda_core]

theorem stable_loop (V : Visitor) (lctx : LocalContext) (locals : List LocalDecl) (t : Expr)
    (hs : Stable V lctx locals t) :
    LocalsInv lctx locals → has_loose_bvars_at t locals.length = false →
    next_local_id t ≤ lctx.next - locals.length →
    (∀ m, chain_size t ≤ m →
      visit_lambda_let_loop (visit V m) lctx locals t = .ok (mk_lambda_core locals.reverse t)) ∧
    (locals = [] → ∀ m, expr_size t ≤ m → visit V m lctx t = .ok t) := by
  induction hs with
  | lit lctx n =>
    intro _ _ _
    have h2 : ∀ m, expr_size (Expr.lit n) ≤ m → visit V m lctx (.lit n) = .ok (.lit n) := by
      intro m hm
      cases m with
      | zero => simp [expr_size] at hm
      | succ m => simp [visit, visit_core, pure, Except.pure]
    exact ⟨loop_of_fixed V lctx _ rfl rfl h2, fun _ => h2⟩
  | neutral lctx =>
    intro _ _ _
    have h2 : ∀ m, expr_size Expr.neutral ≤ m → visit V m lctx .neutral = .ok .neutral := by
      intro m hm
      cases m with
      | zero => simp [expr_size] at hm
      | succ m => simp [visit, visit_core, pure, Except.pure]
    exact ⟨loop_of_fixed V lctx _ rfl rfl h2, fun _ => h2⟩
  | unreachable lctx =>
    intro _ _ _
    have h2 : ∀ m, expr_size Expr.unreachable ≤ m →
        visit V m lctx .unreachable = .ok .unreachable := by
      intro m hm
      cases m with
      | zero => simp [expr_size] at hm
      | succ m => simp [visit, visit_core, pure, Except.pure]
    exact ⟨loop_of_fixed V lctx _ rfl rfl h2, fun _ => h2⟩
  | loc lctx i hirr =>
    intro _ _ _
    have h2 : ∀ m, expr_size (Expr.loc i) ≤ m → visit V m lctx (.loc i) = .ok (.loc i) := by
      intro m hm
      cases m with
      | zero => simp [expr_size] at hm
      | succ m => simp [visit, visit_core, visit_local, hirr, pure, Except.pure]
    exact ⟨loop_of_fixed V lctx _ rfl rfl h2, fun _ => h2⟩
  | const lctx n hirr hne =>
    intro _ _ _
    have h2 : ∀ m, expr_size (Expr.const n []) ≤ m →
        visit V m lctx (.const n []) = .ok (.const n []) := by
      intro m hm
      cases m with
      | zero => simp [expr_size] at hm
      | succ m =>
        simp [visit, visit_core, visit_constant, hirr, const_name, hne, bind, Except.bind, pure,
          Except.pure]
    exact ⟨loop_of_fixed V lctx _ rfl rfl h2, fun _ => h2⟩
  | app lctx f a hirr hnat hhead _ _ ihfn ihargs =>
    intro hinv hc hf
    simp only [List.length_nil, Nat.sub_zero] at hc hf
    have h2 : ∀ m, expr_size (Expr.app f a) ≤ m →
        visit V m lctx (.app f a) = .ok (.app f a) := by
      intro m hm
      cases m with
      | zero => simp [expr_size] at hm
      | succ m =>
        obtain ⟨⟨p1, p2, _⟩, pargs⟩ := app_parts (.app f a) 0 lctx.next hc hf
        have hcf : has_loose_bvars_at f 0 = false := by
          simp only [has_loose_bvars_at, Bool.or_eq_false_iff] at hc; exact hc.1
        have hff : next_local_id f ≤ lctx.next := by
          simp only [next_local_id, Nat.max_le] at hf; exact hf.1
        obtain ⟨⟨_, _, p3⟩, _⟩ := app_parts f 0 lctx.next hcf hff
        have hsz : expr_size (get_app_fn (.app f a)) ≤ m := by
          simp only [expr_size] at hm
          simp only [get_app_fn]
          omega
        have h1 := (ihfn (LocalsInv_nil lctx) (by simpa using p1) (by simpa using p2)).2 rfl m hsz
        have h3 : visit_args (visit V m) lctx (get_app_args (.app f a))
            = .ok (get_app_args (.app f a)) := by
          apply visit_args_fixed
          intro x hx
          obtain ⟨q1, q2, q3⟩ := pargs x hx
          exact (ihargs x hx (LocalsInv_nil lctx) (by simpa using q1) (by simpa using q2)).2 rfl m
            (by omega)
        simp only [visit, visit_core]
        rw [visit_app_generic V _ lctx _ hirr hnat hhead]
        simp only [compiler_step_visitor_visit_app, bind, Except.bind, h1, h3, pure, Except.pure]
        rw [mk_app_get_app]
    exact ⟨loop_of_fixed V lctx _ rfl rfl h2, fun _ => h2⟩
  | lam lctx locals n d b htop _ ihb =>
    intro hinv hc hf
    simp only [has_loose_bvars_at, Bool.or_eq_false_iff] at hc
    simp only [next_local_id, Nat.max_le] at hf
    have hinv2 := LocalsInv_push lctx locals n
      (instantiate_rev d (locals.map fun l => Expr.loc l.id)) none hinv
    have hlen : (locals ++ [(lctx.push n
        (instantiate_rev d (locals.map fun l => Expr.loc l.id)) none).2]).length
        = locals.length + 1 := by simp
    have hnext : (lctx.push n (instantiate_rev d (locals.map fun l => Expr.loc l.id)) none).1.next
        = lctx.next + 1 := rfl
    have ih := ihb hinv2 (by rw [hlen]; exact hc.2)
      (by rw [hlen, hnext]; have := hinv.1; omega)
    have first : ∀ m, chain_size (Expr.lam n d b) ≤ m →
        visit_lambda_let_loop (visit V m) lctx locals (.lam n d b)
          = .ok (mk_lambda_core locals.reverse (.lam n d b)) := by
      intro m hm
      simp only [chain_size] at hm
      simp only [visit_lambda_let_loop]
      rw [ih.1 m hm]
      simp only [List.reverse_append, List.reverse_cons, List.reverse_nil, List.nil_append,
        List.singleton_append, mk_lambda_core, LocalContext.push]
      rw [inst_roundtrip lctx locals d hinv hc.1 hf.1]
    refine ⟨first, ?_⟩
    intro hnil m hm
    subst hnil
    cases m with
    | zero => simp [expr_size] at hm
    | succ m =>
      have hcs := chain_size_lt_of_binder (.lam n d b) (Or.inl rfl)
      simp only [visit, visit_core, visit_lambda, compiler_step_visitor_visit_lambda_let, bind,
        Except.bind]
      rw [first m (by omega)]
      simp [mk_lambda_core, pure, Except.pure, htop rfl]
  | elet lctx locals n ty v b htop _ _ ihv ihb =>
    intro hinv hc hf
    simp only [has_loose_bvars_at, Bool.or_eq_false_iff] at hc
    simp only [next_local_id, Nat.max_le] at hf
    have hinv2 := LocalsInv_push lctx locals n
      (instantiate_rev ty (locals.map fun l => Expr.loc l.id))
      (some (instantiate_rev v (locals.map fun l => Expr.loc l.id))) hinv
    have hlen : (locals ++ [(lctx.push n
        (instantiate_rev ty (locals.map fun l => Expr.loc l.id))
        (some (instantiate_rev v (locals.map fun l => Expr.loc l.id)))).2]).length
        = locals.length + 1 := by simp
    have hnext : (lctx.push n (instantiate_rev ty (locals.map fun l => Expr.loc l.id))
        (some (instantiate_rev v (locals.map fun l => Expr.loc l.id)))).1.next
        = lctx.next + 1 := rfl
    have ih := ihb hinv2 (by rw [hlen]; exact hc.2)
      (by rw [hlen, hnext]; have := hinv.1; omega)
    have ihv2 := (ihv (LocalsInv_nil lctx) (by simpa using inst_closed locals v hc.1.2)
      (by simpa using inst_fresh lctx locals v hinv hf.2.1)).2 rfl
    have first : ∀ m, chain_size (Expr.elet n ty v b) ≤ m →
        visit_lambda_let_loop (visit V m) lctx locals (.elet n ty v b)
          = .ok (mk_lambda_core locals.reverse (.elet n ty v b)) := by
      intro m hm
      simp only [chain_size, Nat.max_le] at hm
      simp only [visit_lambda_let_loop]
      rw [ihv2 m (by rw [inst_size]; exact hm.1)]
      simp only []
      rw [ih.1 m hm.2]
      simp only [List.reverse_append, List.reverse_cons, List.reverse_nil, List.nil_append,
        List.singleton_append, mk_lambda_core, LocalContext.push]
      rw [inst_roundtrip lctx locals ty hinv hc.1.1 hf.1,
        inst_roundtrip lctx locals v hinv hc.1.2 hf.2.1]
    refine ⟨first, ?_⟩
    intro hnil m hm
    subst hnil
    cases m with
    | zero => simp [expr_size] at hm
    | succ m =>
      have hcs := chain_size_lt_of_binder (.elet n ty v b) (Or.inr rfl)
      simp only [visit, visit_core, visit_let, compiler_step_visitor_visit_lambda_let, bind,
        Except.bind]
      rw [first m (by omega)]
      simp [mk_lambda_core, pure, Except.pure, htop rfl]
  | body lctx locals t hlam hlet hne _ iht =>
    intro hinv hc hf
    have ih2 := (iht (LocalsInv_nil lctx) (by simpa using inst_closed locals t hc)
      (by simpa using inst_fresh lctx locals t hinv hf)).2 rfl
    refine ⟨?_, fun hnil => absurd hnil hne⟩
    intro m hm
    rw [chain_size_of_body t hlam hlet] at hm
    rw [loop_of_body _ _ _ _ hlam hlet, ih2 m (by rw [inst_size]; exact hm)]
    simp only [mk_lambda, abstract_locals]
    rw [inst_roundtrip lctx locals t hinv hc hf]

theorem stable_fixed (V : Visitor) (lctx : LocalContext) (r : Expr)
    (hs : Stable V lctx [] r) (hc : has_loose_bvars r = false)
    (hf : next_local_id r ≤ lctx.next) (m : Nat) (hm : expr_size r ≤ m) :
    visit V m lctx r = .ok r :=
  (stable_loop V lctx [] r hs (LocalsInv_nil lctx) (by simpa [has_loose_bvars] using hc)
    (by simpa using hf)).2 rfl m hm

/-- C15 (constant erasure): `visit_constant` returns `NeutralMarker` for a
    constant that `is_comp_irrelevant` judges irrelevant; otherwise
    `UnreachableMarker` for the designated unreachable constant; otherwise the
    constant of the same name with an empty list of universe arguments.  Two
    relevant constants that differ only in their universe arguments are
    erased to the same expression. -/
theorem visit_constant_spec (V : Visitor) (lctx : LocalContext) (n : Name) (ls : List Level) :
    (is_comp_irrelevant V lctx (.const n ls) = true →
      visit_constant V lctx (.const n ls) = .ok Expr.neutral) ∧
    (is_comp_irrelevant V lctx (.const n ls) = false → n = get_lc_unreachable_name →
      visit_constant V lctx (.const n ls) = .ok Expr.unreachable) ∧
    (is_comp_irrelevant V lctx (.const n ls) = false → n ≠ get_lc_unreachable_name →
      visit_constant V lctx (.const n ls) = .ok (.const n [])) ∧
    (∀ ls2, is_comp_irrelevant V lctx (.const n ls) = false →
      is_comp_irrelevant V lctx (.const n ls2) = false →
      visit_constant V lctx (.const n ls) = visit_constant V lctx (.const n ls2)) := by
  refine ⟨?_, ?_, ?_, ?_⟩
  · intro h
    simp [visit_constant, h, pure, Except.pure, mk_enf_neutral]
  · intro h hn
    subst hn
    simp [visit_constant, h, const_name, bind, Except.bind, pure, Except.pure,
      mk_enf_unreachable]
  · intro h hn
    simp [visit_constant, h, hn, const_name, bind, Except.bind, pure, Except.pure]
  · intro ls2 h h2
    simp [visit_constant, h, h2, const_name, bind, Except.bind, pure, Except.pure]

theorem erase_type_idem (t : Expr) : erase_type (erase_type t) = erase_type t := by
  unfold erase_type
  split
  · rename_i h
    simp [h]
  · simp [mk_enf_neutral, has_loose_bvars, has_loose_bvars_at, has_local]

theorem when_relevant_body (e : Expr) :
    is_irrelevant_lambda_let_body (erase_lambda_let_types_when_relevant e)
      = is_irrelevant_lambda_let_body e := by
  induction e with
  | lam n d b _ ihb => simpa [erase_lambda_let_types_when_relevant, is_irrelevant_lambda_let_body]
      using ihb
  | elet n t v b _ _ ihb =>
    simpa [erase_lambda_let_types_when_relevant, is_irrelevant_lambda_let_body] using ihb
  | _ => rfl

theorem when_relevant_idem (e : Expr) :
    erase_lambda_let_types_when_relevant (erase_lambda_let_types_when_relevant e)
      = erase_lambda_let_types_when_relevant e := by
  induction e with
  | lam n d b _ ihb => simp [erase_lambda_let_types_when_relevant, erase_type_idem, ihb]
  | elet n t v b _ _ ihb => simp [erase_lambda_let_types_when_relevant, erase_type_idem, ihb]
  | _ => rfl

theorem neutral_lambdas_fixed (ns : List Name) :
    is_irrelevant_lambda_let_body (neutral_lambdas ns) = true ∧
    erase_lambda_let_types_when_irrelevant (neutral_lambdas ns) = neutral_lambdas ns := by
  induction ns with
  | nil => exact ⟨rfl, rfl⟩
  | cons n ns ih =>
    exact ⟨by simpa [neutral_lambdas, is_irrelevant_lambda_let_body] using ih.1,
      by simp [neutral_lambdas, erase_lambda_let_types_when_irrelevant, mk_enf_neutral, ih.2]⟩

/-- C20 (Binder-Type Erasure is idempotent): for every expression `e`,
    `erase_lambda_let_types (erase_lambda_let_types e) = erase_lambda_let_types e`;
    the first application does not change whether the chain is classified as
    irrelevant. -/
theorem erase_lambda_let_types_idem (e : Expr) :
    erase_lambda_let_types (erase_lambda_let_types e) = erase_lambda_let_types e ∧
    is_irrelevant_lambda_let_body (erase_lambda_let_types e)
      = is_irrelevant_lambda_let_body e := by
  by_cases h : is_irrelevant_lambda_let_body e = true
  · have key : erase_lambda_let_types e = neutral_lambdas (lambda_layer_names e) := by
      unfold erase_lambda_let_types
      rw [if_pos h]
      exact when_irrelevant_eq_neutral_lambdas e h
    have hfix := neutral_lambdas_fixed (lambda_layer_names e)
    constructor
    · rw [key]
      unfold erase_lambda_let_types
      rw [if_pos hfix.1, hfix.2]
    · rw [key, hfix.1, h]
  · have key : erase_lambda_let_types e = erase_lambda_let_types_when_relevant e := by
      unfold erase_lambda_let_types
      rw [if_neg h]
    have hb := when_relevant_body e
    constructor
    · rw [key]
      unfold erase_lambda_let_types
      rw [if_neg (by rw [hb]; exact h), when_relevant_idem]
    · rw [key, hb]

theorem erase_type_eq_closed_or_neutral (t : Expr) : erase_type t = closed_or_neutral t := by
  unfold erase_type closed_or_neutral
  by_cases h1 : has_loose_bvars t = true <;> by_cases h2 : has_local t = true <;>
    simp [h1, h2, mk_enf_neutral]

/-- C18 (Binder-Type Erasure on a relevant chain): on a `Lambda`/`Let` chain
    whose innermost non-binder term is not `NeutralMarker`,
    `erase_lambda_let_types` returns a chain with the same sequence of `Lambda`
    and `Let` layers, the same binder names, the same `Let` values and the
    same innermost term; every `Lambda` domain and `Let` type is unchanged if
    it has no loose bound variable and no local, and `NeutralMarker`
    otherwise. -/
theorem relevant_chain_types_only (e : Expr) (h : is_irrelevant_lambda_let_body e = false) :
    chain_layers (erase_lambda_let_types e) = (chain_layers e).map Layer.retype ∧
    chain_body (erase_lambda_let_types e) = chain_body e := by
  have key : erase_lambda_let_types e = erase_lambda_let_types_when_relevant e := by
    unfold erase_lambda_let_types
    rw [if_neg (by simp [h])]
  rw [key]
  clear key h
  induction e with
  | lam n d b _ ihb =>
    simp [erase_lambda_let_types_when_relevant, chain_layers, chain_body, Layer.retype,
      erase_type_eq_closed_or_neutral, ihb.1, ihb.2]
  | elet n t v b _ _ ihb =>
    simp [erase_lambda_let_types_when_relevant, chain_layers, chain_body, Layer.retype,
      erase_type_eq_closed_or_neutral, ihb.1, ihb.2]
  | _ => simp [erase_lambda_let_types_when_relevant, chain_layers, chain_body]

/-- Witness of C18: in `fun (x : nat) => let y : x := c in fun (z : y) => z` the
    closed domain `nat` is kept and the two open annotations become
    `NeutralMarker`. -/
theorem relevant_chain_types_only_witness :
    erase_lambda_let_types
        (.lam (name1 "x") (cst "nat")
          (.elet (name1 "y") (.bvar 0) (cst "c") (.lam (name1 "z") (.bvar 0) (.bvar 0))))
      = .lam (name1 "x") (cst "nat")
          (.elet (name1 "y") .neutral (cst "c") (.lam (name1 "z") .neutral (.bvar 0))) ∧
    chain_layers (erase_lambda_let_types
        (.lam (name1 "x") (cst "nat")
          (.elet (name1 "y") (.bvar 0) (cst "c") (.lam (name1 "z") (.bvar 0) (.bvar 0)))))
      = (chain_layers
        (.lam (name1 "x") (cst "nat")
          (.elet (name1 "y") (.bvar 0) (cst "c") (.lam (name1 "z") (.bvar 0) (.bvar 0))))).map
          Layer.retype :=
  ⟨by rfl, (relevant_chain_types_only _ (by rfl)).1⟩

/-- Witness of C15: the relevant constant `k` with universe arguments is
    erased to `k` without them. -/
theorem visit_constant_spec_witness :
    visit_constant sample_visitor ⟨[], 0⟩ (.const (name1 "k") [1, 2]) = .ok (.const (name1 "k") []) :=
  (visit_constant_spec sample_visitor ⟨[], 0⟩ (name1 "k") [1, 2]).2.2.1 (by rfl) (by decide)

/-- C16 (equality cast ignores the cast machinery): for an argument list with
    at least 6 elements, `visit_eq_rec` returns `beta_reduce` of the erased
    argument at index 3 applied to the erased arguments from index 6 on, in
    order; two argument lists that agree at index 3 and from index 6 on give
    the same result, whatever stands at the indices 0, 1, 2, 4 and 5. -/
theorem visit_eq_rec_spec (V : Visitor) (visit : LocalContext → Expr → Result Expr)
    (lctx : LocalContext) (args : List Expr) (a3 : Expr)
    (hlen : 6 ≤ args.length) (h3 : args[3]? = some a3) :
    (∀ major extra1, visit lctx a3 = .ok major →
      visit_args visit lctx (args.drop 6) = .ok extra1 →
      visit_eq_rec V visit lctx args = .ok (V.beta_reduce (mk_app major extra1))) ∧
    (∀ args2 : List Expr, 6 ≤ args2.length → args2[3]? = some a3 →
      args2.drop 6 = args.drop 6 →
      visit_eq_rec V visit lctx args2 = visit_eq_rec V visit lctx args) := by
  constructor
  · intro major extra1 hm he
    simp [visit_eq_rec, lean_assert, hlen, buffer_get, h3, bind, Except.bind, pure, Except.pure,
      hm, add_args, add_args_loop_eq, he]
  · intro args2 hlen2 h32 hd
    simp only [visit_eq_rec, lean_assert, hlen, hlen2, buffer_get, h3, h32, bind, Except.bind,
      pure, Except.pure, add_args, hd, decide_True, if_true]

/-- Witness of C16: `eq.rec A a C k b h 7` and `eq.rec 0 1 2 k 4 5 7` are both
    erased to `k 7`. -/
theorem visit_eq_rec_spec_witness :
    visit_eq_rec sample_visitor (visit sample_visitor 5) ⟨[], 0⟩
        [cst "A", cst "a", cst "C", cst "k", cst "b", cst "h", .lit 7]
      = .ok (sample_visitor.beta_reduce (mk_app (cst "k") [.lit 7])) ∧
    visit_eq_rec sample_visitor (visit sample_visitor 5) ⟨[], 0⟩
        [.lit 0, .lit 1, .lit 2, cst "k", .lit 4, .lit 5, .lit 7]
      = visit_eq_rec sample_visitor (visit sample_visitor 5) ⟨[], 0⟩
        [cst "A", cst "a", cst "C", cst "k", cst "b", cst "h", .lit 7] :=
  have h := visit_eq_rec_spec sample_visitor (visit sample_visitor 5) ⟨[], 0⟩
    [cst "A", cst "a", cst "C", cst "k", cst "b", cst "h", .lit 7] (cst "k") (by decide) (by rfl)
  ⟨h.1 (cst "k") [.lit 7] (by rfl) (by rfl),
   h.2 [.lit 0, .lit 1, .lit 2, cst "k", .lit 4, .lit 5, .lit 7] (by decide) (by rfl) (by rfl)⟩

/-- Counterexample to C13 as stated: for `subtype.mk A P f hf 7` the claimed
    result applies the erased wrapped value `f` to the erased arguments from
    index 3 on, that is `f hf 7`; `visit_subtype_mk` returns `f 7`: the argument
    at index 3, the proof `hf`, is dropped. -/
theorem identity_like_operators_counterexample :
    visit sample_visitor 5 ⟨[], 0⟩ (cst "f") = .ok (cst "f") ∧
    visit_args (visit sample_visitor 5) ⟨[], 0⟩ (sample_subtype_mk_args.drop 3)
      = .ok [cst "hf", .lit 7] ∧
    visit_subtype_mk sample_visitor (visit sample_visitor 5) ⟨[], 0⟩ sample_subtype_mk_args
      = .ok (.app (cst "f") (.lit 7)) ∧
    visit_subtype_mk sample_visitor (visit sample_visitor 5) ⟨[], 0⟩ sample_subtype_mk_args
      ≠ .ok (sample_visitor.beta_reduce (mk_app (cst "f") [cst "hf", .lit 7])) ∧
    old_erase_irrelevant sample_visitor 10
        (mk_app (.const (name2 "subtype" "mk") [1]) sample_subtype_mk_args)
      = .ok (.app (cst "f") (.lit 7)) :=
  ⟨by rfl, by rfl, by rfl, by decide, by rfl⟩

/-- C13, amended: the erased application of quotient introduction (`quot.mk`)
    and of the subtype field-projection (`subtype.val`) is `beta_reduce` of the
    erased argument at index 2 applied to the erased arguments from index 3
    on, in order; the erased application of the subtype wrap (`subtype.mk`) is
    `beta_reduce` of the erased argument at index 2 applied to the erased
    arguments from index 4 on: its argument at index 3 is dropped. -/
theorem identity_like_operators (V : Visitor) (visit : LocalContext → Expr → Result Expr)
    (lctx : LocalContext) (args : List Expr) (a2 r : Expr)
    (h2 : args[2]? = some a2) (hr : visit lctx a2 = .ok r) :
    (∀ extra1, visit_args visit lctx (args.drop 3) = .ok extra1 →
      visit_quot_mk V visit lctx args = .ok (V.beta_reduce (mk_app r extra1)) ∧
      visit_subtype_val V visit lctx args = .ok (V.beta_reduce (mk_app r extra1))) ∧
    (∀ extra1, 4 ≤ args.length → visit_args visit lctx (args.drop 4) = .ok extra1 →
      visit_subtype_mk V visit lctx args = .ok (V.beta_reduce (mk_app r extra1))) := by
  have hlen : 3 ≤ args.length := by
    rcases Nat.lt_or_ge 2 args.length with h | h
    · exact h
    · rw [List.getElem?_eq_none h] at h2; cases h2
  constructor
  · intro extra1 he
    constructor
    · simp [visit_quot_mk, lean_assert, hlen, buffer_get, h2, bind, Except.bind, pure,
        Except.pure, hr, add_args, add_args_loop_eq, he]
    · simp [visit_subtype_val, lean_assert, hlen, buffer_get, h2, bind, Except.bind, pure,
        Except.pure, hr, add_args, add_args_loop_eq, he]
  · intro extra1 hlen4 he
    simp [visit_subtype_mk, lean_assert, hlen4, buffer_get, h2, bind, Except.bind, pure,
      Except.pure, hr, add_args, add_args_loop_eq, he]

/-- Witness of C13, amended, on the arguments `A P f hf 7`: `quot.mk` and
    `subtype.val` give `f hf 7`, `subtype.mk` gives `f 7`. -/
theorem identity_like_operators_witness :
    (visit_quot_mk sample_visitor (visit sample_visitor 5) ⟨[], 0⟩ sample_subtype_mk_args
        = .ok (sample_visitor.beta_reduce (mk_app (cst "f") [cst "hf", .lit 7])) ∧
      visit_subtype_val sample_visitor (visit sample_visitor 5) ⟨[], 0⟩ sample_subtype_mk_args
        = .ok (sample_visitor.beta_reduce (mk_app (cst "f") [cst "hf", .lit 7]))) ∧
    visit_subtype_mk sample_visitor (visit sample_visitor 5) ⟨[], 0⟩ sample_subtype_mk_args
      = .ok (sample_visitor.beta_reduce (mk_app (cst "f") [.lit 7])) :=
  have h := identity_like_operators sample_visitor (visit sample_visitor 5) ⟨[], 0⟩
    sample_subtype_mk_args (cst "f") (cst "f") (by rfl) (by rfl)
  ⟨h.1 [cst "hf", .lit 7] (by rfl), h.2 [.lit 7] (by decide) (by rfl)⟩

theorem visit_args_error (visit : LocalContext → Expr → Result Expr) (lctx : LocalContext)
    (as : List Expr) (err : Failure) (h : visit_args visit lctx as = .error err) :
    ∃ a ∈ as, visit lctx a = .error err := by
  induction as with
  | nil => simp [visit_args, pure, Except.pure] at h
  | cons a as ih =>
    simp only [visit_args, bind, Except.bind] at h
    cases hv : visit lctx a with
    | error e1 =>
      simp [hv] at h
      exact ⟨a, List.mem_cons_self _ _, by rw [hv, h]⟩
    | ok a1 =>
      cases hr : visit_args visit lctx as with
      | error e2 =>
        simp [hv, hr] at h
        obtain ⟨x, hx, hxe⟩ := ih (by rw [hr, h])
        exact ⟨x, List.mem_cons_of_mem _ hx, hxe⟩
      | ok r => simp [hv, hr, pure, Except.pure] at h

theorem peel_minor_short (n : Nat) (lctx : LocalContext) (locals : List LocalDecl) (e : Expr)
    (h : lambda_depth e < n) :
    peel_minor n lctx locals e = .error (Failure.exception minor_not_lambda_msg) := by
  induction n generalizing lctx locals e with
  | zero => omega
  | succ n ih =>
    cases e with
    | lam x d b =>
      simp only [peel_minor]
      apply ih
      simp only [lambda_depth] at h
      unfold instantiate
      rw [lambda_depth_instantiate_at]
      omega
    | _ => rfl

theorem distribute_args_append (V : Visitor) (visit : LocalContext → Expr → Result Expr)
    (lctx : LocalContext) (nparams : Nat) (args : List Expr) (pre post : List Expr)
    (cpre cpost : List Name) (rpre : List Expr) (hlen : pre.length = cpre.length)
    (hpre : distribute_args V visit lctx nparams args pre cpre = .ok rpre) :
    distribute_args V visit lctx nparams args (pre ++ post) (cpre ++ cpost) =
      match distribute_args V visit lctx nparams args post cpost with
      | .ok rpost => .ok (rpre ++ rpost)
      | .error err => .error err := by
  induction pre generalizing cpre rpre with
  | nil =>
    cases cpre with
    | nil =>
      simp [distribute_args, pure, Except.pure] at hpre
      subst hpre
      simp
      cases distribute_args V visit lctx nparams args post cpost <;> rfl
    | cons c cs => simp at hlen
  | cons m ms ih =>
    cases cpre with
    | nil => simp at hlen
    | cons c cs =>
      simp only [List.length_cons, Nat.add_right_cancel_iff] at hlen
      simp only [distribute_args, bind, Except.bind, List.cons_append] at hpre ⊢
      cases hu : lean_assert (decide (V.env.get_constructor_arity c ≥ nparams)) with
      | error e1 => simp [hu] at hpre
      | ok u =>
        cases hpeel : peel_minor (V.env.get_constructor_arity c - nparams) lctx [] m with
        | error e2 => simp [hu, hpeel] at hpre
        | ok peeled =>
          cases hnm : visit peeled.1 peeled.2.2 with
          | error e3 => simp [hu, hpeel, hnm] at hpre
          | ok new_minor =>
            cases hrs : distribute_args V visit lctx nparams args ms cs with
            | error e4 => simp [hu, hpeel, hnm, hrs] at hpre
            | ok rs1 =>
              simp [hu, hpeel, hnm, hrs, pure, Except.pure] at hpre
              subst hpre
              have hih := ih cs rs1 hlen hrs
              cases hpost : distribute_args V visit lctx nparams args post cpost with
              | error e5 =>
                rw [hpost] at hih
                simp [hih, hnm]
              | ok rpost =>
                rw [hpost] at hih
                simp [hih, hnm, pure, Except.pure]

theorem visit_args_map (visit : LocalContext → Expr → Result Expr) (lctx : LocalContext)
    (as : List Expr) (g : Expr → Expr) (h : ∀ a ∈ as, visit lctx a = .ok (g a)) :
    visit_args visit lctx as = .ok (as.map g) := by
  induction as with
  | nil => rfl
  | cons a as ih =>
    simp [visit_args, bind, Except.bind, h a (List.mem_cons_self _ _),
      ih (fun x hx => h x (List.mem_cons_of_mem _ hx)), pure, Except.pure]

theorem visit_args_getElem (visit : LocalContext → Expr → Result Expr) (lctx : LocalContext)
    (as rs : List Expr) (h : visit_args visit lctx as = .ok rs) (i : Nat) (a : Expr)
    (ha : as[i]? = some a) : ∃ r, rs[i]? = some r ∧ visit lctx a = .ok r := by
  induction as generalizing rs i with
  | nil => simp at ha
  | cons x xs ih =>
    simp only [visit_args, bind, Except.bind] at h
    cases hv : visit lctx x with
    | error err => simp [hv] at h
    | ok x1 =>
      cases hr : visit_args visit lctx xs with
      | error err => simp [hv, hr] at h
      | ok r =>
        simp [hv, hr, pure, Except.pure] at h
        subst h
        cases i with
        | zero =>
          simp at ha
          subst ha
          exact ⟨x1, by simp, hv⟩
        | succ i =>
          simp at ha
          obtain ⟨r1, h1, h2⟩ := ih r hr i ha
          exact ⟨r1, by simpa using h1, h2⟩

theorem distribute_args_not_ok (V : Visitor) (visit : LocalContext → Expr → Result Expr)
    (lctx : LocalContext) (nparams : Nat) (args : List Expr) (minors : List Expr)
    (cnames : List Name) (i : Nat) (m : Expr) (c : Name)
    (hm : minors[i]? = some m) (hc : cnames[i]? = some c)
    (hshort : lambda_depth m < V.env.get_constructor_arity c - nparams) (rs : List Expr) :
    distribute_args V visit lctx nparams args minors cnames ≠ .ok rs := by
  induction minors generalizing cnames i rs with
  | nil => simp at hm
  | cons x xs ih =>
    cases cnames with
    | nil => simp at hc
    | cons y ys =>
      intro h
      simp only [distribute_args, bind, Except.bind] at h
      cases hu : lean_assert (decide (V.env.get_constructor_arity y ≥ nparams)) with
      | error e1 => simp [hu] at h
      | ok u =>
        cases hpeel : peel_minor (V.env.get_constructor_arity y - nparams) lctx [] x with
        | error e2 => simp [hu, hpeel] at h
        | ok peeled =>
          cases i with
          | zero =>
            simp at hm hc
            subst hm hc
            rw [peel_minor_short _ _ _ _ hshort] at hpeel
            cases hpeel
          | succ i =>
            simp at hm hc
            cases hnm : visit peeled.1 peeled.2.2 with
            | error e3 => simp [hu, hpeel, hnm] at h
            | ok new_minor =>
              cases hrs : distribute_args V visit lctx nparams args xs ys with
              | error e4 => simp [hu, hpeel, hnm, hrs] at h
              | ok rs1 => exact ih ys i hm hc rs1 hrs

/-- The loop over the arguments returns the list of the erasures of the
    arguments when each of them has one. -/
theorem visit_args_of_forall (visit : LocalContext → Expr → Result Expr) (lctx : LocalContext)
    (as rs : List Expr) (h : List.Forall₂ (fun a r => visit lctx a = .ok r) as rs) :
    visit_args visit lctx as = .ok rs := by
  induction h with
  | nil => rfl
  | cons h1 _ ih => simp [visit_args, bind, Except.bind, h1, ih, pure, Except.pure]

/-- The minor premises before index `i` are distributed without failure
    when each of them has enough leading lambdas and its peeled body is
    erased without failure. -/
theorem distribute_args_prefix (V : Visitor) (visit : LocalContext → Expr → Result Expr)
    (lctx : LocalContext) (nparams : Nat) (args : List Expr) (minors : List Expr)
    (cnames : List Name) (i : Nat) (hi1 : i ≤ minors.length) (hi2 : i ≤ cnames.length)
    (h : ∀ (j : Nat) (mj : Expr) (cj : Name), j < i → minors[j]? = some mj →
      cnames[j]? = some cj →
      nparams ≤ V.env.get_constructor_arity cj ∧
      ∃ lctx1 locals body b1,
        peel_minor (V.env.get_constructor_arity cj - nparams) lctx [] mj
          = .ok (lctx1, locals, body) ∧
        visit lctx1 body = .ok b1) :
    ∃ rpre, distribute_args V visit lctx nparams args (minors.take i) (cnames.take i)
      = .ok rpre := by
  induction i generalizing minors cnames with
  | zero => exact ⟨[], by simp [distribute_args, pure, Except.pure]⟩
  | succ i ih =>
    cases minors with
    | nil => simp at hi1
    | cons x xs =>
      cases cnames with
      | nil => simp at hi2
      | cons y ys =>
        obtain ⟨hge, lctx1, locals, body, b1, hpeel, hb⟩ := h 0 x y (by omega) (by simp) (by simp)
        obtain ⟨rpre, hr⟩ := ih xs ys (by simpa using hi1) (by simpa using hi2)
          (fun j mj cj hj hm hc => h (j + 1) mj cj (by omega) (by simpa using hm)
            (by simpa using hc))
        have hge2 : decide (V.env.get_constructor_arity y ≥ nparams) = true := by
          simpa using hge
        exact ⟨erase_lambda_let_types (mk_lambda locals (V.beta_reduce (mk_app b1 args))) :: rpre,
          by
            simp [distribute_args, lean_assert, hge2, bind, Except.bind, pure, Except.pure, hpeel,
              hb, hr]⟩

/-- Counterexample to C11 as stated.  With an extra argument and a minor
    premise `g` that is not a lambda, the failure raised is the one of the
    erasure of the extra argument when that fails: the extra arguments are
    erased before any minor premise is peeled, and here the extra argument
    is a malformed `no_confusion` application.  And with no extra argument the
    failure "the minor premise is expected to be a lambda-expression" is
    raised all the same when it comes out of the erasure of a minor premise,
    here the nested case split `wrap.cases_on motive w g 7`. -/
theorem visit_minors_failure_condition_counterexample :
    lambda_depth (cst "g") < sample_visitor.env.get_constructor_arity (name2 "wrap" "mk") - 0 ∧
    visit_minors sample_visitor (visit sample_visitor 6) ⟨[], 0⟩ 0 [cst "g"]
        [name2 "wrap" "mk"] [sample_nc_bad_app]
      = .error (Failure.exception (constructors_expected_msg (name2 "list" "no_confusion"))) ∧
    old_erase_irrelevant sample_visitor 10
        (mk_app (.const (name2 "wrap" "cases_on") [1])
          [sample_wrap_motive, cst "w", cst "g", sample_nc_bad_app])
      = .error (Failure.exception (constructors_expected_msg (name2 "list" "no_confusion"))) ∧
    constructors_expected_msg (name2 "list" "no_confusion") ≠ minor_not_lambda_msg ∧
    visit_minors sample_visitor (visit sample_visitor 6) ⟨[], 0⟩ 0 [sample_wrap_bad_cases]
        [name2 "wrap" "mk"] []
      = .error (Failure.exception minor_not_lambda_msg) ∧
    old_erase_irrelevant sample_visitor 10
        (mk_app (.const (name2 "wrap" "cases_on") [1])
          [sample_wrap_motive, cst "w", sample_wrap_bad_cases])
      = .error (Failure.exception minor_not_lambda_msg) :=
  ⟨by decide, by rfl, by rfl, by decide, by rfl, by rfl⟩

/-- C11, amended (argument-distribution failure condition).  With no extra
    argument `visit_minors` is the erasure of the minor premises one by one:
    no minor is peeled, a failure is the failure of the erasure `visit(minor)`
    of one of the minor premises, and in a result every minor premise is
    replaced by its erasure.  With at least one extra argument, a minor
    premise with fewer leading lambdas than `arity(constructor) - nparams`
    makes `visit_minors` fail: it never returns a result, and when every extra
    argument is erased without failure and every minor premise before it has
    enough leading lambdas and a peeled body that is erased without failure,
    the failure is the exception "unexpected occurrence of 'cases_on'
    expression, the minor premise is expected to be a lambda-expression". -/
theorem visit_minors_failure_condition (V : Visitor)
    (visit : LocalContext → Expr → Result Expr) (lctx : LocalContext) (nparams : Nat)
    (minors : List Expr) (cnames : List Name) :
    (visit_minors V visit lctx nparams minors cnames [] = visit_args visit lctx minors ∧
      (∀ err, visit_minors V visit lctx nparams minors cnames [] = .error err →
        ∃ m ∈ minors, visit lctx m = .error err) ∧
      (∀ rs, visit_minors V visit lctx nparams minors cnames [] = .ok rs →
        ∀ (i : Nat) (m : Expr), minors[i]? = some m →
          ∃ r, rs[i]? = some r ∧ visit lctx m = .ok r) ∧
      (∀ g : Expr → Expr, (∀ m ∈ minors, visit lctx m = .ok (g m)) →
        visit_minors V visit lctx nparams minors cnames [] = .ok (minors.map g))) ∧
    (∀ (args args1 : List Expr) (i : Nat) (m : Expr) (c : Name), args ≠ [] →
      minors[i]? = some m → cnames[i]? = some c →
      lambda_depth m < V.env.get_constructor_arity c - nparams →
      (∀ rs, visit_minors V visit lctx nparams minors cnames args ≠ .ok rs) ∧
      (List.Forall₂ (fun a a1 => visit lctx a = .ok a1) args args1 →
        (∀ (j : Nat) (mj : Expr) (cj : Name), j < i → minors[j]? = some mj →
          cnames[j]? = some cj →
          nparams ≤ V.env.get_constructor_arity cj ∧
          ∃ lctx1 locals body b1,
            peel_minor (V.env.get_constructor_arity cj - nparams) lctx [] mj
              = .ok (lctx1, locals, body) ∧
            visit lctx1 body = .ok b1) →
        visit_minors V visit lctx nparams minors cnames args
          = .error (Failure.exception minor_not_lambda_msg))) := by
  have h0 : visit_minors V visit lctx nparams minors cnames [] = visit_args visit lctx minors := by
    simp [visit_minors]
  refine ⟨⟨h0, ?_, ?_, ?_⟩, ?_⟩
  · intro err h
    rw [h0] at h
    exact visit_args_error visit lctx minors err h
  · intro rs h i m hm
    rw [h0] at h
    exact visit_args_getElem visit lctx minors rs h i m hm
  · intro g hg
    rw [h0]
    exact visit_args_map visit lctx minors g hg
  · intro args args1 i m c hargs hm hc hshort
    have hpos : args.length > 0 := by
      cases args with
      | nil => exact absurd rfl hargs
      | cons a as => simp
    constructor
    · intro rs h
      simp only [visit_minors, hpos, if_true, bind, Except.bind] at h
      cases hv : visit_args visit lctx args with
      | error err => simp [hv] at h
      | ok args1 =>
        simp only [hv] at h
        exact distribute_args_not_ok V visit lctx nparams args1 minors cnames i m c hm hc hshort
          rs h
    · intro hargs1 hearlier
      have hv := visit_args_of_forall visit lctx args args1 hargs1
      have hi1 : i < minors.length := by
        rcases Nat.lt_or_ge i minors.length with h | h
        · exact h
        · rw [List.getElem?_eq_none h] at hm; cases hm
      have hi2 : i < cnames.length := by
        rcases Nat.lt_or_ge i cnames.length with h | h
        · exact h
        · rw [List.getElem?_eq_none h] at hc; cases hc
      obtain ⟨rpre, hpre⟩ := distribute_args_prefix V visit lctx nparams args1 minors cnames i
        (by omega) (by omega) hearlier
      have e1 : minors = minors.take i ++ m :: minors.drop (i + 1) := by
        have := List.getElem?_eq_some_iff.mp hm
        obtain ⟨_, hget⟩ := this
        rw [← hget]
        simp
      have e2 : cnames = cnames.take i ++ c :: cnames.drop (i + 1) := by
        have := List.getElem?_eq_some_iff.mp hc
        obtain ⟨_, hget⟩ := this
        rw [← hget]
        simp
      have hlen : (minors.take i).length = (cnames.take i).length := by
        simp [List.length_take]
        omega
      have hge : decide (V.env.get_constructor_arity c ≥ nparams) = true := by
        simp; omega
      have h3 : distribute_args V visit lctx nparams args1 minors cnames
          = distribute_args V visit lctx nparams args1
              (minors.take i ++ m :: minors.drop (i + 1))
              (cnames.take i ++ c :: cnames.drop (i + 1)) := by
        rw [← e1, ← e2]
      simp only [visit_minors, hpos, if_true, bind, Except.bind, hv]
      rw [h3, distribute_args_append V visit lctx nparams args1 _ _ _ _ rpre hlen hpre]
      simp [distribute_args, lean_assert, hge, bind, Except.bind, pure, Except.pure,
        peel_minor_short _ lctx [] m hshort]

/-- Witness of C11, amended: a case split over `nat` with the extra argument
    `k.{1}`, which is erased to `k`.  The minor premise for `zero` needs no
    lambda and is erased; the minor premise `g` for `succ`, whose
    constructor has one field, is not a lambda, and the failure is raised.
    Without extra argument both minor premises are erased as they are. -/
theorem visit_minors_failure_condition_witness :
    visit_minors sample_visitor (visit sample_visitor 5) ⟨[], 0⟩ 0 [cst "z", cst "g"]
        [name2 "nat" "zero", name2 "nat" "succ"] [.const (name1 "k") [1]]
      = .error (Failure.exception minor_not_lambda_msg) ∧
    visit_minors sample_visitor (visit sample_visitor 5) ⟨[], 0⟩ 0 [cst "z", cst "g"]
        [name2 "nat" "zero", name2 "nat" "succ"] []
      = .ok ([cst "z", cst "g"].map id) ∧
    old_erase_irrelevant sample_visitor 10 sample_wrap_bad_cases
      = .error (Failure.exception minor_not_lambda_msg) :=
  have h := visit_minors_failure_condition sample_visitor (visit sample_visitor 5) ⟨[], 0⟩ 0
    [cst "z", cst "g"] [name2 "nat" "zero", name2 "nat" "succ"]
  ⟨(h.2 [.const (name1 "k") [1]] [cst "k"] 1 (cst "g") (name2 "nat" "succ") (by simp) (by rfl)
      (by rfl) (by decide)).2
      (List.Forall₂.cons (by rfl) List.Forall₂.nil)
      (fun j mj cj hj hm hc => by
        have hj0 : j = 0 := by omega
        subst hj0
        have hm2 : mj = cst "z" := by simpa using hm.symm
        have hc2 : cj = name2 "nat" "zero" := by simpa using hc.symm
        subst hm2 hc2
        exact ⟨by decide, ⟨[], 0⟩, [], cst "z", cst "z", by rfl, by rfl⟩),
   h.1.2.2.2 id (fun m hm => by
      have hm2 : m = cst "z" ∨ m = cst "g" := by simpa using hm
      rcases hm2 with hm2 | hm2 <;> rw [hm2] <;> rfl),
   by rfl⟩

theorem add_args_error (V : Visitor) (visit : LocalContext → Expr → Result Expr)
    (lctx : LocalContext) (e : Expr) (k : Nat) (args : List Expr) (err : Failure)
    (h : add_args V visit lctx e k args = .error err) :
    ∃ a ∈ args.drop k, visit lctx a = .error err := by
  simp only [add_args, add_args_loop_eq, bind, Except.bind, pure, Except.pure] at h
  cases hv : visit_args visit lctx (List.drop k args) with
  | error e1 =>
    simp [hv] at h
    subst h
    exact visit_args_error visit lctx _ e1 hv
  | ok r => simp [hv] at h

/-- Counterexample to C12 as stated: `list.no_confusion` comparing `cons a b`
    with itself, so that both compared values are constructor applications,
    raises the failure "... 'list.no_confusion', constructors expected" all the
    same, because the erasure of its trailing argument, a malformed
    `list.no_confusion` application, raises it. -/
theorem no_confusion_rejects_non_constructors_counterexample :
    sample_visitor.env.is_constructor_app sample_cons = some (name2 "list" "cons") ∧
    sample_nc_nested_args[2]? = some sample_cons ∧
    sample_nc_nested_args[3]? = some sample_cons ∧
    visit_no_confusion sample_visitor (visit sample_visitor 6) ⟨[], 0⟩
        (.const (name2 "list" "no_confusion") [1, 1]) sample_nc_nested_args
      = .error (Failure.exception (constructors_expected_msg (name2 "list" "no_confusion"))) ∧
    old_erase_irrelevant sample_visitor 10
        (mk_app (.const (name2 "list" "no_confusion") [1, 1]) sample_nc_nested_args)
      = .error (Failure.exception (constructors_expected_msg (name2 "list" "no_confusion"))) :=
  ⟨by rfl, by rfl, by rfl, by rfl, by rfl⟩

/-- C12, amended (the discrimination helper rejects non-constructors): for a
    `no_confusion` application with at least `nparams + nindices + 4` arguments
    whose two compared values have head-normal forms `lhs` and `rhs`:

    * when `lhs` or `rhs` is not a constructor application,
      `visit_no_confusion` raises the failure "code generation failed,
      unsupported occurrence of ..., constructors expected", whatever the minor
      premise, the trailing arguments and the recursive entry point are;
    * when both are constructor applications and the call fails, the two
      constructors are the same, and either the minor premise is missing (an
      assertion) or the failure is the one of the erasure of the peeled body
      of the minor premise or of a trailing argument;
    * so when these erasures do not raise the failure, it is raised if and
      only if `lhs` or `rhs` is not a constructor application. -/
theorem no_confusion_rejects_non_constructors (V : Visitor)
    (visit : LocalContext → Expr → Result Expr) (lctx : LocalContext) (n : Name)
    (ls : List Level) (args : List Expr) (I_val : InductiveVal) (a1 a2 lhs rhs : Expr)
    (hI : V.env.get n.prefixOf = some (.induct I_val))
    (hlen : I_val.nparams + I_val.nindices + 4 ≤ args.length)
    (h1 : args[I_val.nparams + I_val.nindices + 1]? = some a1)
    (h2 : args[I_val.nparams + I_val.nindices + 2]? = some a2)
    (hl : V.ctx.whnf lctx a1 = some lhs) (hr : V.ctx.whnf lctx a2 = some rhs) :
    ((V.env.is_constructor_app lhs = none ∨ V.env.is_constructor_app rhs = none) →
      visit_no_confusion V visit lctx (.const n ls) args
        = .error (Failure.exception (constructors_expected_msg n))) ∧
    (∀ c1 c2 f, V.env.is_constructor_app lhs = some c1 → V.env.is_constructor_app rhs = some c2 →
      visit_no_confusion V visit lctx (.const n ls) args = .error f →
      c1 = c2 ∧
      ((args.length = I_val.nparams + I_val.nindices + 4 ∧ f = Failure.assertion) ∨
       ∃ minor lctx1 locals body,
        args[I_val.nparams + I_val.nindices + 4]? = some minor ∧
        consume_lambdas V lctx [] minor = .ok (lctx1, locals, body) ∧
        (visit lctx1 body = .error f ∨
         ∃ a ∈ args.drop (I_val.nparams + I_val.nindices + 5), visit lctx1 a = .error f))) ∧
    ((∀ minor lctx1 locals body,
        args[I_val.nparams + I_val.nindices + 4]? = some minor →
        consume_lambdas V lctx [] minor = .ok (lctx1, locals, body) →
        visit lctx1 body ≠ .error (Failure.exception (constructors_expected_msg n)) ∧
        ∀ a ∈ args.drop (I_val.nparams + I_val.nindices + 5),
          visit lctx1 a ≠ .error (Failure.exception (constructors_expected_msg n))) →
      (visit_no_confusion V visit lctx (.const n ls) args
          = .error (Failure.exception (constructors_expected_msg n)) ↔
        (V.env.is_constructor_app lhs = none ∨ V.env.is_constructor_app rhs = none))) := by
  have hlen2 : I_val.nparams + I_val.nindices + 1 + 2 + 1 ≤ args.length := by omega
  have part1 : (V.env.is_constructor_app lhs = none ∨ V.env.is_constructor_app rhs = none) →
      visit_no_confusion V visit lctx (.const n ls) args
        = .error (Failure.exception (constructors_expected_msg n)) := by
    intro hnone
    rcases hnone with hn | hn
    · cases hc2 : V.env.is_constructor_app rhs <;>
        simp [visit_no_confusion, lean_assert, is_constant, const_name, env_get, hI,
          to_inductive_val, bind, Except.bind, pure, Except.pure, buffer_get, h1, h2, hl, hr, hn,
          hc2, hlen2, throw, throwThe, MonadExceptOf.throw, constructors_expected_msg]
    · cases hc1 : V.env.is_constructor_app lhs <;>
        simp [visit_no_confusion, lean_assert, is_constant, const_name, env_get, hI,
          to_inductive_val, bind, Except.bind, pure, Except.pure, buffer_get, h1, h2, hl, hr, hn,
          hc1, hlen2, throw, throwThe, MonadExceptOf.throw, constructors_expected_msg]
  have part2 : ∀ c1 c2 f, V.env.is_constructor_app lhs = some c1 →
      V.env.is_constructor_app rhs = some c2 →
      visit_no_confusion V visit lctx (.const n ls) args = .error f →
      c1 = c2 ∧
      ((args.length = I_val.nparams + I_val.nindices + 4 ∧ f = Failure.assertion) ∨
       ∃ minor lctx1 locals body,
        args[I_val.nparams + I_val.nindices + 4]? = some minor ∧
        consume_lambdas V lctx [] minor = .ok (lctx1, locals, body) ∧
        (visit lctx1 body = .error f ∨
         ∃ a ∈ args.drop (I_val.nparams + I_val.nindices + 5), visit lctx1 a = .error f)) := by
    intro c1 c2 f hc1 hc2 h
    simp only [visit_no_confusion, lean_assert, is_constant, const_name, env_get, hI,
      to_inductive_val, bind, Except.bind, pure, Except.pure, buffer_get, h1, h2, hl, hr, hc1,
      hc2, hlen2, decide_True, if_true] at h
    by_cases hne : c1 = c2
    · refine ⟨hne, ?_⟩
      simp only [hne, ne_eq, not_true_eq_false, if_false] at h
      by_cases hlen3 : I_val.nparams + I_val.nindices + 1 + 2 + 1 + 1 ≤ args.length
      · right
        obtain ⟨minor, hm⟩ : ∃ minor, args[I_val.nparams + I_val.nindices + 4]? = some minor :=
          ⟨_, List.getElem?_eq_getElem (by omega)⟩
        obtain ⟨lctx1, locals, body, hcl, _, _⟩ := consume_lambdas_ok V lctx minor
        refine ⟨minor, lctx1, locals, V.beta_reduce body, hm, hcl, ?_⟩
        simp only [hlen3, decide_True, if_true, hm, hcl] at h
        cases hv : visit lctx1 (V.beta_reduce body) with
        | error err =>
          simp only [hv] at h
          left
          rw [h]
        | ok body1 =>
          simp only [hv] at h
          right
          exact add_args_error V visit _ _ _ _ _ h
      · left
        simp [hlen3, throw, throwThe, MonadExceptOf.throw] at h
        exact ⟨by omega, h.symm⟩
    · simp [hne, mk_enf_unreachable] at h
  refine ⟨part1, part2, ?_⟩
  intro hsub
  constructor
  · intro h
    cases hc1 : V.env.is_constructor_app lhs with
    | none => exact Or.inl rfl
    | some c1 =>
      cases hc2 : V.env.is_constructor_app rhs with
      | none => exact Or.inr rfl
      | some c2 =>
        exfalso
        obtain ⟨_, hcase⟩ := part2 c1 c2 _ hc1 hc2 h
        rcases hcase with ⟨_, hf⟩ | ⟨minor, lctx1, locals, body, hm, hcl, hv⟩
        · cases hf
        · obtain ⟨hb, ha⟩ := hsub minor lctx1 locals body hm hcl
          rcases hv with hv | ⟨a, hmem, hv⟩
          · exact hb hv
          · exact ha a hmem hv
  · exact part1

/-- Witness of C12, amended: `list.no_confusion` comparing the constant `x`
    with `nil` raises the failure. -/
theorem no_confusion_rejects_non_constructors_witness :
    visit_no_confusion sample_visitor (visit sample_visitor 5) ⟨[], 0⟩
        (.const (name2 "list" "no_confusion") [1, 1]) sample_nc_bad_args
      = .error (Failure.exception (constructors_expected_msg (name2 "list" "no_confusion"))) ∧
    constructors_expected_msg (name2 "list" "no_confusion")
      = "code generation failed, unsupported occurrence of 'list.no_confusion', constructors expected" :=
  ⟨(no_confusion_rejects_non_constructors sample_visitor (visit sample_visitor 5) ⟨[], 0⟩
    (name2 "list" "no_confusion") [1, 1] sample_nc_bad_args
    ⟨1, 0, [name2 "list" "nil", name2 "list" "cons"]⟩ (cst "x")
    (mk_app (.const (name2 "list" "nil") [1]) [cst "nat"]) (cst "x")
    (mk_app (.const (name2 "list" "nil") [1]) [cst "nat"])
    (by rfl) (by decide) (by rfl) (by rfl) (by rfl) (by rfl)).1 (Or.inl (by rfl)), by decide⟩

theorem leading_lambda_names_length (e : Expr) :
    (leading_lambda_names e).length = lambda_depth e := by
  induction e with
  | lam n d b _ ihb => simp [leading_lambda_names, lambda_depth, ihb]
  | _ => rfl

theorem leading_lambda_names_instantiate_at (e : Expr) (k i : Nat) :
    leading_lambda_names (instantiate_at e k (.loc i)) = leading_lambda_names e := by
  induction e generalizing k with
  | bvar j =>
    simp only [instantiate_at]
    split
    · rfl
    · split <;> rfl
  | lam n t b _ ihb => simp [instantiate_at, leading_lambda_names, ihb]
  | _ => simp [instantiate_at, leading_lambda_names]

theorem peel_minor_ok (d : Nat) (lctx : LocalContext) (locals : List LocalDecl) (e : Expr)
    (h : d ≤ lambda_depth e) :
    ∃ lctx1 new_locals body,
      peel_minor d lctx locals e = .ok (lctx1, locals ++ new_locals, body) ∧
      new_locals.length = d ∧
      new_locals.map LocalDecl.name = (leading_lambda_names e).take d ∧
      lambda_depth body = lambda_depth e - d ∧
      (∀ l ∈ new_locals, l.value = none) := by
  induction d generalizing lctx locals e with
  | zero => exact ⟨lctx, [], e, by simp [peel_minor, pure, Except.pure], rfl, by simp, by simp,
      by simp⟩
  | succ d ih =>
    cases e with
    | lam x t b =>
      simp only [lambda_depth] at h
      have hd : d ≤ lambda_depth (instantiate b (Expr.loc (lctx.push x t none).2.id)) := by
        unfold instantiate
        rw [lambda_depth_instantiate_at]
        omega
      obtain ⟨lctx1, nl, body, h1, h2, h3, h4, h5⟩ :=
        ih (lctx.push x t none).1 (locals ++ [(lctx.push x t none).2]) _ hd
      refine ⟨lctx1, (lctx.push x t none).2 :: nl, body, ?_, by simp [h2], ?_, ?_, ?_⟩
      · simp only [peel_minor]
        rw [h1]
        simp
      · simp only [List.map_cons, h3, leading_lambda_names, List.take_succ_cons]
        unfold instantiate
        rw [leading_lambda_names_instantiate_at]
        rfl
      · rw [h4]
        unfold instantiate
        rw [lambda_depth_instantiate_at]
        simp only [lambda_depth]
        omega
      · intro l hl
        rcases List.mem_cons.mp hl with hl | hl
        · subst hl; rfl
        · exact h5 l hl
    | _ => simp [lambda_depth] at h

theorem leading_names_mk_lambda_core (rev : List LocalDecl) (r : Expr)
    (hv : ∀ l ∈ rev, l.value = none) :
    leading_lambda_names (mk_lambda_core rev r)
      = rev.reverse.map LocalDecl.name ++ leading_lambda_names r := by
  induction rev generalizing r with
  | nil => simp [mk_lambda_core]
  | cons d rev ih =>
    have hd : d.value = none := hv d (List.mem_cons_self _ _)
    simp only [mk_lambda_core, hd]
    rw [ih _ (fun l hl => hv l (List.mem_cons_of_mem _ hl))]
    simp [leading_lambda_names]

theorem leading_names_when_relevant (e : Expr) :
    leading_lambda_names (erase_lambda_let_types_when_relevant e) = leading_lambda_names e := by
  induction e with
  | lam n d b _ ihb => simp [erase_lambda_let_types_when_relevant, leading_lambda_names, ihb]
  | elet n t v b _ _ _ => simp [erase_lambda_let_types_when_relevant, leading_lambda_names]
  | _ => rfl

theorem leading_names_when_irrelevant (e : Expr) :
    ∃ rest, leading_lambda_names (erase_lambda_let_types_when_irrelevant e)
      = leading_lambda_names e ++ rest := by
  induction e with
  | lam n d b _ ihb =>
    obtain ⟨rest, hr⟩ := ihb
    exact ⟨rest, by simp [erase_lambda_let_types_when_irrelevant, leading_lambda_names, hr]⟩
  | elet n t v b _ _ _ =>
    exact ⟨leading_lambda_names (erase_lambda_let_types_when_irrelevant (.elet n t v b)),
      by simp [leading_lambda_names]⟩
  | _ => exact ⟨[], by simp [erase_lambda_let_types_when_irrelevant]⟩

theorem leading_names_erase (e : Expr) :
    ∃ rest, leading_lambda_names (erase_lambda_let_types e) = leading_lambda_names e ++ rest := by
  unfold erase_lambda_let_types
  split
  · exact leading_names_when_irrelevant e
  · exact ⟨[], by simp [leading_names_when_relevant]⟩

theorem leading_names_distributed (locals : List LocalDecl) (x : Expr)
    (hv : ∀ l ∈ locals, l.value = none) :
    (leading_lambda_names (erase_lambda_let_types (mk_lambda locals x))).take locals.length
      = locals.map LocalDecl.name ∧
    locals.length ≤ lambda_depth (erase_lambda_let_types (mk_lambda locals x)) := by
  obtain ⟨rest, hrest⟩ := leading_names_erase (mk_lambda locals x)
  have hcore : leading_lambda_names (mk_lambda locals x)
      = locals.map LocalDecl.name ++ leading_lambda_names (abstract_locals x locals) := by
    unfold mk_lambda
    rw [leading_names_mk_lambda_core _ _ (fun l hl => hv l (List.mem_reverse.mp hl))]
    simp
  constructor
  · rw [hrest, hcore, List.append_assoc, List.take_append_of_le_length (by simp)]
    simp
  · rw [← leading_lambda_names_length, hrest, hcore]
    simp

/-- C17 (argument-distribution result): in `visit_minors` with at least one
    extra argument, each extra argument `args[j]` is erased to
    `args1[j] = visit(args[j])`.  For a minor premise that has at least
    `d = arity(constructor) - nparams` leading lambdas, exactly `d` binders are
    peeled, whatever further lambdas follow, and once the peeled body is
    erased the new minor premise is `erase_lambda_let_types` of the `d` peeled
    binders re-abstracted over `beta_reduce` of the erased body applied to the
    erased extra arguments `args1`; the same erased list is applied in every
    branch.  The new minor premise starts with `d` lambdas that carry the
    names of the peeled binders in their order. -/
theorem argument_distribution_result (V : Visitor) (visit : LocalContext → Expr → Result Expr)
    (lctx : LocalContext) (nparams : Nat) (args args1 pre post rpre rpost : List Expr)
    (cpre cpost : List Name) (minor : Expr) (cname : Name)
    (hargs : args ≠ [])
    (hv : List.Forall₂ (fun a a1 => visit lctx a = .ok a1) args args1)
    (hlen : pre.length = cpre.length)
    (hpre : distribute_args V visit lctx nparams args1 pre cpre = .ok rpre)
    (hpost : distribute_args V visit lctx nparams args1 post cpost = .ok rpost)
    (har : nparams ≤ V.env.get_constructor_arity cname)
    (hd : V.env.get_constructor_arity cname - nparams ≤ lambda_depth minor) :
    ∃ lctx1 locals body,
      peel_minor (V.env.get_constructor_arity cname - nparams) lctx [] minor
        = .ok (lctx1, locals, body) ∧
      locals.length = V.env.get_constructor_arity cname - nparams ∧
      locals.map LocalDecl.name
        = (leading_lambda_names minor).take (V.env.get_constructor_arity cname - nparams) ∧
      lambda_depth body
        = lambda_depth minor - (V.env.get_constructor_arity cname - nparams) ∧
      ∀ body1, visit lctx1 body = .ok body1 →
        visit_minors V visit lctx nparams (pre ++ minor :: post) (cpre ++ cname :: cpost) args
          = .ok (rpre ++
              erase_lambda_let_types (mk_lambda locals (V.beta_reduce (mk_app body1 args1)))
                :: rpost) ∧
        (leading_lambda_names
            (erase_lambda_let_types
              (mk_lambda locals (V.beta_reduce (mk_app body1 args1))))).take
            (V.env.get_constructor_arity cname - nparams)
          = (leading_lambda_names minor).take (V.env.get_constructor_arity cname - nparams) ∧
        V.env.get_constructor_arity cname - nparams
          ≤ lambda_depth
              (erase_lambda_let_types
                (mk_lambda locals (V.beta_reduce (mk_app body1 args1)))) := by
  obtain ⟨lctx1, locals, body, hpeel, hl, hnames, hdepth, hvals⟩ :=
    peel_minor_ok (V.env.get_constructor_arity cname - nparams) lctx [] minor hd
  simp only [List.nil_append] at hpeel
  refine ⟨lctx1, locals, body, hpeel, hl, hnames, hdepth, ?_⟩
  intro body1 hb
  have hv1 := visit_args_of_forall visit lctx args args1 hv
  have hpos : args.length > 0 := by
    cases args with
    | nil => exact absurd rfl hargs
    | cons a as => simp
  have hge : decide (V.env.get_constructor_arity cname ≥ nparams) = true := by
    simpa using har
  have hdist := leading_names_distributed locals (V.beta_reduce (mk_app body1 args1)) hvals
  refine ⟨?_, ?_, ?_⟩
  · simp only [visit_minors, hpos, if_true, bind, Except.bind, hv1]
    rw [distribute_args_append V visit lctx nparams args1 _ _ _ _ rpre hlen hpre]
    simp [distribute_args, lean_assert, hge, bind, Except.bind, pure, Except.pure, hpeel, hb,
      hpost]
  · rw [← hl, hdist.1, hnames, hl]
  · rw [← hl]
    exact hdist.2

/-- Witness of C17: a case split over `wrap` with the two extra arguments
    `k.{1}` and `hp`, which are erased to `k` and to `NeutralMarker`.  The
    minor premise `fun (f : nat → nat) (y : nat) => f y` has two leading
    lambdas, the constructor one field: one binder is peeled, and the erased
    extra arguments are applied under it, which gives
    `fun (f : nat → nat) => f k NeutralMarker`. -/
theorem argument_distribution_result_witness :
    visit_minors sample_visitor (visit sample_visitor 5) ⟨[], 0⟩ 0
        ([] ++ sample_wrap_minor2 :: []) ([] ++ name2 "wrap" "mk" :: [])
        [.const (name1 "k") [1], cst "hp"]
      = .ok ([] ++ Expr.lam (name1 "f") nat_to_nat
          (.app (.app (.bvar 0) (cst "k")) .neutral) :: []) := by
  obtain ⟨lctx1, locals, body, hpeel, _, _, _, h⟩ :=
    argument_distribution_result sample_visitor (visit sample_visitor 5) ⟨[], 0⟩ 0
      [.const (name1 "k") [1], cst "hp"] [cst "k", .neutral] [] [] [] [] [] []
      sample_wrap_minor2 (name2 "wrap" "mk")
      (by simp)
      (List.Forall₂.cons (by rfl) (List.Forall₂.cons (by rfl) List.Forall₂.nil))
      (by rfl) (by rfl) (by rfl) (by decide) (by decide)
  have hp : peel_minor (sample_visitor.env.get_constructor_arity (name2 "wrap" "mk") - 0)
      ⟨[], 0⟩ [] sample_wrap_minor2
      = .ok (⟨[⟨0, name1 "f", nat_to_nat, none⟩], 1⟩, [⟨0, name1 "f", nat_to_nat, none⟩],
          .lam (name1 "y") (cst "nat") (.app (.loc 0) (.bvar 0))) := by rfl
  rw [hp] at hpeel
  simp only [Except.ok.injEq, Prod.mk.injEq] at hpeel
  obtain ⟨h1, h2, h3⟩ := hpeel
  subst h1 h2 h3
  exact (h _ (by rfl)).1

/-- The loop over the extra arguments reads past the end of an empty region
    when its count is positive. -/
theorem visit_args_raw_nil (visit : LocalContext → Expr → Result Expr) (lctx : LocalContext)
    (n : Nat) (h : 0 < n) : visit_args_raw visit lctx n [] = .error Failure.undefined := by
  cases n with
  | zero => omega
  | succ k => rfl

/-- With a positive count and no extra argument stored, `visit_minors` reads
    past the end of the buffer. -/
theorem visit_minors_raw_nil (V : Visitor) (visit : LocalContext → Expr → Result Expr)
    (lctx : LocalContext) (nparams nminors : Nat) (minors : List Expr) (cnames : List Name)
    (nargs : Nat) (h : 0 < nargs) :
    visit_minors_raw V visit lctx nparams nminors minors cnames nargs []
      = .error Failure.undefined := by
  simp [visit_minors_raw, h, visit_args_raw_nil visit lctx nargs h, bind, Except.bind]

/-- Unsigned subtraction of a larger number wraps around. -/
theorem usub_wrap (a b : Nat) (h : a < b) (hb : b < 4294967296) :
    usub a b = a + 4294967296 - b ∧ 0 < usub a b := by
  have h1 : usub a b = a + 4294967296 - b := by
    unfold usub
    rw [Nat.mod_eq_of_lt hb, Nat.mod_eq_of_lt (by omega)]
  exact ⟨h1, by omega⟩

/-- C14 (code): a case split `n` over the inductive type `I_val`, or a
    recursor `n` with the metadata `R`, applied to fewer arguments than its
    arity.  With assertions the call ends on the violated assertion
    `args.size() >= arity`, which is not an exception and carries no message.
    Without assertions the call goes on: the number of extra arguments
    `args.size() - arity` wraps around to `args.size() + 2^32 - arity`, which is
    positive, and `visit_minors` reads its first extra argument past the end of
    the argument buffer; no result is returned in either build. -/
theorem under_supplied_arguments (V : Visitor) (visit : LocalContext → Expr → Result Expr)
    (lctx : LocalContext) (n : Name) (us : List Level) (args : List Expr)
    (hI : n.prefixOf ≠ get_false_name) :
    (∀ I_val : InductiveVal, V.env.get n.prefixOf = some (.induct I_val) →
      args.length < I_val.nparams + 1 + I_val.nindices + 1 + I_val.cnstrs.length →
      I_val.nparams + 1 + I_val.nindices + 1 + I_val.cnstrs.length < 4294967296 →
      visit_cases_on V visit lctx (.const n us) args = .error Failure.assertion ∧
      usub args.length (I_val.nparams + 1 + I_val.nindices + 1 + I_val.cnstrs.length)
        = args.length + 4294967296
            - (I_val.nparams + 1 + I_val.nindices + 1 + I_val.cnstrs.length) ∧
      visit_cases_on_unchecked V visit lctx (.const n us) args = .error Failure.undefined) ∧
    (∀ R : RecursorVal, V.env.get n = some (.recursor R) →
      V.env.is_recursive_datatype n.prefixOf = false →
      args.length < R.nparams + R.nmotives + R.nminors + R.nindices + 1 →
      R.nparams + R.nmotives + R.nminors + R.nindices + 1 < 4294967296 →
      visit_rec V visit lctx (.const n us) args = .error Failure.assertion ∧
      usub args.length (R.nparams + R.nmotives + R.nminors + R.nindices + 1)
        = args.length + 4294967296 - (R.nparams + R.nmotives + R.nminors + R.nindices + 1) ∧
      ∀ r, visit_rec_unchecked V visit lctx (.const n us) args ≠ .ok r) := by
  constructor
  · intro I_val hget hlt h32
    have hw := usub_wrap _ _ hlt h32
    have hdrop : args.drop (I_val.nparams + 1 + I_val.nindices + 1 + I_val.cnstrs.length) = [] :=
      List.drop_eq_nil_of_le (by omega)
    refine ⟨?_, hw.1, ?_⟩
    · have hnot : ¬ (I_val.nparams + 1 + I_val.nindices + 1 + I_val.cnstrs.length
          ≤ args.length) := by omega
      simp [visit_cases_on, const_name, hI, env_get, hget, to_inductive_val, lean_assert, hnot,
        bind, Except.bind, pure, Except.pure, throw, throwThe, MonadExceptOf.throw]
    · simp only [visit_cases_on_unchecked, const_name, unchecked, hI, env_get, hget,
        to_inductive_val, get_constructor_names, bind, Except.bind, pure, Except.pure,
        if_false, hdrop]
      rw [visit_minors_raw_nil _ _ _ _ _ _ _ _ hw.2]
  · intro R hget hrec hlt h32
    have hw := usub_wrap _ _ hlt h32
    have hdrop : args.drop (R.nparams + R.nmotives + R.nminors + R.nindices + 1) = [] :=
      List.drop_eq_nil_of_le (by omega)
    refine ⟨?_, hw.1, ?_⟩
    · have hnot : ¬ (R.nparams + R.nmotives + R.nminors + R.nindices + 1 ≤ args.length) := by
        omega
      simp [visit_rec, const_name, hI, env_get, hget, hrec, to_recursor_val, lean_assert, hnot,
        bind, Except.bind, pure, Except.pure, throw, throwThe, MonadExceptOf.throw]
    · intro r h
      simp only [visit_rec_unchecked, const_name, unchecked, hI, env_get, hget,
        to_recursor_val, bind, Except.bind, pure, Except.pure, if_false, hdrop] at h
      cases hc : unchecked (get_constructor_names V n.prefixOf) with
      | error e => simp [unchecked] at hc; simp [hc] at h
      | ok cn =>
        simp only [unchecked] at hc
        rw [hc] at h
        cases hb : unchecked (buffer_get args (R.nparams + 1 + R.nminors + R.nindices)) with
        | error e => simp only [unchecked] at hb; simp [hb] at h
        | ok m0 =>
          simp only [unchecked] at hb
          rw [hb] at h
          cases hv : visit lctx m0 with
          | error e => simp [hv] at h
          | ok m1 =>
            simp only [hv, visit_minors_raw_nil _ _ _ _ _ _ _ _ hw.2] at h
            simp at h

/-- C14, at inputs: `punit.cases_on C star` and `punit.rec C m` have two
    arguments each, one fewer than the arity 3. -/
theorem under_supplied_arguments_witness :
    visit_cases_on sample_visitor (visit sample_visitor 5) ⟨[], 0⟩
        (.const (name2 "punit" "cases_on") []) [cst "C", .const (name2 "punit" "star") []]
      = .error Failure.assertion ∧
    usub 2 3 = 4294967295 ∧
    visit_cases_on_unchecked sample_visitor (visit sample_visitor 5) ⟨[], 0⟩
        (.const (name2 "punit" "cases_on") []) [cst "C", .const (name2 "punit" "star") []]
      = .error Failure.undefined ∧
    visit_rec sample_visitor (visit sample_visitor 5) ⟨[], 0⟩
        (.const (name2 "punit" "rec") [1]) [cst "C", cst "m"]
      = .error Failure.assertion ∧
    visit_rec_unchecked sample_visitor (visit sample_visitor 5) ⟨[], 0⟩
        (.const (name2 "punit" "rec") [1]) [cst "C", cst "m"]
      = .error Failure.undefined := by
  have h := under_supplied_arguments sample_visitor (visit sample_visitor 5) ⟨[], 0⟩
  have h1 := (h (name2 "punit" "cases_on") [] [cst "C", .const (name2 "punit" "star") []]
    (by decide)).1 ⟨0, 0, [name2 "punit" "star"]⟩ (by rfl) (by decide) (by decide)
  have h2 := (h (name2 "punit" "rec") [1] [cst "C", cst "m"]
    (by decide)).2 ⟨0, 0, 1, 1⟩ (by rfl) (by rfl) (by decide) (by decide)
  exact ⟨h1.1, h1.2.1, h1.2.2, h2.1, by rfl⟩

/-- C19 (code): `foo.rec` has no parameters, two motives, two minor premises
    and no indices, so its arity is 5 and `foo.rec C1 C2 m1 m2 t` has the minor
    premises `m1 m2` at the positions 2 and 3 and the major premise `t` at
    position 4.  `visit_rec` reads the major premise from position
    `nparams + 1 + nminors + nindices = 3` and the minor premises from the
    positions `nparams + 1 = 1` and 2: the result is `foo.cases_on m2 C2 m1`,
    not `foo.cases_on t m1 m2`. -/
theorem visit_rec_two_motives :
    sample_visitor_mutual.env.get (name2 "foo" "rec") = some (.recursor ⟨0, 0, 2, 2⟩) ∧
    sample_foo_rec_args = [cst "C1", cst "C2", cst "m1", cst "m2", cst "t"] ∧
    visit_rec sample_visitor_mutual (visit sample_visitor_mutual 5) ⟨[], 0⟩
        (.const (name2 "foo" "rec") [1]) sample_foo_rec_args
      = .ok (mk_app (.const (name2 "foo" "cases_on") []) [cst "m2", cst "C2", cst "m1"]) ∧
    old_erase_irrelevant sample_visitor_mutual 6
        (mk_app (.const (name2 "foo" "rec") [1]) sample_foo_rec_args)
      = .ok (mk_app (.const (name2 "foo" "cases_on") []) [cst "m2", cst "C2", cst "m1"]) ∧
    mk_app (.const (name2 "foo" "cases_on") []) [cst "m2", cst "C2", cst "m1"]
      ≠ mk_app (.const (name2 "foo" "cases_on") []) [cst "t", cst "m1", cst "m2"] := by
  refine ⟨by rfl, by rfl, by rfl, by rfl, by decide⟩

/-- C21 (irrelevance takes priority in application dispatch): when the oracle
    judges `e` computationally irrelevant, `visit_app` returns `NeutralMarker`:
    no failure is raised, the literal recognizer, the head of `e`, its
    arguments and the recursive entry point play no part.  Through the entry
    point the same holds for an application `f a` with any positive fuel, and
    for the pass on a closed input. -/
theorem irrelevance_priority (V : Visitor) (lctx : LocalContext) (e : Expr)
    (h : is_comp_irrelevant V lctx e = true) :
    (∀ visit : LocalContext → Expr → Result Expr,
      visit_app V visit lctx e = .ok mk_enf_neutral) ∧
    (∀ (to_nat_value : LocalContext → Expr → Option Nat) (beta_reduce : Expr → Expr)
       (visit : LocalContext → Expr → Result Expr),
      visit_app ⟨V.env, V.ctx, to_nat_value, beta_reduce⟩ visit lctx e = .ok mk_enf_neutral) ∧
    (∀ (fuel : Nat) (f a : Expr), e = .app f a →
      visit V (fuel + 1) lctx e = .ok mk_enf_neutral) := by
  refine ⟨?_, ?_, ?_⟩
  · intro visit
    simp [visit_app, h, pure, Except.pure]
  · intro tn br visit
    have h1 : is_comp_irrelevant ⟨V.env, V.ctx, tn, br⟩ lctx e = true := by
      simpa [is_comp_irrelevant] using h
    simp [visit_app, h1, pure, Except.pure]
  · intro fuel f a he
    subst he
    simp [visit, visit_core, visit_app, h, pure, Except.pure]

/-- C21, at inputs: for the oracle that judges every term a proof, the
    malformed `list.no_confusion nat P x nil h m`, the case split
    `punit.cases_on C star` without minor premise, the application of the
    unreachable constant and a term the literal recognizer folds to 3 are all
    erased to `NeutralMarker`.  With the sample oracle, which judges none of
    them irrelevant, the same terms give a failure, a failure, the unreachable
    marker and the numeral 3. -/
theorem irrelevance_priority_witness :
    is_comp_irrelevant sample_visitor_proofs ⟨[], 0⟩ sample_nc_bad_app = true ∧
    visit_app sample_visitor_proofs (visit sample_visitor_proofs 5) ⟨[], 0⟩ sample_nc_bad_app
      = .ok mk_enf_neutral ∧
    old_erase_irrelevant sample_visitor_proofs 1 sample_nc_bad_app = .ok mk_enf_neutral ∧
    old_erase_irrelevant sample_visitor_proofs 1 sample_short_cases = .ok mk_enf_neutral ∧
    old_erase_irrelevant sample_visitor_proofs 1 sample_unreachable_app = .ok mk_enf_neutral ∧
    old_erase_irrelevant sample_visitor 6 sample_nc_bad_app
      = .error (Failure.exception (constructors_expected_msg (name2 "list" "no_confusion"))) ∧
    old_erase_irrelevant sample_visitor 6 sample_short_cases = .error Failure.assertion ∧
    old_erase_irrelevant sample_visitor 6 sample_unreachable_app = .ok mk_enf_unreachable ∧
    old_erase_irrelevant sample_visitor_numerals 6 sample_nc_bad_app = .ok (.lit 3) := by
  have h := irrelevance_priority sample_visitor_proofs ⟨[], 0⟩
  refine ⟨by rfl, (h sample_nc_bad_app (by rfl)).1 _,
    (h sample_nc_bad_app (by rfl)).2.2 0 _ _ (by rfl),
    (h sample_short_cases (by rfl)).2.2 0 _ _ (by rfl),
    (h sample_unreachable_app (by rfl)).2.2 0 _ _ (by rfl),
    by rfl, by rfl, by rfl, by rfl⟩

theorem erased_form_mk_app (f : Expr) (as : List Expr) :
    erased_form (mk_app f as) = (erased_form f && as.all erased_form) := by
  induction as generalizing f with
  | nil => simp [mk_app]
  | cons a as ih =>
    have h := ih (Expr.app f a)
    simp only [mk_app, List.foldl] at h ⊢
    rw [h]
    simp [erased_form, Bool.and_assoc]

theorem abstract_no_local (e : Expr) (k : Nat) (ids : List Nat) (h : has_local e = false) :
    abstract_locals_at e k ids = e := by
  induction e generalizing k with
  | loc i => simp [has_local] at h
  | app f a ihf iha =>
    simp only [has_local, Bool.or_eq_false_iff] at h
    simp [abstract_locals_at, ihf k h.1, iha k h.2]
  | lam n t b iht ihb =>
    simp only [has_local, Bool.or_eq_false_iff] at h
    simp [abstract_locals_at, iht k h.1, ihb (k + 1) h.2]
  | pi n t b iht ihb =>
    simp only [has_local, Bool.or_eq_false_iff] at h
    simp [abstract_locals_at, iht k h.1, ihb (k + 1) h.2]
  | elet n t v b iht ihv ihb =>
    simp only [has_local, Bool.or_eq_false_iff] at h
    simp [abstract_locals_at, iht k h.1.1, ihv k h.1.2, ihb (k + 1) h.2]
  | mdata m e ih =>
    simp only [has_local] at h
    simp [abstract_locals_at, ih k h]
  | _ => simp [abstract_locals_at]

theorem closed_type_abstract (t : Expr) (k : Nat) (ids : List Nat) (h : closed_type t = true) :
    abstract_locals_at t k ids = t := by
  simp only [closed_type, Bool.and_eq_true, Bool.not_eq_true'] at h
  exact abstract_no_local t k ids h.2

theorem erased_form_abstract (e : Expr) (k : Nat) (ids : List Nat)
    (h : erased_form e = true) : erased_form (abstract_locals_at e k ids) = true := by
  induction e generalizing k with
  | loc i =>
    simp only [abstract_locals_at]
    split <;> rfl
  | app f a ihf iha =>
    simp only [erased_form, Bool.and_eq_true] at h
    simp [abstract_locals_at, erased_form, ihf k h.1, iha k h.2]
  | lam n t b _ ihb =>
    simp only [erased_form, Bool.and_eq_true] at h
    simp [abstract_locals_at, erased_form, closed_type_abstract t k ids h.1, h.1,
      ihb (k + 1) h.2]
  | elet n t v b _ ihv ihb =>
    simp only [erased_form, Bool.and_eq_true] at h
    simp [abstract_locals_at, erased_form, closed_type_abstract t k ids h.1.1, h.1.1,
      ihv k h.1.2, ihb (k + 1) h.2]
  | _ => simpa [abstract_locals_at] using h

theorem chain_erased_form_of_erased (e : Expr) (h : erased_form e = true) :
    chain_erased_form e = true := by
  induction e with
  | lam n t b _ ihb =>
    simp only [erased_form, Bool.and_eq_true] at h
    simpa [chain_erased_form] using ihb h.2
  | elet n t v b _ _ ihb =>
    simp only [erased_form, Bool.and_eq_true] at h
    simp [chain_erased_form, h.1.2, ihb h.2]
  | _ => simpa [chain_erased_form] using h

theorem chain_erased_form_mk_lambda_core (rev : List LocalDecl) (r : Expr)
    (hv : ∀ d ∈ rev, ∀ v, d.value = some v → erased_form v = true)
    (hr : chain_erased_form r = true) : chain_erased_form (mk_lambda_core rev r) = true := by
  induction rev generalizing r with
  | nil => simpa [mk_lambda_core] using hr
  | cons d rev ih =>
    have hv' : ∀ d' ∈ rev, ∀ v, d'.value = some v → erased_form v = true :=
      fun d' hd' => hv d' (List.mem_cons_of_mem _ hd')
    simp only [mk_lambda_core]
    cases hval : d.value with
    | none => exact ih _ hv' (by simpa [chain_erased_form] using hr)
    | some v =>
      have hcv := hv d (List.mem_cons_self _ _) v hval
      exact ih _ hv' (by simp [chain_erased_form, erased_form_abstract _ _ _ hcv, hr])

theorem erased_form_mk_lambda (locals : List LocalDecl) (e : Expr)
    (hv : ∀ d ∈ locals, ∀ v, d.value = some v → erased_form v = true)
    (he : erased_form e = true) : chain_erased_form (mk_lambda locals e) = true := by
  unfold mk_lambda
  apply chain_erased_form_mk_lambda_core
  · intro d hd
    exact hv d (List.mem_reverse.mp hd)
  · exact chain_erased_form_of_erased _ (erased_form_abstract _ _ _ he)

theorem closed_type_erase_type (t : Expr) : closed_type (erase_type t) = true := by
  unfold erase_type
  split
  · rename_i h
    simpa [closed_type] using h
  · rfl

theorem erase_type_of_closed (t : Expr) (h : closed_type t = true) : erase_type t = t := by
  unfold erase_type
  simp only [closed_type] at h
  simp [h]

theorem erased_form_when_relevant (e : Expr) (h : chain_erased_form e = true) :
    erased_form (erase_lambda_let_types_when_relevant e) = true := by
  induction e with
  | lam n d b _ ihb =>
    simp only [chain_erased_form] at h
    simp [erase_lambda_let_types_when_relevant, erased_form, closed_type_erase_type, ihb h]
  | elet n t v b _ _ ihb =>
    simp only [chain_erased_form, Bool.and_eq_true] at h
    simp [erase_lambda_let_types_when_relevant, erased_form, closed_type_erase_type, h.1,
      ihb h.2]
  | _ => simpa [erase_lambda_let_types_when_relevant, chain_erased_form] using h

theorem erased_form_when_irrelevant (e : Expr) (h : chain_erased_form e = true) :
    erased_form (erase_lambda_let_types_when_irrelevant e) = true := by
  induction e with
  | lam n d b _ ihb =>
    simp only [chain_erased_form] at h
    have hn : closed_type mk_enf_neutral = true := by rfl
    simp [erase_lambda_let_types_when_irrelevant, erased_form, hn, ihb h]
  | elet n t v b _ _ ihb =>
    simp only [chain_erased_form, Bool.and_eq_true] at h
    simpa [erase_lambda_let_types_when_irrelevant] using ihb h.2
  | _ => simpa [erase_lambda_let_types_when_irrelevant, chain_erased_form] using h

theorem erased_form_erase_lambda_let_types (e : Expr) (h : chain_erased_form e = true) :
    erased_form (erase_lambda_let_types e) = true := by
  unfold erase_lambda_let_types
  split
  · exact erased_form_when_irrelevant e h
  · exact erased_form_when_relevant e h

theorem erased_form_add_dummy_proofs (n : Nat) (r : Expr) (h : erased_form r = true) :
    erased_form (add_dummy_proofs n r) = true := by
  rw [add_dummy_proofs_eq, erased_form_mk_app, h]
  simp [erased_form]

theorem erased_form_visit_args (visit : LocalContext → Expr → Result Expr)
    (hP : ReturnsErasedForm visit) (lctx : LocalContext) (as rs : List Expr)
    (h : visit_args visit lctx as = .ok rs) : rs.all erased_form = true := by
  induction as generalizing rs with
  | nil => simp [visit_args, pure, Except.pure] at h; subst h; rfl
  | cons a as ih =>
    simp only [visit_args, bind, Except.bind] at h
    cases hv : visit lctx a with
    | error err => simp [hv] at h
    | ok a1 =>
      cases hr : visit_args visit lctx as with
      | error err => simp [hv, hr] at h
      | ok r =>
        simp [hv, hr, pure, Except.pure] at h
        subst h
        have h1 := hP _ _ _ hv
        have h2 := ih r hr
        simp only [List.all_cons, h1, h2, Bool.and_self]

theorem erased_form_add_args (V : Visitor) (visit : LocalContext → Expr → Result Expr)
    (hβ : ∀ e, erased_form e = true → erased_form (V.beta_reduce e) = true)
    (hP : ReturnsErasedForm visit) (lctx : LocalContext) (e : Expr) (start_idx : Nat)
    (args : List Expr) (r : Expr) (he : erased_form e = true)
    (h : add_args V visit lctx e start_idx args = .ok r) : erased_form r = true := by
  simp only [add_args, add_args_loop_eq, bind, Except.bind, pure, Except.pure] at h
  cases hv : visit_args visit lctx (List.drop start_idx args) with
  | error err => simp [hv] at h
  | ok as1 =>
    simp [hv] at h
    subst h
    apply hβ
    rw [erased_form_mk_app, he, erased_form_visit_args visit hP lctx _ _ hv]
    rfl

theorem erased_form_distribute_args (V : Visitor) (visit : LocalContext → Expr → Result Expr)
    (hβ : ∀ e, erased_form e = true → erased_form (V.beta_reduce e) = true)
    (hP : ReturnsErasedForm visit) (lctx : LocalContext) (nparams : Nat) (args : List Expr)
    (hargs : args.all erased_form = true) (minors : List Expr) (cnames : List Name)
    (rs : List Expr)
    (h : distribute_args V visit lctx nparams args minors cnames = .ok rs) :
    rs.all erased_form = true := by
  induction minors generalizing cnames rs with
  | nil => simp [distribute_args, pure, Except.pure] at h; subst h; rfl
  | cons m ms ih =>
    cases cnames with
    | nil => simp [distribute_args, throw, throwThe, MonadExceptOf.throw] at h
    | cons c cs =>
      simp only [distribute_args, bind, Except.bind] at h
      split at h
      · simp at h
      · split at h
        · simp at h
        · rename_i peeled hpeel
          split at h
          · simp at h
          · rename_i new_minor hnm
            split at h
            · simp at h
            · rename_i rs1 hrs
              simp [pure, Except.pure] at h
              subst h
              have hnv := peel_minor_no_values _ _ _ _ peeled.1 peeled.2.1 peeled.2.2
                (by simp) hpeel
              have h1 : erased_form (erase_lambda_let_types
                  (mk_lambda peeled.2.1 (V.beta_reduce (mk_app new_minor args)))) = true := by
                apply erased_form_erase_lambda_let_types
                apply erased_form_mk_lambda
                · intro d hd v hv
                  rw [hnv d hd] at hv
                  cases hv
                · apply hβ
                  rw [erased_form_mk_app, hP _ _ _ hnm, hargs]
                  rfl
              simp only [List.all_cons, h1, ih cs rs1 hrs, Bool.and_self]

theorem erased_form_visit_minors (V : Visitor) (visit : LocalContext → Expr → Result Expr)
    (hβ : ∀ e, erased_form e = true → erased_form (V.beta_reduce e) = true)
    (hP : ReturnsErasedForm visit) (lctx : LocalContext) (nparams : Nat) (minors : List Expr)
    (cnames : List Name) (args : List Expr) (rs : List Expr)
    (h : visit_minors V visit lctx nparams minors cnames args = .ok rs) :
    rs.all erased_form = true := by
  unfold visit_minors at h
  split at h
  · simp only [bind, Except.bind] at h
    split at h
    · simp at h
    · rename_i args1 hargs
      exact erased_form_distribute_args V visit hβ hP lctx nparams args1
        (erased_form_visit_args visit hP lctx _ _ hargs) minors cnames rs h
  · exact erased_form_visit_args visit hP lctx minors rs h

theorem erased_form_visit_cases_on (V : Visitor) (visit : LocalContext → Expr → Result Expr)
    (hβ : ∀ e, erased_form e = true → erased_form (V.beta_reduce e) = true)
    (hP : ReturnsErasedForm visit) (lctx : LocalContext) (fn : Expr) (args : List Expr) (r : Expr)
    (h : visit_cases_on V visit lctx fn args = .ok r) : erased_form r = true := by
  simp only [visit_cases_on, bind, Except.bind] at h
  split at h
  · simp at h
  · split at h
    · simp [pure, Except.pure, mk_enf_unreachable] at h; subst h; rfl
    · split at h
      · simp at h
      · split at h
        · simp at h
        · split at h
          · simp at h
          · split at h
            · simp at h
            · split at h
              · simp at h
              · rename_i minors1 hminors
                split at h
                · simp at h
                · split at h
                  · simp at h
                  · rename_i major hmajor
                    split at h
                    · simp at h
                    · rename_i new_fn hfn
                      simp [pure, Except.pure] at h
                      subst h
                      rw [erased_form_mk_app, erased_form_mk_app, hP _ _ _ hfn,
                        erased_form_visit_minors V visit hβ hP _ _ _ _ _ _ hminors]
                      simp [hP _ _ _ hmajor]

theorem erased_form_visit_rec (V : Visitor) (visit : LocalContext → Expr → Result Expr)
    (hβ : ∀ e, erased_form e = true → erased_form (V.beta_reduce e) = true)
    (hP : ReturnsErasedForm visit) (lctx : LocalContext) (fn : Expr) (args : List Expr) (r : Expr)
    (h : visit_rec V visit lctx fn args = .ok r) : erased_form r = true := by
  simp only [visit_rec, bind, Except.bind] at h
  split at h
  · simp at h
  · split at h
    · simp [pure, Except.pure, mk_enf_unreachable] at h; subst h; rfl
    · split at h
      · simp at h
      · split at h
        · simp at h
        · split at h
          · simp at h
          · split at h
            · simp at h
            · split at h
              · simp at h
              · split at h
                · simp at h
                · split at h
                  · simp at h
                  · rename_i major hmajor
                    split at h
                    · simp at h
                    · rename_i minors1 hminors
                      simp [pure, Except.pure] at h
                      subst h
                      rw [erased_form_mk_app, erased_form_mk_app,
                        erased_form_visit_minors V visit hβ hP _ _ _ _ _ _ hminors]
                      simp [hP _ _ _ hmajor, erased_form, get_lc_unreachable_name, name1]

theorem erased_form_visit_eq_rec (V : Visitor) (visit : LocalContext → Expr → Result Expr)
    (hβ : ∀ e, erased_form e = true → erased_form (V.beta_reduce e) = true)
    (hP : ReturnsErasedForm visit) (lctx : LocalContext) (args : List Expr) (r : Expr)
    (h : visit_eq_rec V visit lctx args = .ok r) : erased_form r = true := by
  simp only [visit_eq_rec, bind, Except.bind] at h
  split at h
  · simp at h
  · split at h
    · simp at h
    · split at h
      · simp at h
      · rename_i major hmajor
        exact erased_form_add_args V visit hβ hP _ _ _ _ _ (hP _ _ _ hmajor) h

theorem erased_form_visit_subtype_mk (V : Visitor) (visit : LocalContext → Expr → Result Expr)
    (hβ : ∀ e, erased_form e = true → erased_form (V.beta_reduce e) = true)
    (hP : ReturnsErasedForm visit) (lctx : LocalContext) (args : List Expr) (r : Expr)
    (h : visit_subtype_mk V visit lctx args = .ok r) : erased_form r = true := by
  simp only [visit_subtype_mk, bind, Except.bind] at h
  split at h
  · simp at h
  · split at h
    · simp at h
    · split at h
      · simp at h
      · rename_i major hmajor
        exact erased_form_add_args V visit hβ hP _ _ _ _ _ (hP _ _ _ hmajor) h

theorem erased_form_visit_subtype_val (V : Visitor) (visit : LocalContext → Expr → Result Expr)
    (hβ : ∀ e, erased_form e = true → erased_form (V.beta_reduce e) = true)
    (hP : ReturnsErasedForm visit) (lctx : LocalContext) (args : List Expr) (r : Expr)
    (h : visit_subtype_val V visit lctx args = .ok r) : erased_form r = true := by
  simp only [visit_subtype_val, bind, Except.bind] at h
  split at h
  · simp at h
  · split at h
    · simp at h
    · split at h
      · simp at h
      · rename_i major hmajor
        exact erased_form_add_args V visit hβ hP _ _ _ _ _ (hP _ _ _ hmajor) h

theorem erased_form_visit_quot_mk (V : Visitor) (visit : LocalContext → Expr → Result Expr)
    (hβ : ∀ e, erased_form e = true → erased_form (V.beta_reduce e) = true)
    (hP : ReturnsErasedForm visit) (lctx : LocalContext) (args : List Expr) (r : Expr)
    (h : visit_quot_mk V visit lctx args = .ok r) : erased_form r = true := by
  simp only [visit_quot_mk, bind, Except.bind] at h
  split at h
  · simp at h
  · split at h
    · simp at h
    · split at h
      · simp at h
      · rename_i major hmajor
        exact erased_form_add_args V visit hβ hP _ _ _ _ _ (hP _ _ _ hmajor) h

theorem erased_form_visit_and_cases_on (V : Visitor) (visit : LocalContext → Expr → Result Expr)
    (hβ : ∀ e, erased_form e = true → erased_form (V.beta_reduce e) = true)
    (hP : ReturnsErasedForm visit) (lctx : LocalContext) (args : List Expr) (r : Expr)
    (h : visit_and_cases_on V visit lctx args = .ok r) : erased_form r = true := by
  simp only [visit_and_cases_on, bind, Except.bind] at h
  split at h
  · simp at h
  · split at h
    · simp at h
    · split at h
      · simp at h
      · rename_i minor hminor
        refine erased_form_add_args V visit hβ hP _ _ _ _ _ (hβ _ ?_) h
        simp [erased_form_mk_app, hP _ _ _ hminor, mk_enf_neutral, erased_form]

theorem erased_form_visit_and_rec (V : Visitor) (visit : LocalContext → Expr → Result Expr)
    (hβ : ∀ e, erased_form e = true → erased_form (V.beta_reduce e) = true)
    (hP : ReturnsErasedForm visit) (lctx : LocalContext) (args : List Expr) (r : Expr)
    (h : visit_and_rec V visit lctx args = .ok r) : erased_form r = true := by
  simp only [visit_and_rec, bind, Except.bind] at h
  split at h
  · simp at h
  · split at h
    · simp at h
    · split at h
      · simp at h
      · rename_i minor hminor
        refine erased_form_add_args V visit hβ hP _ _ _ _ _ (hβ _ ?_) h
        simp [erased_form_mk_app, hP _ _ _ hminor, mk_enf_neutral, erased_form]

theorem erased_form_visit_subtype_rec (V : Visitor) (visit : LocalContext → Expr → Result Expr)
    (hβ : ∀ e, erased_form e = true → erased_form (V.beta_reduce e) = true)
    (hP : ReturnsErasedForm visit) (lctx : LocalContext) (args : List Expr) (r : Expr)
    (h : visit_subtype_rec V visit lctx args = .ok r) : erased_form r = true := by
  simp only [visit_subtype_rec, bind, Except.bind] at h
  split at h
  · simp at h
  · split at h
    · simp at h
    · split at h
      · simp at h
      · rename_i minor hminor
        split at h
        · simp at h
        · split at h
          · simp at h
          · rename_i major hmajor
            refine erased_form_add_args V visit hβ hP _ _ _ _ _ ?_ h
            simp [erased_form_mk_app, hP _ _ _ hminor, hP _ _ _ hmajor, mk_enf_neutral, erased_form]

theorem erased_form_visit_acc_cases_on (V : Visitor) (visit : LocalContext → Expr → Result Expr)
    (hβ : ∀ e, erased_form e = true → erased_form (V.beta_reduce e) = true)
    (hP : ReturnsErasedForm visit) (lctx : LocalContext) (args : List Expr) (r : Expr)
    (h : visit_acc_cases_on V visit lctx args = .ok r) : erased_form r = true := by
  simp only [visit_acc_cases_on, bind, Except.bind] at h
  split at h
  · simp at h
  · split at h
    · simp at h
    · split at h
      · simp at h
      · rename_i a ha
        split at h
        · simp at h
        · split at h
          · simp at h
          · rename_i minor hminor
            refine erased_form_add_args V visit hβ hP _ _ _ _ _ (hβ _ ?_) h
            simp [erased_form_mk_app, hP _ _ _ hminor, hP _ _ _ ha, mk_enf_neutral, erased_form]

theorem erased_form_visit_quot_lift (V : Visitor) (visit : LocalContext → Expr → Result Expr)
    (hβ : ∀ e, erased_form e = true → erased_form (V.beta_reduce e) = true)
    (hP : ReturnsErasedForm visit) (lctx : LocalContext) (args : List Expr) (r : Expr)
    (h : visit_quot_lift V visit lctx args = .ok r) : erased_form r = true := by
  simp only [visit_quot_lift, bind, Except.bind] at h
  split at h
  · simp at h
  · split at h
    · simp at h
    · split at h
      · simp at h
      · rename_i f hf
        split at h
        · simp at h
        · split at h
          · simp at h
          · rename_i q hq
            refine erased_form_add_args V visit hβ hP _ _ _ _ _ (hβ _ ?_) h
            simp [erased_form_mk_app, hP _ _ _ hf, hP _ _ _ hq]

theorem erased_form_visit_no_confusion (V : Visitor) (visit : LocalContext → Expr → Result Expr)
    (hβ : ∀ e, erased_form e = true → erased_form (V.beta_reduce e) = true)
    (hP : ReturnsErasedForm visit) (lctx : LocalContext) (fn : Expr) (args : List Expr) (r : Expr)
    (h : visit_no_confusion V visit lctx fn args = .ok r) : erased_form r = true := by
  simp only [visit_no_confusion, bind, Except.bind] at h
  repeat' (split at h)
  all_goals first
    | (simp [throw, throwThe, MonadExceptOf.throw] at h)
    | (simp [pure, Except.pure, mk_enf_unreachable] at h; subst h; rfl)
    | skip
  rename_i peeled hpeel _ major2 hmajor2
  have hnv := consume_lambdas_loop_no_values V _ _ _ _ peeled.1 peeled.2.1 peeled.2.2
    (by simp) hpeel
  refine erased_form_add_args V visit hβ hP _ _ _ _ _ ?_ h
  apply erased_form_add_dummy_proofs
  apply erased_form_erase_lambda_let_types
  apply erased_form_mk_lambda
  · intro d hd v hv
    rw [hnv d hd] at hv
    cases hv
  · exact hP _ _ _ hmajor2

theorem erased_form_visit_lambda_let_loop (visit : LocalContext → Expr → Result Expr)
    (hP : ReturnsErasedForm visit) (t : Expr) (lctx : LocalContext) (locals : List LocalDecl)
    (r : Expr) (hl : ∀ d ∈ locals, ∀ v, d.value = some v → erased_form v = true)
    (h : visit_lambda_let_loop visit lctx locals t = .ok r) : chain_erased_form r = true := by
  induction t generalizing lctx locals with
  | lam n d b _ ihb =>
    simp only [visit_lambda_let_loop] at h
    refine ihb _ _ ?_ h
    intro d' hd' v hv
    rcases List.mem_append.mp hd' with h1 | h1
    · exact hl d' h1 v hv
    · simp [LocalContext.push] at h1
      subst h1
      simp at hv
  | elet n t v b _ _ ihb =>
    simp only [visit_lambda_let_loop] at h
    split at h
    · simp at h
    · rename_i v1 hv1
      refine ihb _ _ ?_ h
      intro d' hd' v hv
      rcases List.mem_append.mp hd' with h1 | h1
      · exact hl d' h1 v hv
      · simp [LocalContext.push] at h1
        subst h1
        simp at hv
        subst hv
        exact hP _ _ _ hv1
  | _ =>
    simp only [visit_lambda_let_loop] at h
    split at h
    · simp at h
    · rename_i t1 ht1
      simp [pure, Except.pure] at h
      subst h
      exact erased_form_mk_lambda locals t1 hl (hP _ _ _ ht1)

theorem erased_form_visit_lambda (visit : LocalContext → Expr → Result Expr)
    (hP : ReturnsErasedForm visit) (lctx : LocalContext) (e r : Expr)
    (h : visit_lambda visit lctx e = .ok r) : erased_form r = true := by
  simp only [visit_lambda, compiler_step_visitor_visit_lambda_let, bind, Except.bind] at h
  split at h
  · simp at h
  · rename_i r1 hr1
    simp [pure, Except.pure] at h
    subst h
    exact erased_form_erase_lambda_let_types _
      (erased_form_visit_lambda_let_loop visit hP e lctx [] r1 (by simp) hr1)

theorem erased_form_visit_let (visit : LocalContext → Expr → Result Expr)
    (hP : ReturnsErasedForm visit) (lctx : LocalContext) (e r : Expr)
    (h : visit_let visit lctx e = .ok r) : erased_form r = true := by
  simp only [visit_let, compiler_step_visitor_visit_lambda_let, bind, Except.bind] at h
  split at h
  · simp at h
  · rename_i r1 hr1
    simp [pure, Except.pure] at h
    subst h
    exact erased_form_erase_lambda_let_types _
      (erased_form_visit_lambda_let_loop visit hP e lctx [] r1 (by simp) hr1)

theorem erased_form_generic_visit_app (visit : LocalContext → Expr → Result Expr)
    (hP : ReturnsErasedForm visit) (lctx : LocalContext) (e r : Expr)
    (h : compiler_step_visitor_visit_app visit lctx e = .ok r) : erased_form r = true := by
  simp only [compiler_step_visitor_visit_app, bind, Except.bind] at h
  split at h
  · simp at h
  · rename_i new_fn hfn
    split at h
    · simp at h
    · rename_i new_args hargs
      simp [pure, Except.pure] at h
      subst h
      rw [erased_form_mk_app, hP _ _ _ hfn, erased_form_visit_args visit hP lctx _ _ hargs]
      rfl

theorem erased_form_visit_app_const (V : Visitor) (visit : LocalContext → Expr → Result Expr)
    (hβ : ∀ e, erased_form e = true → erased_form (V.beta_reduce e) = true)
    (hP : ReturnsErasedForm visit) (lctx : LocalContext) (e fn : Expr) (args : List Expr)
    (n : Name) (r : Expr)
    (h : visit_app_const V visit lctx e fn args n = .ok r) : erased_form r = true := by
  unfold visit_app_const at h
  by_cases h1 : n = get_eq_rec_name
  · rw [if_pos h1] at h
    exact erased_form_visit_eq_rec V visit hβ hP _ _ _ h
  rw [if_neg h1] at h
  by_cases h2 : n = get_acc_cases_on_name
  · rw [if_pos h2] at h
    exact erased_form_visit_acc_cases_on V visit hβ hP _ _ _ h
  rw [if_neg h2] at h
  by_cases h3 : n = get_and_cases_on_name
  · rw [if_pos h3] at h
    exact erased_form_visit_and_cases_on V visit hβ hP _ _ _ h
  rw [if_neg h3] at h
  by_cases h4 : n = get_and_rec_name
  · rw [if_pos h4] at h
    exact erased_form_visit_and_rec V visit hβ hP _ _ _ h
  rw [if_neg h4] at h
  by_cases h5 : n = get_quot_lift_name
  · rw [if_pos h5] at h
    exact erased_form_visit_quot_lift V visit hβ hP _ _ _ h
  rw [if_neg h5] at h
  by_cases h6 : n = get_quot_mk_name
  · rw [if_pos h6] at h
    exact erased_form_visit_quot_mk V visit hβ hP _ _ _ h
  rw [if_neg h6] at h
  by_cases h7 : n = get_subtype_rec_name
  · rw [if_pos h7] at h
    exact erased_form_visit_subtype_rec V visit hβ hP _ _ _ h
  rw [if_neg h7] at h
  by_cases h8 : V.env.is_cases_on_recursor n = true
  · rw [if_pos h8] at h
    exact erased_form_visit_cases_on V visit hβ hP _ _ _ _ h
  rw [if_neg h8] at h
  by_cases h9 : V.env.is_recursor n = true
  · rw [if_pos h9] at h
    exact erased_form_visit_rec V visit hβ hP _ _ _ _ h
  rw [if_neg h9] at h
  by_cases h10 : V.env.is_no_confusion n = true
  · rw [if_pos h10] at h
    exact erased_form_visit_no_confusion V visit hβ hP _ _ _ _ h
  rw [if_neg h10] at h
  by_cases h11 : n = get_subtype_mk_name
  · rw [if_pos h11] at h
    exact erased_form_visit_subtype_mk V visit hβ hP _ _ _ h
  rw [if_neg h11] at h
  by_cases h12 : n = get_subtype_val_name
  · rw [if_pos h12] at h
    exact erased_form_visit_subtype_val V visit hβ hP _ _ _ h
  rw [if_neg h12] at h
  by_cases h13 : n = get_lc_unreachable_name
  · rw [if_pos h13] at h
    simp [pure, Except.pure, mk_enf_unreachable] at h; subst h; rfl
  rw [if_neg h13] at h
  exact erased_form_generic_visit_app visit hP _ _ _ h

theorem erased_form_visit_app (V : Visitor) (visit : LocalContext → Expr → Result Expr)
    (hβ : ∀ e, erased_form e = true → erased_form (V.beta_reduce e) = true)
    (hP : ReturnsErasedForm visit) (lctx : LocalContext) (e r : Expr)
    (h : visit_app V visit lctx e = .ok r) : erased_form r = true := by
  unfold visit_app at h
  split at h
  · simp [pure, Except.pure, mk_enf_neutral] at h; subst h; rfl
  · split at h
    · simp [pure, Except.pure] at h; subst h; rfl
    · simp only at h
      split at h
      · exact hP _ _ _ h
      · split at h
        · exact erased_form_visit_app_const V visit hβ hP _ _ _ _ _ _ h
        · exact erased_form_generic_visit_app visit hP _ _ _ h

theorem erased_form_visit_core (V : Visitor) (visit : LocalContext → Expr → Result Expr)
    (hβ : ∀ e, erased_form e = true → erased_form (V.beta_reduce e) = true)
    (hP : ReturnsErasedForm visit) (lctx : LocalContext) (e r : Expr)
    (h : visit_core V visit lctx e = .ok r) : erased_form r = true := by
  cases e with
  | sort l => simp [visit_core, visit_sort, pure, Except.pure, mk_enf_neutral] at h; subst h; rfl
  | pi n d b => simp [visit_core, visit_pi, pure, Except.pure, mk_enf_neutral] at h; subst h; rfl
  | mdata m e =>
    simp only [visit_core, visit_mdata] at h
    split at h
    · simp [pure, Except.pure, mk_enf_neutral] at h; subst h; rfl
    · split at h
      · simp [pure, Except.pure, mk_enf_neutral] at h; subst h; rfl
      · simp only [mdata_expr, bind, Except.bind, pure, Except.pure] at h
        exact hP _ _ _ h
  | loc i =>
    simp only [visit_core, visit_local] at h
    split at h
    · simp [pure, Except.pure, mk_enf_neutral] at h; subst h; rfl
    · simp [pure, Except.pure] at h; subst h; rfl
  | const n ls =>
    simp only [visit_core, visit_constant] at h
    split at h
    · simp [pure, Except.pure, mk_enf_neutral] at h; subst h; rfl
    · simp only [const_name, bind, Except.bind, pure, Except.pure] at h
      split at h
      · simp [mk_enf_unreachable] at h; subst h; rfl
      · rename_i hne
        simp at h
        subst h
        simp [erased_form, hne]
  | lam n d b => exact erased_form_visit_lambda visit hP lctx _ r h
  | elet n t v b => exact erased_form_visit_let visit hP lctx _ r h
  | app f a => exact erased_form_visit_app V visit hβ hP lctx _ r h
  | bvar i => simp [visit_core, pure, Except.pure] at h; subst h; rfl
  | lit n => simp [visit_core, pure, Except.pure] at h; subst h; rfl
  | neutral => simp [visit_core, pure, Except.pure] at h; subst h; rfl
  | unreachable => simp [visit_core, pure, Except.pure] at h; subst h; rfl

theorem visit_returns_erased_form (V : Visitor)
    (hβ : ∀ e, erased_form e = true → erased_form (V.beta_reduce e) = true) (fuel : Nat) :
    ReturnsErasedForm (visit V fuel) := by
  induction fuel with
  | zero =>
    intro lctx e r h
    simp [visit, throw, throwThe, MonadExceptOf.throw] at h
  | succ fuel ih =>
    intro lctx e r h
    exact erased_form_visit_core V (visit V fuel) hβ ih lctx e r h

theorem has_loose_bvars_at_mono (e : Expr) (k k1 : Nat) (hk : k ≤ k1)
    (h : has_loose_bvars_at e k = false) : has_loose_bvars_at e k1 = false := by
  induction e generalizing k k1 with
  | bvar i =>
    simp only [has_loose_bvars_at, decide_eq_false_iff_not, Nat.not_le] at h ⊢
    omega
  | app f a ihf iha =>
    simp only [has_loose_bvars_at, Bool.or_eq_false_iff] at h ⊢
    exact ⟨ihf k k1 hk h.1, iha k k1 hk h.2⟩
  | lam n t b iht ihb =>
    simp only [has_loose_bvars_at, Bool.or_eq_false_iff] at h ⊢
    exact ⟨iht k k1 hk h.1, ihb (k + 1) (k1 + 1) (by omega) h.2⟩
  | pi n t b iht ihb =>
    simp only [has_loose_bvars_at, Bool.or_eq_false_iff] at h ⊢
    exact ⟨iht k k1 hk h.1, ihb (k + 1) (k1 + 1) (by omega) h.2⟩
  | elet n t v b iht ihv ihb =>
    simp only [has_loose_bvars_at, Bool.or_eq_false_iff] at h ⊢
    exact ⟨⟨iht k k1 hk h.1.1, ihv k k1 hk h.1.2⟩, ihb (k + 1) (k1 + 1) (by omega) h.2⟩
  | mdata m e ih =>
    simp only [has_loose_bvars_at] at h ⊢
    exact ih k k1 hk h
  | _ => rfl

theorem lift_of_closed (e : Expr) (s d : Nat) (h : has_loose_bvars_at e s = false) :
    lift_loose_bvars e s d = e := by
  induction e generalizing s with
  | bvar i =>
    simp only [has_loose_bvars_at, decide_eq_false_iff_not, Nat.not_le] at h
    simp [lift_loose_bvars, h]
  | app f a ihf iha =>
    simp only [has_loose_bvars_at, Bool.or_eq_false_iff] at h
    simp [lift_loose_bvars, ihf s h.1, iha s h.2]
  | lam n t b iht ihb =>
    simp only [has_loose_bvars_at, Bool.or_eq_false_iff] at h
    simp [lift_loose_bvars, iht s h.1, ihb (s + 1) h.2]
  | pi n t b iht ihb =>
    simp only [has_loose_bvars_at, Bool.or_eq_false_iff] at h
    simp [lift_loose_bvars, iht s h.1, ihb (s + 1) h.2]
  | elet n t v b iht ihv ihb =>
    simp only [has_loose_bvars_at, Bool.or_eq_false_iff] at h
    simp [lift_loose_bvars, iht s h.1.1, ihv s h.1.2, ihb (s + 1) h.2]
  | mdata m e ih =>
    simp only [has_loose_bvars_at] at h
    simp [lift_loose_bvars, ih s h]
  | _ => simp [lift_loose_bvars]

theorem instantiate_at_of_closed (e : Expr) (k : Nat) (s : Expr)
    (h : has_loose_bvars_at e k = false) : instantiate_at e k s = e := by
  induction e generalizing k with
  | bvar i =>
    simp only [has_loose_bvars_at, decide_eq_false_iff_not, Nat.not_le] at h
    simp [instantiate_at, h]
  | app f a ihf iha =>
    simp only [has_loose_bvars_at, Bool.or_eq_false_iff] at h
    simp [instantiate_at, ihf k h.1, iha k h.2]
  | lam n t b iht ihb =>
    simp only [has_loose_bvars_at, Bool.or_eq_false_iff] at h
    simp [instantiate_at, iht k h.1, ihb (k + 1) h.2]
  | pi n t b iht ihb =>
    simp only [has_loose_bvars_at, Bool.or_eq_false_iff] at h
    simp [instantiate_at, iht k h.1, ihb (k + 1) h.2]
  | elet n t v b iht ihv ihb =>
    simp only [has_loose_bvars_at, Bool.or_eq_false_iff] at h
    simp [instantiate_at, iht k h.1.1, ihv k h.1.2, ihb (k + 1) h.2]
  | mdata m e ih =>
    simp only [has_loose_bvars_at] at h
    simp [instantiate_at, ih k h]
  | _ => simp [instantiate_at]

theorem closed_type_loose (t : Expr) (k : Nat) (h : closed_type t = true) :
    has_loose_bvars_at t k = false := by
  simp only [closed_type, has_loose_bvars, Bool.and_eq_true, Bool.not_eq_true'] at h
  exact has_loose_bvars_at_mono t 0 k (Nat.zero_le _) h.1

theorem erased_form_lift (e : Expr) (s d : Nat) (h : erased_form e = true) :
    erased_form (lift_loose_bvars e s d) = true := by
  induction e generalizing s with
  | bvar i =>
    simp only [lift_loose_bvars]
    split <;> rfl
  | app f a ihf iha =>
    simp only [erased_form, Bool.and_eq_true] at h
    simp [lift_loose_bvars, erased_form, ihf s h.1, iha s h.2]
  | lam n t b _ ihb =>
    simp only [erased_form, Bool.and_eq_true] at h
    simp [lift_loose_bvars, erased_form, lift_of_closed t s d (closed_type_loose t s h.1), h.1,
      ihb (s + 1) h.2]
  | elet n t v b _ ihv ihb =>
    simp only [erased_form, Bool.and_eq_true] at h
    simp [lift_loose_bvars, erased_form, lift_of_closed t s d (closed_type_loose t s h.1.1),
      h.1.1, ihv s h.1.2, ihb (s + 1) h.2]
  | _ => simpa [lift_loose_bvars] using h

theorem erased_form_instantiate_at (b : Expr) (k : Nat) (s : Expr) (hb : erased_form b = true)
    (hs : erased_form s = true) : erased_form (instantiate_at b k s) = true := by
  induction b generalizing k with
  | bvar i =>
    simp only [instantiate_at]
    split
    · rfl
    · split
      · exact erased_form_lift s 0 k hs
      · rfl
  | app f a ihf iha =>
    simp only [erased_form, Bool.and_eq_true] at hb
    simp [instantiate_at, erased_form, ihf k hb.1, iha k hb.2]
  | lam n t b _ ihb =>
    simp only [erased_form, Bool.and_eq_true] at hb
    simp [instantiate_at, erased_form,
      instantiate_at_of_closed t k s (closed_type_loose t k hb.1), hb.1, ihb (k + 1) hb.2]
  | elet n t v b _ ihv ihb =>
    simp only [erased_form, Bool.and_eq_true] at hb
    simp [instantiate_at, erased_form,
      instantiate_at_of_closed t k s (closed_type_loose t k hb.1.1), hb.1.1, ihv k hb.1.2,
      ihb (k + 1) hb.2]
  | _ => simpa [instantiate_at] using hb

theorem erased_form_beta_pass (e : Expr) (h : erased_form e = true) :
    erased_form (beta_pass e) = true := by
  induction e with
  | app f a ihf iha =>
    simp only [erased_form, Bool.and_eq_true] at h
    have hf := ihf h.1
    have ha := iha h.2
    simp only [beta_pass]
    split
    · rename_i n t b hfb
      rw [hfb] at hf
      simp only [erased_form, Bool.and_eq_true] at hf
      exact erased_form_instantiate_at b 0 _ hf.2 ha
    · simp [erased_form, hf, ha]
  | lam n t b _ ihb =>
    simp only [erased_form, Bool.and_eq_true] at h
    simp [beta_pass, erased_form, h.1, ihb h.2]
  | elet n t v b _ ihv ihb =>
    simp only [erased_form, Bool.and_eq_true] at h
    simp [beta_pass, erased_form, h.1.1, ihv h.1.2, ihb h.2]
  | mdata m e ih => simp [erased_form] at h
  | pi n t b _ _ => simp [erased_form] at h
  | _ => simpa [beta_pass] using h

theorem erased_form_beta_passes (n : Nat) (e : Expr) (h : erased_form e = true) :
    erased_form (beta_passes n e) = true := by
  induction n generalizing e with
  | zero => simpa [beta_passes] using h
  | succ n ih => exact ih _ (erased_form_beta_pass e h)

theorem erased_form_instantiate_rev (t : Expr) (ids : List Nat) (h : erased_form t = true) :
    erased_form (instantiate_rev t (ids.map Expr.loc)) = true := by
  induction ids with
  | nil => simpa [instantiate_rev] using h
  | cons i rest ih =>
    simp only [instantiate_rev, List.map_cons, List.foldr_cons] at ih ⊢
    exact erased_form_instantiate_at _ 0 _ ih (by rfl)

theorem erased_form_inst (locals : List LocalDecl) (t : Expr) (h : erased_form t = true) :
    erased_form (instantiate_rev t (locals.map fun l => Expr.loc l.id)) = true := by
  rw [locs_eq]
  exact erased_form_instantiate_rev t _ h

theorem erased_form_app_parts (e : Expr) (h : erased_form e = true) :
    erased_form (get_app_fn e) = true ∧ ∀ x ∈ get_app_args e, erased_form x = true := by
  have h1 := mk_app_get_app e
  rw [← h1, erased_form_mk_app, Bool.and_eq_true] at h
  exact ⟨h.1, fun x hx => List.all_eq_true.mp h.2 x hx⟩

theorem when_relevant_fixed (e : Expr) (h : erased_form e = true) :
    erase_lambda_let_types_when_relevant e = e := by
  induction e with
  | lam n d b _ ihb =>
    simp only [erased_form, Bool.and_eq_true] at h
    simp [erase_lambda_let_types_when_relevant, erase_type_of_closed d h.1, ihb h.2]
  | elet n t v b _ _ ihb =>
    simp only [erased_form, Bool.and_eq_true] at h
    simp [erase_lambda_let_types_when_relevant, erase_type_of_closed t h.1.1, ihb h.2]
  | _ => simp [erase_lambda_let_types_when_relevant]

theorem generic_head_of_erased (V : Visitor) (fn : Expr)
    (hd : dispatched_head V fn = false) (hf : erased_form fn = true) :
    generic_head V fn = true := by
  cases fn with
  | lam n d b => simp [dispatched_head] at hd
  | const n ls =>
    simp only [erased_form, Bool.and_eq_true, decide_eq_true_eq] at hf
    simp only [dispatched_head, Bool.or_eq_false_iff, decide_eq_false_iff_not] at hd
    simp only [generic_head, Bool.and_eq_true, decide_eq_true_eq, Bool.not_eq_true']
    obtain ⟨⟨⟨⟨⟨⟨⟨⟨⟨⟨⟨h1, h2⟩, h3⟩, h4⟩, h5⟩, h6⟩, h7⟩, h8⟩, h9⟩, h10⟩, h11⟩, h12⟩ := hd
    exact ⟨⟨⟨⟨⟨⟨⟨⟨⟨⟨⟨⟨h1, h2⟩, h3⟩, h4⟩, h5⟩, h6⟩, h7⟩, h8⟩, h9⟩, h10⟩, h11⟩, h12⟩, hf.2⟩
  | _ => rfl

theorem quiet_stable (V : Visitor) (lctx : LocalContext) (locals : List LocalDecl) (t : Expr)
    (hq : Quiet V lctx locals t) : erased_form t = true → Stable V lctx locals t := by
  induction hq with
  | lit lctx n => intro _; exact Stable.lit lctx n
  | neutral lctx => intro _; exact Stable.neutral lctx
  | unreachable lctx => intro _; exact Stable.unreachable lctx
  | sort lctx l => intro h; simp [erased_form] at h
  | pi lctx n d b => intro h; simp [erased_form] at h
  | mdata lctx m e => intro h; simp [erased_form] at h
  | loc lctx i hirr => intro _; exact Stable.loc lctx i hirr
  | const lctx n ls hirr =>
    intro h
    simp only [erased_form, Bool.and_eq_true, decide_eq_true_eq] at h
    obtain ⟨h1, h2⟩ := h
    subst h1
    exact Stable.const lctx n hirr h2
  | app lctx f a hirr hnat hhead _ _ ihfn ihargs =>
    intro h
    obtain ⟨h1, h2⟩ := erased_form_app_parts _ h
    exact Stable.app lctx f a hirr hnat (generic_head_of_erased V _ hhead h1) (ihfn h1)
      (fun x hx => ihargs x hx (h2 x hx))
  | lam lctx locals n d b hcol _ ihb =>
    intro h
    have hb : erased_form b = true := by
      simp only [erased_form, Bool.and_eq_true] at h
      exact h.2
    refine Stable.lam lctx locals n d b ?_ (ihb hb)
    intro hnil
    unfold erase_lambda_let_types
    split
    · rename_i hi
      exact hcol hnil hi
    · exact when_relevant_fixed _ h
  | elet lctx locals n t v b hcol _ _ ihv ihb =>
    intro h
    have h3 : erased_form v = true ∧ erased_form b = true := by
      simp only [erased_form, Bool.and_eq_true] at h
      exact ⟨h.1.2, h.2⟩
    refine Stable.elet lctx locals n t v b ?_ (ihv (erased_form_inst locals v h3.1)) (ihb h3.2)
    intro hnil
    unfold erase_lambda_let_types
    rw [hcol hnil]
    exact when_relevant_fixed _ h
  | body lctx locals t hlam hlet hne _ iht =>
    intro h
    exact Stable.body lctx locals t hlam hlet hne (iht (erased_form_inst locals t h))

theorem closed_mk_app (f : Expr) (as : List Expr) (k : Nat)
    (hf : has_loose_bvars_at f k = false) (has : ∀ a ∈ as, has_loose_bvars_at a k = false) :
    has_loose_bvars_at (mk_app f as) k = false := by
  induction as generalizing f with
  | nil => simpa [mk_app] using hf
  | cons a as ih =>
    have h := ih (Expr.app f a)
      (by simp [has_loose_bvars_at, hf, has a (List.mem_cons_self _ _)])
      (fun x hx => has x (List.mem_cons_of_mem _ hx))
    simpa [mk_app] using h

theorem local_index_lt (ids : List Nat) (i j : Nat) (h : local_index ids i = some j) :
    j < ids.length := by
  induction ids generalizing j with
  | nil => simp [local_index] at h
  | cons x xs ih =>
    simp only [local_index] at h
    split at h
    · simp at h
      subst h
      simp
    · cases h1 : local_index xs i with
      | none => simp [h1] at h
      | some j1 =>
        simp [h1] at h
        subst h
        have := ih j1 h1
        simp
        omega

theorem loose_abstract (x : Expr) (k : Nat) (ids : List Nat)
    (h : has_loose_bvars_at x k = false) :
    has_loose_bvars_at (abstract_locals_at x k ids) (k + ids.length) = false := by
  induction x generalizing k with
  | bvar i =>
    simp only [has_loose_bvars_at, decide_eq_false_iff_not, Nat.not_le] at h
    simp only [abstract_locals_at, has_loose_bvars_at, decide_eq_false_iff_not, Nat.not_le]
    omega
  | loc i =>
    simp only [abstract_locals_at]
    cases h1 : local_index ids i with
    | none => rfl
    | some j =>
      have := local_index_lt ids i j h1
      simp only [has_loose_bvars_at, decide_eq_false_iff_not, Nat.not_le]
      omega
  | app f a ihf iha =>
    simp only [has_loose_bvars_at, Bool.or_eq_false_iff] at h
    simp [abstract_locals_at, has_loose_bvars_at, ihf k h.1, iha k h.2]
  | lam n t b iht ihb =>
    simp only [has_loose_bvars_at, Bool.or_eq_false_iff] at h
    have h2 := ihb (k + 1) h.2
    have e : k + 1 + ids.length = k + ids.length + 1 := by omega
    rw [e] at h2
    simp [abstract_locals_at, has_loose_bvars_at, iht k h.1, h2]
  | pi n t b iht ihb =>
    simp only [has_loose_bvars_at, Bool.or_eq_false_iff] at h
    have h2 := ihb (k + 1) h.2
    have e : k + 1 + ids.length = k + ids.length + 1 := by omega
    rw [e] at h2
    simp [abstract_locals_at, has_loose_bvars_at, iht k h.1, h2]
  | elet n t v b iht ihv ihb =>
    simp only [has_loose_bvars_at, Bool.or_eq_false_iff] at h
    have h2 := ihb (k + 1) h.2
    have e : k + 1 + ids.length = k + ids.length + 1 := by omega
    rw [e] at h2
    simp [abstract_locals_at, has_loose_bvars_at, iht k h.1.1, ihv k h.1.2, h2]
  | mdata m e ih =>
    simp only [has_loose_bvars_at] at h
    simp [abstract_locals_at, has_loose_bvars_at, ih k h]
  | _ => simp [abstract_locals_at, has_loose_bvars_at]

theorem closed_mk_lambda_core (rev : List LocalDecl) (r : Expr)
    (ht : ∀ d ∈ rev, has_loose_bvars_at d.type 0 = false)
    (hv : ∀ d ∈ rev, ∀ v, d.value = some v → has_loose_bvars_at v 0 = false)
    (hr : has_loose_bvars_at r rev.length = false) :
    has_loose_bvars_at (mk_lambda_core rev r) 0 = false := by
  induction rev generalizing r with
  | nil => simpa [mk_lambda_core] using hr
  | cons d rev ih =>
    have ht' : ∀ d' ∈ rev, has_loose_bvars_at d'.type 0 = false :=
      fun d' hd' => ht d' (List.mem_cons_of_mem _ hd')
    have hv' : ∀ d' ∈ rev, ∀ v, d'.value = some v → has_loose_bvars_at v 0 = false :=
      fun d' hd' => hv d' (List.mem_cons_of_mem _ hd')
    have hty := loose_abstract d.type 0 (rev.map LocalDecl.id) (ht d (List.mem_cons_self _ _))
    simp only [Nat.zero_add, List.length_map] at hty
    simp only [List.length_cons] at hr
    simp only [mk_lambda_core]
    cases hval : d.value with
    | none =>
      exact ih _ ht' hv' (by simp [has_loose_bvars_at, hty, hr])
    | some v =>
      have hcv := loose_abstract v 0 (rev.map LocalDecl.id)
        (hv d (List.mem_cons_self _ _) v hval)
      simp only [Nat.zero_add, List.length_map] at hcv
      exact ih _ ht' hv' (by simp [has_loose_bvars_at, hty, hcv, hr])

theorem closed_mk_lambda (locals : List LocalDecl) (e : Expr)
    (ht : ∀ d ∈ locals, has_loose_bvars_at d.type 0 = false)
    (hv : ∀ d ∈ locals, ∀ v, d.value = some v → has_loose_bvars_at v 0 = false)
    (he : has_loose_bvars_at e 0 = false) :
    has_loose_bvars_at (mk_lambda locals e) 0 = false := by
  unfold mk_lambda
  apply closed_mk_lambda_core
  · intro d hd
    exact ht d (List.mem_reverse.mp hd)
  · intro d hd
    exact hv d (List.mem_reverse.mp hd)
  · have h := loose_abstract e 0 (locals.reverse.map LocalDecl.id) he
    simpa [abstract_locals] using h

theorem loose_erase_type (t : Expr) (k : Nat) : has_loose_bvars_at (erase_type t) k = false :=
  closed_type_loose _ k (closed_type_erase_type t)

theorem loose_when_relevant (e : Expr) (k : Nat) (h : has_loose_bvars_at e k = false) :
    has_loose_bvars_at (erase_lambda_let_types_when_relevant e) k = false := by
  induction e generalizing k with
  | lam n d b _ ihb =>
    simp only [has_loose_bvars_at, Bool.or_eq_false_iff] at h
    simp [erase_lambda_let_types_when_relevant, has_loose_bvars_at, loose_erase_type,
      ihb (k + 1) h.2]
  | elet n t v b _ _ ihb =>
    simp only [has_loose_bvars_at, Bool.or_eq_false_iff] at h
    simp [erase_lambda_let_types_when_relevant, has_loose_bvars_at, loose_erase_type, h.1.2,
      ihb (k + 1) h.2]
  | _ => simpa [erase_lambda_let_types_when_relevant] using h

theorem loose_when_irrelevant (e : Expr) (h : is_irrelevant_lambda_let_body e = true)
    (k : Nat) : has_loose_bvars_at (erase_lambda_let_types_when_irrelevant e) k = false := by
  rw [when_irrelevant_eq_neutral_lambdas e h]
  exact neutral_lambdas_no_loose_bvars _ k

theorem loose_erase_lambda_let_types (e : Expr) (k : Nat)
    (h : has_loose_bvars_at e k = false) :
    has_loose_bvars_at (erase_lambda_let_types e) k = false := by
  unfold erase_lambda_let_types
  split
  · rename_i hi
    exact loose_when_irrelevant e hi k
  · exact loose_when_relevant e k h

theorem loose_lift (s : Expr) (c j m : Nat) (hc : c ≤ m)
    (h : has_loose_bvars_at s m = false) :
    has_loose_bvars_at (lift_loose_bvars s c j) (m + j) = false := by
  induction s generalizing c m with
  | bvar i =>
    simp only [has_loose_bvars_at, decide_eq_false_iff_not, Nat.not_le] at h
    simp only [lift_loose_bvars]
    split <;> simp only [has_loose_bvars_at, decide_eq_false_iff_not, Nat.not_le] <;> omega
  | app f a ihf iha =>
    simp only [has_loose_bvars_at, Bool.or_eq_false_iff] at h
    simp [lift_loose_bvars, has_loose_bvars_at, ihf c m hc h.1, iha c m hc h.2]
  | lam n t b iht ihb =>
    simp only [has_loose_bvars_at, Bool.or_eq_false_iff] at h
    have h2 := ihb (c + 1) (m + 1) (by omega) h.2
    have e : m + 1 + j = m + j + 1 := by omega
    rw [e] at h2
    simp [lift_loose_bvars, has_loose_bvars_at, iht c m hc h.1, h2]
  | pi n t b iht ihb =>
    simp only [has_loose_bvars_at, Bool.or_eq_false_iff] at h
    have h2 := ihb (c + 1) (m + 1) (by omega) h.2
    have e : m + 1 + j = m + j + 1 := by omega
    rw [e] at h2
    simp [lift_loose_bvars, has_loose_bvars_at, iht c m hc h.1, h2]
  | elet n t v b iht ihv ihb =>
    simp only [has_loose_bvars_at, Bool.or_eq_false_iff] at h
    have h2 := ihb (c + 1) (m + 1) (by omega) h.2
    have e : m + 1 + j = m + j + 1 := by omega
    rw [e] at h2
    simp [lift_loose_bvars, has_loose_bvars_at, iht c m hc h.1.1, ihv c m hc h.1.2, h2]
  | mdata x e ih =>
    simp only [has_loose_bvars_at] at h
    simp [lift_loose_bvars, has_loose_bvars_at, ih c m hc h]
  | _ => simp [lift_loose_bvars, has_loose_bvars_at]

theorem loose_instantiate_at (b : Expr) (j k : Nat) (s : Expr) (hj : j ≤ k)
    (hb : has_loose_bvars_at b (k + 1) = false) (hs : has_loose_bvars_at s (k - j) = false) :
    has_loose_bvars_at (instantiate_at b j s) k = false := by
  induction b generalizing j k with
  | bvar i =>
    simp only [has_loose_bvars_at, decide_eq_false_iff_not, Nat.not_le] at hb
    simp only [instantiate_at]
    split
    · simp only [has_loose_bvars_at, decide_eq_false_iff_not, Nat.not_le]; omega
    · split
      · have h := loose_lift s 0 j (k - j) (Nat.zero_le _) hs
        have e : k - j + j = k := by omega
        rw [e] at h
        exact h
      · simp only [has_loose_bvars_at, decide_eq_false_iff_not, Nat.not_le]; omega
  | app f a ihf iha =>
    simp only [has_loose_bvars_at, Bool.or_eq_false_iff] at hb
    simp [instantiate_at, has_loose_bvars_at, ihf j k hj hb.1 hs, iha j k hj hb.2 hs]
  | lam n t x iht ihx =>
    simp only [has_loose_bvars_at, Bool.or_eq_false_iff] at hb
    have h2 := ihx (j + 1) (k + 1) (by omega) hb.2 (by simpa using hs)
    simp [instantiate_at, has_loose_bvars_at, iht j k hj hb.1 hs, h2]
  | pi n t x iht ihx =>
    simp only [has_loose_bvars_at, Bool.or_eq_false_iff] at hb
    have h2 := ihx (j + 1) (k + 1) (by omega) hb.2 (by simpa using hs)
    simp [instantiate_at, has_loose_bvars_at, iht j k hj hb.1 hs, h2]
  | elet n t v x iht ihv ihx =>
    simp only [has_loose_bvars_at, Bool.or_eq_false_iff] at hb
    have h2 := ihx (j + 1) (k + 1) (by omega) hb.2 (by simpa using hs)
    simp [instantiate_at, has_loose_bvars_at, iht j k hj hb.1.1 hs, ihv j k hj hb.1.2 hs, h2]
  | mdata m e ih =>
    simp only [has_loose_bvars_at] at hb
    simp [instantiate_at, has_loose_bvars_at, ih j k hj hb hs]
  | _ => simp [instantiate_at, has_loose_bvars_at]

theorem closed_instantiate (b s : Expr) (hb : has_loose_bvars_at b 1 = false)
    (hs : has_loose_bvars_at s 0 = false) : has_loose_bvars_at (instantiate b s) 0 = false :=
  loose_instantiate_at b 0 0 s (Nat.le_refl _) hb hs

theorem loose_beta_pass (e : Expr) (k : Nat) (h : has_loose_bvars_at e k = false) :
    has_loose_bvars_at (beta_pass e) k = false := by
  induction e generalizing k with
  | app f a ihf iha =>
    simp only [has_loose_bvars_at, Bool.or_eq_false_iff] at h
    have hf := ihf k h.1
    have ha := iha k h.2
    simp only [beta_pass]
    split
    · rename_i n t b hfb
      rw [hfb] at hf
      simp only [has_loose_bvars_at, Bool.or_eq_false_iff] at hf
      exact loose_instantiate_at b 0 k _ (Nat.zero_le _) hf.2 (by simpa using ha)
    · simp [has_loose_bvars_at, hf, ha]
  | lam n t b _ ihb =>
    simp only [has_loose_bvars_at, Bool.or_eq_false_iff] at h
    simp [beta_pass, has_loose_bvars_at, h.1, ihb (k + 1) h.2]
  | pi n t b _ ihb =>
    simp only [has_loose_bvars_at, Bool.or_eq_false_iff] at h
    simp [beta_pass, has_loose_bvars_at, h.1, ihb (k + 1) h.2]
  | elet n t v b _ ihv ihb =>
    simp only [has_loose_bvars_at, Bool.or_eq_false_iff] at h
    simp [beta_pass, has_loose_bvars_at, h.1.1, ihv k h.1.2, ihb (k + 1) h.2]
  | mdata m e ih =>
    simp only [has_loose_bvars_at] at h
    simp [beta_pass, has_loose_bvars_at, ih k h]
  | _ => simpa [beta_pass] using h

theorem closed_beta_passes (n : Nat) (e : Expr) (h : has_loose_bvars_at e 0 = false) :
    has_loose_bvars_at (beta_passes n e) 0 = false := by
  induction n generalizing e with
  | zero => simpa [beta_passes] using h
  | succ n ih => exact ih _ (loose_beta_pass e 0 h)

theorem closed_add_dummy_proofs (n : Nat) (r : Expr) (h : has_loose_bvars_at r 0 = false) :
    has_loose_bvars_at (add_dummy_proofs n r) 0 = false := by
  rw [add_dummy_proofs_eq]
  apply closed_mk_app _ _ _ h
  intro a ha
  rw [List.eq_of_mem_replicate ha]
  rfl

theorem buffer_get_mem (args : List Expr) (i : Nat) (a : Expr)
    (h : buffer_get args i = .ok a) : a ∈ args := by
  unfold buffer_get at h
  cases h1 : args[i]? with
  | none => simp [h1, throw, throwThe, MonadExceptOf.throw] at h
  | some x =>
    simp [h1, pure, Except.pure] at h
    subst h
    exact List.getElem?_mem h1

theorem closed_visit_args (visit : LocalContext → Expr → Result Expr)
    (hP : ReturnsClosed visit) (lctx : LocalContext) (as rs : List Expr)
    (has : ∀ a ∈ as, has_loose_bvars_at a 0 = false)
    (h : visit_args visit lctx as = .ok rs) : ∀ r ∈ rs, has_loose_bvars_at r 0 = false := by
  induction as generalizing rs with
  | nil => simp [visit_args, pure, Except.pure] at h; subst h; simp
  | cons a as ih =>
    simp only [visit_args, bind, Except.bind] at h
    cases hv : visit lctx a with
    | error err => simp [hv] at h
    | ok a1 =>
      cases hr : visit_args visit lctx as with
      | error err => simp [hv, hr] at h
      | ok r =>
        simp [hv, hr, pure, Except.pure] at h
        subst h
        intro x hx
        rcases List.mem_cons.mp hx with hx | hx
        · subst hx
          exact hP _ _ _ (has a (List.mem_cons_self _ _)) hv
        · exact ih r (fun y hy => has y (List.mem_cons_of_mem _ hy)) hr x hx

theorem closed_add_args (V : Visitor) (visit : LocalContext → Expr → Result Expr)
    (hβ : ∀ e, has_loose_bvars_at e 0 = false → has_loose_bvars_at (V.beta_reduce e) 0 = false)
    (hP : ReturnsClosed visit) (lctx : LocalContext) (e : Expr) (start_idx : Nat)
    (args : List Expr) (r : Expr) (he : has_loose_bvars_at e 0 = false)
    (hargs : ∀ a ∈ args, has_loose_bvars_at a 0 = false)
    (h : add_args V visit lctx e start_idx args = .ok r) :
    has_loose_bvars_at r 0 = false := by
  simp only [add_args, add_args_loop_eq, bind, Except.bind, pure, Except.pure] at h
  cases hv : visit_args visit lctx (List.drop start_idx args) with
  | error err => simp [hv] at h
  | ok as1 =>
    simp [hv] at h
    subst h
    apply hβ
    exact closed_mk_app _ _ _ he
      (closed_visit_args visit hP lctx _ _
        (fun a ha => hargs a (List.mem_of_mem_drop ha)) hv)

theorem closed_peel_minor (n : Nat) (lctx : LocalContext) (locals : List LocalDecl)
    (e : Expr) (lctx1 : LocalContext) (locals1 : List LocalDecl) (body : Expr)
    (hl : ∀ d ∈ locals, has_loose_bvars_at d.type 0 = false)
    (he : has_loose_bvars_at e 0 = false)
    (h : peel_minor n lctx locals e = .ok (lctx1, locals1, body)) :
    (∀ d ∈ locals1, has_loose_bvars_at d.type 0 = false) ∧
      has_loose_bvars_at body 0 = false := by
  induction n generalizing lctx locals e with
  | zero =>
    simp [peel_minor, pure, Except.pure] at h
    obtain ⟨_, h2, h3⟩ := h
    subst h2 h3
    exact ⟨hl, he⟩
  | succ n ih =>
    cases e with
    | lam x d b =>
      simp only [peel_minor] at h
      simp only [has_loose_bvars_at, Bool.or_eq_false_iff] at he
      refine ih _ _ _ ?_ ?_ h
      · intro d' hd'
        rcases List.mem_append.mp hd' with h1 | h1
        · exact hl d' h1
        · simp [LocalContext.push] at h1
          subst h1
          exact he.1
      · exact closed_instantiate b _ he.2 (by rfl)
    | _ => simp [peel_minor, throw, throwThe, MonadExceptOf.throw] at h

theorem closed_distribute_args (V : Visitor) (visit : LocalContext → Expr → Result Expr)
    (hβ : ∀ e, has_loose_bvars_at e 0 = false → has_loose_bvars_at (V.beta_reduce e) 0 = false)
    (hP : ReturnsClosed visit) (lctx : LocalContext) (nparams : Nat) (args : List Expr)
    (hargs : ∀ a ∈ args, has_loose_bvars_at a 0 = false) (minors : List Expr)
    (cnames : List Name) (rs : List Expr)
    (hm : ∀ m ∈ minors, has_loose_bvars_at m 0 = false)
    (h : distribute_args V visit lctx nparams args minors cnames = .ok rs) :
    ∀ r ∈ rs, has_loose_bvars_at r 0 = false := by
  induction minors generalizing cnames rs with
  | nil => simp [distribute_args, pure, Except.pure] at h; subst h; simp
  | cons m ms ih =>
    cases cnames with
    | nil => simp [distribute_args, throw, throwThe, MonadExceptOf.throw] at h
    | cons c cs =>
      simp only [distribute_args, bind, Except.bind] at h
      cases hu : lean_assert (decide (V.env.get_constructor_arity c ≥ nparams)) with
      | error e1 => simp [hu] at h
      | ok u =>
        cases hpeel : peel_minor (V.env.get_constructor_arity c - nparams) lctx [] m with
        | error e2 => simp [hu, hpeel] at h
        | ok peeled =>
          cases hnm : visit peeled.1 peeled.2.2 with
          | error e3 => simp [hu, hpeel, hnm] at h
          | ok new_minor =>
            cases hrs : distribute_args V visit lctx nparams args ms cs with
            | error e4 => simp [hu, hpeel, hnm, hrs] at h
            | ok rs1 =>
              simp [hu, hpeel, hnm, hrs, pure, Except.pure] at h
              subst h
              have hnv := peel_minor_no_values _ _ _ _ peeled.1 peeled.2.1 peeled.2.2
                (by simp) hpeel
              obtain ⟨hty, hbody⟩ := closed_peel_minor _ _ _ _ peeled.1 peeled.2.1 peeled.2.2
                (by simp) (hm m (List.mem_cons_self _ _)) hpeel
              intro x hx
              rcases List.mem_cons.mp hx with hx | hx
              · subst hx
                apply loose_erase_lambda_let_types
                apply closed_mk_lambda _ _ hty
                · intro d hd v hv
                  rw [hnv d hd] at hv
                  cases hv
                · apply hβ
                  exact closed_mk_app _ _ _ (hP _ _ _ hbody hnm) hargs
              · exact ih cs rs1 (fun y hy => hm y (List.mem_cons_of_mem _ hy)) hrs x hx

theorem closed_visit_minors (V : Visitor) (visit : LocalContext → Expr → Result Expr)
    (hβ : ∀ e, has_loose_bvars_at e 0 = false → has_loose_bvars_at (V.beta_reduce e) 0 = false)
    (hP : ReturnsClosed visit) (lctx : LocalContext) (nparams : Nat) (minors : List Expr)
    (cnames : List Name) (args : List Expr) (rs : List Expr)
    (hm : ∀ m ∈ minors, has_loose_bvars_at m 0 = false)
    (hargs : ∀ a ∈ args, has_loose_bvars_at a 0 = false)
    (h : visit_minors V visit lctx nparams minors cnames args = .ok rs) :
    ∀ r ∈ rs, has_loose_bvars_at r 0 = false := by
  unfold visit_minors at h
  split at h
  · simp only [bind, Except.bind] at h
    cases hv : visit_args visit lctx args with
    | error e1 => simp [hv] at h
    | ok args1 =>
      simp only [hv] at h
      exact closed_distribute_args V visit hβ hP lctx nparams args1
        (closed_visit_args visit hP lctx _ _ hargs hv) minors cnames rs hm h
  · exact closed_visit_args visit hP lctx minors rs hm h

theorem closed_visit_cases_on (V : Visitor) (visit : LocalContext → Expr → Result Expr)
    (hβ : ∀ e, has_loose_bvars_at e 0 = false → has_loose_bvars_at (V.beta_reduce e) 0 = false)
    (hP : ReturnsClosed visit) (lctx : LocalContext) (fn : Expr) (args : List Expr) (r : Expr)
    (hfn0 : has_loose_bvars_at fn 0 = false)
    (hargs : ∀ a ∈ args, has_loose_bvars_at a 0 = false)
    (h : visit_cases_on V visit lctx fn args = .ok r) : has_loose_bvars_at r 0 = false := by
  simp only [visit_cases_on, bind, Except.bind] at h
  split at h
  · simp at h
  · split at h
    · simp [pure, Except.pure, mk_enf_unreachable] at h; subst h; rfl
    · split at h
      · simp at h
      · split at h
        · simp at h
        · split at h
          · simp at h
          · split at h
            · simp at h
            · split at h
              · simp at h
              · rename_i minors1 hminors
                split at h
                · simp at h
                · rename_i major0 hmajor0
                  split at h
                  · simp at h
                  · rename_i major hmajor
                    split at h
                    · simp at h
                    · rename_i new_fn hfn
                      simp [pure, Except.pure] at h
                      subst h
                      have hms := closed_visit_minors V visit hβ hP _ _ _ _ _ _
                        (fun m hm => hargs m (List.mem_of_mem_drop (List.mem_of_mem_take hm)))
                        (fun a ha => hargs a (List.mem_of_mem_drop ha)) hminors
                      apply closed_mk_app _ _ _ _ hms
                      apply closed_mk_app _ _ _ (hP _ _ _ hfn0 hfn)
                      intro a ha
                      simp at ha
                      subst ha
                      exact hP _ _ _ (hargs _ (buffer_get_mem _ _ _ hmajor0)) hmajor

theorem closed_visit_rec (V : Visitor) (visit : LocalContext → Expr → Result Expr)
    (hβ : ∀ e, has_loose_bvars_at e 0 = false → has_loose_bvars_at (V.beta_reduce e) 0 = false)
    (hP : ReturnsClosed visit) (lctx : LocalContext) (fn : Expr) (args : List Expr) (r : Expr)
    (hargs : ∀ a ∈ args, has_loose_bvars_at a 0 = false)
    (h : visit_rec V visit lctx fn args = .ok r) : has_loose_bvars_at r 0 = false := by
  simp only [visit_rec, bind, Except.bind] at h
  split at h
  · simp at h
  · split at h
    · simp [pure, Except.pure, mk_enf_unreachable] at h; subst h; rfl
    · split at h
      · simp at h
      · split at h
        · simp at h
        · split at h
          · simp at h
          · split at h
            · simp at h
            · split at h
              · simp at h
              · split at h
                · simp at h
                · rename_i major0 hmajor0
                  split at h
                  · simp at h
                  · rename_i major hmajor
                    split at h
                    · simp at h
                    · rename_i minors1 hminors
                      simp [pure, Except.pure] at h
                      subst h
                      have hms := closed_visit_minors V visit hβ hP _ _ _ _ _ _
                        (fun m hm => hargs m (List.mem_of_mem_drop (List.mem_of_mem_take hm)))
                        (fun a ha => hargs a (List.mem_of_mem_drop ha)) hminors
                      apply closed_mk_app _ _ _ _ hms
                      apply closed_mk_app _ _ _ (by rfl)
                      intro a ha
                      simp at ha
                      subst ha
                      exact hP _ _ _ (hargs _ (buffer_get_mem _ _ _ hmajor0)) hmajor

theorem closed_consume_lambdas_loop (V : Visitor)
    (hβ : ∀ e, has_loose_bvars_at e 0 = false → has_loose_bvars_at (V.beta_reduce e) 0 = false)
    (n : Nat) (lctx : LocalContext)
    (locals : List LocalDecl) (e : Expr) (lctx1 : LocalContext) (locals1 : List LocalDecl)
    (body : Expr) (hl : ∀ d ∈ locals, has_loose_bvars_at d.type 0 = false)
    (he : has_loose_bvars_at e 0 = false)
    (h : consume_lambdas_loop V n lctx locals e = .ok (lctx1, locals1, body)) :
    (∀ d ∈ locals1, has_loose_bvars_at d.type 0 = false) ∧
      has_loose_bvars_at body 0 = false := by
  induction n generalizing lctx locals e with
  | zero =>
    cases e with
    | lam x d b => simp [consume_lambdas_loop, throw, throwThe, MonadExceptOf.throw] at h
    | _ =>
      simp [consume_lambdas_loop, pure, Except.pure] at h
      obtain ⟨_, h2, h3⟩ := h
      subst h2 h3
      exact ⟨hl, hβ _ he⟩
  | succ n ih =>
    cases e with
    | lam x d b =>
      simp only [consume_lambdas_loop] at h
      simp only [has_loose_bvars_at, Bool.or_eq_false_iff] at he
      refine ih _ _ _ ?_ ?_ h
      · intro d' hd'
        rcases List.mem_append.mp hd' with h1 | h1
        · exact hl d' h1
        · simp [LocalContext.push] at h1
          subst h1
          exact he.1
      · exact closed_instantiate b _ he.2 (by rfl)
    | _ =>
      simp [consume_lambdas_loop, pure, Except.pure] at h
      obtain ⟨_, h2, h3⟩ := h
      subst h2 h3
      exact ⟨hl, hβ _ he⟩

theorem closed_visit_no_confusion (V : Visitor) (visit : LocalContext → Expr → Result Expr)
    (hβ : ∀ e, has_loose_bvars_at e 0 = false → has_loose_bvars_at (V.beta_reduce e) 0 = false)
    (hP : ReturnsClosed visit) (lctx : LocalContext) (fn : Expr) (args : List Expr) (r : Expr)
    (hargs : ∀ a ∈ args, has_loose_bvars_at a 0 = false)
    (h : visit_no_confusion V visit lctx fn args = .ok r) : has_loose_bvars_at r 0 = false := by
  simp only [visit_no_confusion, bind, Except.bind] at h
  repeat' (split at h)
  all_goals first
    | (simp [throw, throwThe, MonadExceptOf.throw] at h)
    | (simp [pure, Except.pure, mk_enf_unreachable] at h; subst h; rfl)
    | skip
  rename_i major0 hmajor0 _ peeled hpeel _ major2 hmajor2
  have hnv := consume_lambdas_loop_no_values V _ _ _ _ peeled.1 peeled.2.1 peeled.2.2
    (by simp) hpeel
  obtain ⟨hty, hbody⟩ := closed_consume_lambdas_loop V hβ _ _ _ _ peeled.1 peeled.2.1 peeled.2.2
    (by simp) (hargs _ (buffer_get_mem _ _ _ hmajor0)) hpeel
  refine closed_add_args V visit hβ hP _ _ _ _ _ ?_ hargs h
  apply closed_add_dummy_proofs
  apply loose_erase_lambda_let_types
  apply closed_mk_lambda _ _ hty
  · intro d hd v hv
    rw [hnv d hd] at hv
    cases hv
  · exact hP _ _ _ hbody hmajor2

theorem closed_visit_eq_rec (V : Visitor) (visit : LocalContext → Expr → Result Expr)
    (hβ : ∀ e, has_loose_bvars_at e 0 = false → has_loose_bvars_at (V.beta_reduce e) 0 = false)
    (hP : ReturnsClosed visit) (lctx : LocalContext) (args : List Expr) (r : Expr)
    (hargs : ∀ a ∈ args, has_loose_bvars_at a 0 = false)
    (h : visit_eq_rec V visit lctx args = .ok r) : has_loose_bvars_at r 0 = false := by
  simp only [visit_eq_rec, bind, Except.bind] at h
  split at h
  · simp at h
  · split at h
    · simp at h
    · rename_i a0 ha0
      split at h
      · simp at h
      · rename_i major hmajor
        exact closed_add_args V visit hβ hP _ _ _ _ _
          (hP _ _ _ (hargs _ (buffer_get_mem _ _ _ ha0)) hmajor) hargs h

theorem closed_visit_subtype_mk (V : Visitor) (visit : LocalContext → Expr → Result Expr)
    (hβ : ∀ e, has_loose_bvars_at e 0 = false → has_loose_bvars_at (V.beta_reduce e) 0 = false)
    (hP : ReturnsClosed visit) (lctx : LocalContext) (args : List Expr) (r : Expr)
    (hargs : ∀ a ∈ args, has_loose_bvars_at a 0 = false)
    (h : visit_subtype_mk V visit lctx args = .ok r) : has_loose_bvars_at r 0 = false := by
  simp only [visit_subtype_mk, bind, Except.bind] at h
  split at h
  · simp at h
  · split at h
    · simp at h
    · rename_i a0 ha0
      split at h
      · simp at h
      · rename_i major hmajor
        exact closed_add_args V visit hβ hP _ _ _ _ _
          (hP _ _ _ (hargs _ (buffer_get_mem _ _ _ ha0)) hmajor) hargs h

theorem closed_visit_subtype_val (V : Visitor) (visit : LocalContext → Expr → Result Expr)
    (hβ : ∀ e, has_loose_bvars_at e 0 = false → has_loose_bvars_at (V.beta_reduce e) 0 = false)
    (hP : ReturnsClosed visit) (lctx : LocalContext) (args : List Expr) (r : Expr)
    (hargs : ∀ a ∈ args, has_loose_bvars_at a 0 = false)
    (h : visit_subtype_val V visit lctx args = .ok r) : has_loose_bvars_at r 0 = false := by
  simp only [visit_subtype_val, bind, Except.bind] at h
  split at h
  · simp at h
  · split at h
    · simp at h
    · rename_i a0 ha0
      split at h
      · simp at h
      · rename_i major hmajor
        exact closed_add_args V visit hβ hP _ _ _ _ _
          (hP _ _ _ (hargs _ (buffer_get_mem _ _ _ ha0)) hmajor) hargs h

theorem closed_visit_quot_mk (V : Visitor) (visit : LocalContext → Expr → Result Expr)
    (hβ : ∀ e, has_loose_bvars_at e 0 = false → has_loose_bvars_at (V.beta_reduce e) 0 = false)
    (hP : ReturnsClosed visit) (lctx : LocalContext) (args : List Expr) (r : Expr)
    (hargs : ∀ a ∈ args, has_loose_bvars_at a 0 = false)
    (h : visit_quot_mk V visit lctx args = .ok r) : has_loose_bvars_at r 0 = false := by
  simp only [visit_quot_mk, bind, Except.bind] at h
  split at h
  · simp at h
  · split at h
    · simp at h
    · rename_i a0 ha0
      split at h
      · simp at h
      · rename_i major hmajor
        exact closed_add_args V visit hβ hP _ _ _ _ _
          (hP _ _ _ (hargs _ (buffer_get_mem _ _ _ ha0)) hmajor) hargs h

theorem closed_pair (x : Expr) (a b : Expr) (hx : has_loose_bvars_at x 0 = false)
    (ha : has_loose_bvars_at a 0 = false) (hb : has_loose_bvars_at b 0 = false) :
    has_loose_bvars_at (mk_app x [a, b]) 0 = false := by
  simp [mk_app, has_loose_bvars_at, hx, ha, hb]

theorem closed_visit_and_cases_on (V : Visitor) (visit : LocalContext → Expr → Result Expr)
    (hβ : ∀ e, has_loose_bvars_at e 0 = false → has_loose_bvars_at (V.beta_reduce e) 0 = false)
    (hP : ReturnsClosed visit) (lctx : LocalContext) (args : List Expr) (r : Expr)
    (hargs : ∀ a ∈ args, has_loose_bvars_at a 0 = false)
    (h : visit_and_cases_on V visit lctx args = .ok r) : has_loose_bvars_at r 0 = false := by
  simp only [visit_and_cases_on, bind, Except.bind] at h
  split at h
  · simp at h
  · split at h
    · simp at h
    · rename_i a0 ha0
      split at h
      · simp at h
      · rename_i minor hminor
        refine closed_add_args V visit hβ hP _ _ _ _ _ (hβ _ ?_) hargs h
        exact closed_pair _ _ _ (hP _ _ _ (hargs _ (buffer_get_mem _ _ _ ha0)) hminor)
          (by rfl) (by rfl)

theorem closed_visit_and_rec (V : Visitor) (visit : LocalContext → Expr → Result Expr)
    (hβ : ∀ e, has_loose_bvars_at e 0 = false → has_loose_bvars_at (V.beta_reduce e) 0 = false)
    (hP : ReturnsClosed visit) (lctx : LocalContext) (args : List Expr) (r : Expr)
    (hargs : ∀ a ∈ args, has_loose_bvars_at a 0 = false)
    (h : visit_and_rec V visit lctx args = .ok r) : has_loose_bvars_at r 0 = false := by
  simp only [visit_and_rec, bind, Except.bind] at h
  split at h
  · simp at h
  · split at h
    · simp at h
    · rename_i a0 ha0
      split at h
      · simp at h
      · rename_i minor hminor
        refine closed_add_args V visit hβ hP _ _ _ _ _ (hβ _ ?_) hargs h
        exact closed_pair _ _ _ (hP _ _ _ (hargs _ (buffer_get_mem _ _ _ ha0)) hminor)
          (by rfl) (by rfl)

theorem closed_visit_subtype_rec (V : Visitor) (visit : LocalContext → Expr → Result Expr)
    (hβ : ∀ e, has_loose_bvars_at e 0 = false → has_loose_bvars_at (V.beta_reduce e) 0 = false)
    (hP : ReturnsClosed visit) (lctx : LocalContext) (args : List Expr) (r : Expr)
    (hargs : ∀ a ∈ args, has_loose_bvars_at a 0 = false)
    (h : visit_subtype_rec V visit lctx args = .ok r) : has_loose_bvars_at r 0 = false := by
  simp only [visit_subtype_rec, bind, Except.bind] at h
  split at h
  · simp at h
  · split at h
    · simp at h
    · rename_i a0 ha0
      split at h
      · simp at h
      · rename_i minor hminor
        split at h
        · simp at h
        · rename_i a1 ha1
          split at h
          · simp at h
          · rename_i major hmajor
            refine closed_add_args V visit hβ hP _ _ _ _ _ ?_ hargs h
            exact closed_pair _ _ _ (hP _ _ _ (hargs _ (buffer_get_mem _ _ _ ha0)) hminor)
              (hP _ _ _ (hargs _ (buffer_get_mem _ _ _ ha1)) hmajor) (by rfl)

theorem closed_visit_acc_cases_on (V : Visitor) (visit : LocalContext → Expr → Result Expr)
    (hβ : ∀ e, has_loose_bvars_at e 0 = false → has_loose_bvars_at (V.beta_reduce e) 0 = false)
    (hP : ReturnsClosed visit) (lctx : LocalContext) (args : List Expr) (r : Expr)
    (hargs : ∀ a ∈ args, has_loose_bvars_at a 0 = false)
    (h : visit_acc_cases_on V visit lctx args = .ok r) : has_loose_bvars_at r 0 = false := by
  simp only [visit_acc_cases_on, bind, Except.bind] at h
  split at h
  · simp at h
  · split at h
    · simp at h
    · rename_i a0 ha0
      split at h
      · simp at h
      · rename_i a ha
        split at h
        · simp at h
        · rename_i a1 ha1
          split at h
          · simp at h
          · rename_i minor hminor
            refine closed_add_args V visit hβ hP _ _ _ _ _ (hβ _ ?_) hargs h
            exact closed_pair _ _ _ (hP _ _ _ (hargs _ (buffer_get_mem _ _ _ ha1)) hminor)
              (hP _ _ _ (hargs _ (buffer_get_mem _ _ _ ha0)) ha) (by rfl)

theorem closed_visit_quot_lift (V : Visitor) (visit : LocalContext → Expr → Result Expr)
    (hβ : ∀ e, has_loose_bvars_at e 0 = false → has_loose_bvars_at (V.beta_reduce e) 0 = false)
    (hP : ReturnsClosed visit) (lctx : LocalContext) (args : List Expr) (r : Expr)
    (hargs : ∀ a ∈ args, has_loose_bvars_at a 0 = false)
    (h : visit_quot_lift V visit lctx args = .ok r) : has_loose_bvars_at r 0 = false := by
  simp only [visit_quot_lift, bind, Except.bind] at h
  split at h
  · simp at h
  · split at h
    · simp at h
    · rename_i a0 ha0
      split at h
      · simp at h
      · rename_i f hf
        split at h
        · simp at h
        · rename_i a1 ha1
          split at h
          · simp at h
          · rename_i q hq
            refine closed_add_args V visit hβ hP _ _ _ _ _ (hβ _ ?_) hargs h
            apply closed_mk_app _ _ _ (hP _ _ _ (hargs _ (buffer_get_mem _ _ _ ha0)) hf)
            intro x hx
            simp at hx
            subst hx
            exact hP _ _ _ (hargs _ (buffer_get_mem _ _ _ ha1)) hq

theorem closed_visit_lambda_let_loop (visit : LocalContext → Expr → Result Expr)
    (hP : ReturnsClosed visit) (t : Expr) (lctx : LocalContext) (locals : List LocalDecl)
    (r : Expr) (hty : ∀ d ∈ locals, has_loose_bvars_at d.type 0 = false)
    (hl : ∀ d ∈ locals, ∀ v, d.value = some v → has_loose_bvars_at v 0 = false)
    (ht : has_loose_bvars_at t locals.length = false)
    (h : visit_lambda_let_loop visit lctx locals t = .ok r) :
    has_loose_bvars_at r 0 = false := by
  induction t generalizing lctx locals with
  | lam n d b _ ihb =>
    simp only [visit_lambda_let_loop] at h
    simp only [has_loose_bvars_at, Bool.or_eq_false_iff] at ht
    refine ihb _ _ ?_ ?_ (by simpa using ht.2) h
    · intro d' hd'
      rcases List.mem_append.mp hd' with h1 | h1
      · exact hty d' h1
      · simp [LocalContext.push] at h1
        subst h1
        exact inst_closed locals d ht.1
    · intro d' hd' v hv
      rcases List.mem_append.mp hd' with h1 | h1
      · exact hl d' h1 v hv
      · simp [LocalContext.push] at h1
        subst h1
        simp at hv
  | elet n t v b _ _ ihb =>
    simp only [visit_lambda_let_loop] at h
    simp only [has_loose_bvars_at, Bool.or_eq_false_iff] at ht
    split at h
    · simp at h
    · rename_i v1 hv1
      refine ihb _ _ ?_ ?_ (by simpa using ht.2) h
      · intro d' hd'
        rcases List.mem_append.mp hd' with h1 | h1
        · exact hty d' h1
        · simp [LocalContext.push] at h1
          subst h1
          exact inst_closed locals t ht.1.1
      · intro d' hd' v hv
        rcases List.mem_append.mp hd' with h1 | h1
        · exact hl d' h1 v hv
        · simp [LocalContext.push] at h1
          subst h1
          simp at hv
          subst hv
          exact hP _ _ _ (inst_closed locals _ ht.1.2) hv1
  | _ =>
    simp only [visit_lambda_let_loop] at h
    split at h
    · simp at h
    · rename_i t1 ht1
      simp [pure, Except.pure] at h
      subst h
      exact closed_mk_lambda locals t1 hty hl (hP _ _ _ (inst_closed locals _ ht) ht1)

theorem closed_visit_lambda (visit : LocalContext → Expr → Result Expr)
    (hP : ReturnsClosed visit) (lctx : LocalContext) (e r : Expr)
    (he : has_loose_bvars_at e 0 = false)
    (h : visit_lambda visit lctx e = .ok r) : has_loose_bvars_at r 0 = false := by
  simp only [visit_lambda, compiler_step_visitor_visit_lambda_let, bind, Except.bind] at h
  split at h
  · simp at h
  · rename_i r1 hr1
    simp [pure, Except.pure] at h
    subst h
    exact loose_erase_lambda_let_types _ _
      (closed_visit_lambda_let_loop visit hP e lctx [] r1 (by simp) (by simp) he hr1)

theorem closed_visit_let (visit : LocalContext → Expr → Result Expr)
    (hP : ReturnsClosed visit) (lctx : LocalContext) (e r : Expr)
    (he : has_loose_bvars_at e 0 = false)
    (h : visit_let visit lctx e = .ok r) : has_loose_bvars_at r 0 = false := by
  simp only [visit_let, compiler_step_visitor_visit_lambda_let, bind, Except.bind] at h
  split at h
  · simp at h
  · rename_i r1 hr1
    simp [pure, Except.pure] at h
    subst h
    exact loose_erase_lambda_let_types _ _
      (closed_visit_lambda_let_loop visit hP e lctx [] r1 (by simp) (by simp) he hr1)

theorem closed_app_parts (e : Expr) (he : has_loose_bvars_at e 0 = false) :
    has_loose_bvars_at (get_app_fn e) 0 = false ∧
      ∀ x ∈ get_app_args e, has_loose_bvars_at x 0 = false := by
  obtain ⟨⟨h1, _, _⟩, h2⟩ := app_parts e 0 (next_local_id e) he (Nat.le_refl _)
  exact ⟨h1, fun x hx => (h2 x hx).1⟩

theorem closed_generic_visit_app (visit : LocalContext → Expr → Result Expr)
    (hP : ReturnsClosed visit) (lctx : LocalContext) (e r : Expr)
    (he : has_loose_bvars_at e 0 = false)
    (h : compiler_step_visitor_visit_app visit lctx e = .ok r) :
    has_loose_bvars_at r 0 = false := by
  obtain ⟨hfn0, hargs⟩ := closed_app_parts e he
  simp only [compiler_step_visitor_visit_app, bind, Except.bind] at h
  split at h
  · simp at h
  · rename_i new_fn hfn
    split at h
    · simp at h
    · rename_i new_args hnew
      simp [pure, Except.pure] at h
      subst h
      exact closed_mk_app _ _ _ (hP _ _ _ hfn0 hfn)
        (closed_visit_args visit hP lctx _ _ hargs hnew)

theorem closed_visit_app_const (V : Visitor) (visit : LocalContext → Expr → Result Expr)
    (hβ : ∀ e, has_loose_bvars_at e 0 = false → has_loose_bvars_at (V.beta_reduce e) 0 = false)
    (hP : ReturnsClosed visit) (lctx : LocalContext) (e : Expr)
    (n : Name) (r : Expr) (he : has_loose_bvars_at e 0 = false)
    (h : visit_app_const V visit lctx e (get_app_fn e) (get_app_args e) n = .ok r) :
    has_loose_bvars_at r 0 = false := by
  obtain ⟨hfn0, hargs⟩ := closed_app_parts e he
  unfold visit_app_const at h
  by_cases h1 : n = get_eq_rec_name
  · rw [if_pos h1] at h
    exact closed_visit_eq_rec V visit hβ hP _ _ _ hargs h
  rw [if_neg h1] at h
  by_cases h2 : n = get_acc_cases_on_name
  · rw [if_pos h2] at h
    exact closed_visit_acc_cases_on V visit hβ hP _ _ _ hargs h
  rw [if_neg h2] at h
  by_cases h3 : n = get_and_cases_on_name
  · rw [if_pos h3] at h
    exact closed_visit_and_cases_on V visit hβ hP _ _ _ hargs h
  rw [if_neg h3] at h
  by_cases h4 : n = get_and_rec_name
  · rw [if_pos h4] at h
    exact closed_visit_and_rec V visit hβ hP _ _ _ hargs h
  rw [if_neg h4] at h
  by_cases h5 : n = get_quot_lift_name
  · rw [if_pos h5] at h
    exact closed_visit_quot_lift V visit hβ hP _ _ _ hargs h
  rw [if_neg h5] at h
  by_cases h6 : n = get_quot_mk_name
  · rw [if_pos h6] at h
    exact closed_visit_quot_mk V visit hβ hP _ _ _ hargs h
  rw [if_neg h6] at h
  by_cases h7 : n = get_subtype_rec_name
  · rw [if_pos h7] at h
    exact closed_visit_subtype_rec V visit hβ hP _ _ _ hargs h
  rw [if_neg h7] at h
  by_cases h8 : V.env.is_cases_on_recursor n = true
  · rw [if_pos h8] at h
    exact closed_visit_cases_on V visit hβ hP _ _ _ _ hfn0 hargs h
  rw [if_neg h8] at h
  by_cases h9 : V.env.is_recursor n = true
  · rw [if_pos h9] at h
    exact closed_visit_rec V visit hβ hP _ _ _ _ hargs h
  rw [if_neg h9] at h
  by_cases h10 : V.env.is_no_confusion n = true
  · rw [if_pos h10] at h
    exact closed_visit_no_confusion V visit hβ hP _ _ _ _ hargs h
  rw [if_neg h10] at h
  by_cases h11 : n = get_subtype_mk_name
  · rw [if_pos h11] at h
    exact closed_visit_subtype_mk V visit hβ hP _ _ _ hargs h
  rw [if_neg h11] at h
  by_cases h12 : n = get_subtype_val_name
  · rw [if_pos h12] at h
    exact closed_visit_subtype_val V visit hβ hP _ _ _ hargs h
  rw [if_neg h12] at h
  by_cases h13 : n = get_lc_unreachable_name
  · rw [if_pos h13] at h
    simp [pure, Except.pure, mk_enf_unreachable] at h; subst h; rfl
  rw [if_neg h13] at h
  exact closed_generic_visit_app visit hP _ _ _ he h

theorem closed_visit_app (V : Visitor) (visit : LocalContext → Expr → Result Expr)
    (hβ : ∀ e, has_loose_bvars_at e 0 = false → has_loose_bvars_at (V.beta_reduce e) 0 = false)
    (hP : ReturnsClosed visit) (lctx : LocalContext) (e r : Expr)
    (he : has_loose_bvars_at e 0 = false)
    (h : visit_app V visit lctx e = .ok r) : has_loose_bvars_at r 0 = false := by
  unfold visit_app at h
  split at h
  · simp [pure, Except.pure, mk_enf_neutral] at h; subst h; rfl
  · split at h
    · simp [pure, Except.pure] at h; subst h; rfl
    · simp only at h
      split at h
      · exact hP _ _ _ (hβ _ he) h
      · split at h
        · exact closed_visit_app_const V visit hβ hP _ _ _ _ he h
        · exact closed_generic_visit_app visit hP _ _ _ he h

theorem closed_visit_core (V : Visitor) (visit : LocalContext → Expr → Result Expr)
    (hβ : ∀ e, has_loose_bvars_at e 0 = false → has_loose_bvars_at (V.beta_reduce e) 0 = false)
    (hP : ReturnsClosed visit) (lctx : LocalContext) (e r : Expr)
    (he : has_loose_bvars_at e 0 = false)
    (h : visit_core V visit lctx e = .ok r) : has_loose_bvars_at r 0 = false := by
  cases e with
  | sort l => simp [visit_core, visit_sort, pure, Except.pure, mk_enf_neutral] at h; subst h; rfl
  | pi n d b => simp [visit_core, visit_pi, pure, Except.pure, mk_enf_neutral] at h; subst h; rfl
  | mdata m e =>
    simp only [visit_core, visit_mdata] at h
    split at h
    · simp [pure, Except.pure, mk_enf_neutral] at h; subst h; rfl
    · split at h
      · simp [pure, Except.pure, mk_enf_neutral] at h; subst h; rfl
      · simp only [mdata_expr, bind, Except.bind, pure, Except.pure] at h
        exact hP _ _ _ (by simpa [has_loose_bvars_at] using he) h
  | loc i =>
    simp only [visit_core, visit_local] at h
    split at h
    · simp [pure, Except.pure, mk_enf_neutral] at h; subst h; rfl
    · simp [pure, Except.pure] at h; subst h; rfl
  | const n ls =>
    simp only [visit_core, visit_constant] at h
    split at h
    · simp [pure, Except.pure, mk_enf_neutral] at h; subst h; rfl
    · simp only [const_name, bind, Except.bind, pure, Except.pure] at h
      split at h
      · simp [mk_enf_unreachable] at h; subst h; rfl
      · simp at h; subst h; rfl
  | lam n d b => exact closed_visit_lambda visit hP lctx _ r he h
  | elet n t v b => exact closed_visit_let visit hP lctx _ r he h
  | app f a => exact closed_visit_app V visit hβ hP lctx _ r he h
  | bvar i => simp [visit_core, pure, Except.pure] at h; subst h; exact he
  | lit n => simp [visit_core, pure, Except.pure] at h; subst h; rfl
  | neutral => simp [visit_core, pure, Except.pure] at h; subst h; rfl
  | unreachable => simp [visit_core, pure, Except.pure] at h; subst h; rfl

theorem visit_returns_closed (V : Visitor)
    (hβ : ∀ e, has_loose_bvars_at e 0 = false → has_loose_bvars_at (V.beta_reduce e) 0 = false)
    (fuel : Nat) : ReturnsClosed (visit V fuel) := by
  induction fuel with
  | zero =>
    intro lctx e r _ h
    simp [visit, throw, throwThe, MonadExceptOf.throw] at h
  | succ fuel ih =>
    intro lctx e r he h
    exact closed_visit_core V (visit V fuel) hβ ih lctx e r he h

/-- C1, amended: for every closed input `e` that the pass erases to `r`,
    erasing `r` again gives `r`, provided that

    * the oracle judges no constant, local or application of `r` that is
      visited irrelevant, and the literal recognizer folds no application of
      `r`;
    * no application of `r` has as head a lambda or a constant that the
      dispatch of `visit_app` sends to an operator-specific method, so that in
      particular `r` contains no case split;
    * every `Lambda`/`Let` chain of `r` that ends in `NeutralMarker` is
      collapsed.

    That `r` is closed, that it has no `Sort`, `Pi` or metadata node in a
    visited position, that its constants carry no universe arguments and are
    not the unreachable constant, and that Binder-Type Erasure keeps its
    binder types, follows from `r` being the output of the pass on `e`, for a
    `beta_reduce` that keeps closed terms closed and terms in erased form in
    erased form. -/
theorem erase_idempotent_on_quiet (V : Visitor)
    (hβ : ∀ x, erased_form x = true → erased_form (V.beta_reduce x) = true)
    (hβc : ∀ x, has_loose_bvars_at x 0 = false → has_loose_bvars_at (V.beta_reduce x) 0 = false)
    (fuel : Nat) (e r : Expr) (he : has_loose_bvars e = false)
    (h : old_erase_irrelevant V fuel e = .ok r)
    (hq : Quiet V ⟨[], next_local_id r⟩ [] r)
    (fuel2 : Nat) (hf : expr_size r ≤ fuel2) :
    erased_form r = true ∧ has_loose_bvars r = false ∧
    (old_erase_irrelevant V fuel e >>= old_erase_irrelevant V fuel2)
      = old_erase_irrelevant V fuel e := by
  have hform : erased_form r = true := visit_returns_erased_form V hβ fuel _ e r h
  have hc : has_loose_bvars r = false := visit_returns_closed V hβc fuel _ e r he h
  refine ⟨hform, hc, ?_⟩
  rw [h]
  exact stable_fixed V _ r (quiet_stable V _ _ r hq hform) hc (Nat.le_refl _) fuel2 hf

/-- Witness of C1, amended: `fun (x : nat) => eq.rec A a C k.{1} b h x` is erased
    to `fun (x : nat) => k x`, which is erased to itself. -/
theorem erase_idempotent_on_quiet_witness :
    old_erase_irrelevant sample_visitor 10 sample_fun_cast
      = .ok (.lam (name1 "x") (cst "nat") (.app (cst "k") (.bvar 0))) ∧
    (old_erase_irrelevant sample_visitor 10 sample_fun_cast
        >>= old_erase_irrelevant sample_visitor 10)
      = old_erase_irrelevant sample_visitor 10 sample_fun_cast :=
  ⟨by rfl,
   (erase_idempotent_on_quiet sample_visitor (erased_form_beta_passes 4) (closed_beta_passes 4)
    10 sample_fun_cast
    (.lam (name1 "x") (cst "nat") (.app (cst "k") (.bvar 0))) (by rfl) (by rfl)
    (Quiet.lam _ [] _ _ _ (fun _ hi => absurd hi (by decide))
      (Quiet.body _ _ _ (by rfl) (by rfl) (by simp)
        (Quiet.app _ (cst "k") (.loc 0) (by rfl) (by rfl) (by rfl)
          (Quiet.const _ (name1 "k") [] (by rfl))
          (fun x hx => by
            have hx2 : x = Expr.loc 0 := by
              simpa [get_app_args, get_app_args_aux] using hx
            rw [hx2]
            exact Quiet.loc _ 0 (by rfl)))))
    10 (by decide)).2.2⟩

end OldEraseIrrelevant
